import Mathlib

/-!
Verification development for `codemend/thonny/ast_utils.py`, a Python-2
module that decorates a parsed Python AST with end positions
(`mark_text_ranges`), corrects known parser position bugs
(`fix_ast_problems`), and offers range/containment queries.

The module runs under Python 2 (it uses `print` statements and `unicode`),
so the embedding follows Python-2 semantics throughout:
`tokenize.generate_tokens` yields OP-typed (51) tokens for all punctuation,
an empty-string NEWLINE when the source lacks a trailing newline, and no
ENCODING token; the `token` module has no `ELLIPSIS` attribute.

Positions are `(line, col)` pairs ordered lexicographically.  Mutation of
node attributes in the source is embedded as functional update: functions
return the rewritten tree.  Python exceptions (AssertionError, IndexError
on `tokens[-1]` / `pop(0)`, AttributeError) are embedded as `Except` errors.
-/

namespace AstUtils

/-- A `(line, col)` position. -/
abbrev Pos := Nat × Nat

/-- Lexicographic `≤` on `(line, col)` positions. -/
def posLe (a b : Pos) : Bool :=
  a.1 < b.1 || (a.1 == b.1 && a.2 ≤ b.2)

/-- Lexicographic `<` on `(line, col)` positions. -/
def posLt (a b : Pos) : Bool :=
  a.1 < b.1 || (a.1 == b.1 && a.2 < b.2)

theorem posLe_refl (a : Pos) : posLe a a = true := by
  simp [posLe]

theorem posLe_trans {a b c : Pos} (h1 : posLe a b = true) (h2 : posLe b c = true) :
    posLe a c = true := by
  simp only [posLe, Bool.or_eq_true, Bool.and_eq_true, beq_iff_eq,
    decide_eq_true_eq] at *
  omega

theorem posLe_total (a b : Pos) : posLe a b = true ∨ posLe b a = true := by
  simp only [posLe, Bool.or_eq_true, Bool.and_eq_true, beq_iff_eq,
    decide_eq_true_eq]
  omega

theorem posLt_iff_not_le {a b : Pos} : posLt a b = true ↔ ¬ posLe b a = true := by
  simp only [posLt, posLe, Bool.or_eq_true, Bool.and_eq_true, beq_iff_eq,
    decide_eq_true_eq]
  omega

/-- A lexer token: `(type, string, start, end)`.  The fifth element of the
Python token tuple (the physical line) is never read by this module. -/
structure Tok where
  ttype : Nat
  tstr  : String
  spos  : Pos
  epos  : Pos
deriving DecidableEq, Repr

/- Python-2 `token` / `tokenize` numeric token type constants, as used by
the source (`token.NAME`, `tokenize.NL`, ...). -/
def tokENDMARKER : Nat := 0
def tokNAME : Nat := 1
def tokNUMBER : Nat := 2
def tokSTRING : Nat := 3
def tokNEWLINE : Nat := 4
def tokINDENT : Nat := 5
def tokRPAR : Nat := 8
def tokRSQB : Nat := 10
def tokRBRACE : Nat := 27
def tokOP : Nat := 51
def tokCOMMENT : Nat := 53
def tokNL : Nat := 54

/-- Python-2 `token` has no `ELLIPSIS` attribute, so the
`hasattr(token, "ELLIPSIS")` test in `_strip_trailing_junk_from_expressions`
is always false. -/
def hasEllipsisAttr : Bool := false

/-- Python `needle in haystack` on strings is a substring test. -/
def pyInStr (needle haystack : String) : Bool :=
  (haystack.data.tails).any (fun suf => needle.data.isPrefixOf suf)

/-- Characters stripped by Python `unicode.strip()` (the ASCII whitespace
subset; sources in this development contain no exotic Unicode whitespace). -/
def pyIsSpace (c : Char) : Bool :=
  c == ' ' || c == '\t' || c == '\n' || c == '\r' || c == '\x0b' || c == '\x0c'

/-- Python `s.strip()`. -/
def pyStrip (s : String) : String :=
  ⟨(s.data.dropWhile pyIsSpace).reverse.dropWhile pyIsSpace |>.reverse⟩

/-- Python `s.splitlines(True)`: split at newlines, keeping them.
Only `\n` line ends occur in the sources considered here. -/
def pySplitLinesGo : List Char → List Char → List String
  | [], acc => if acc.isEmpty then [] else [⟨acc.reverse⟩]
  | c :: rest, acc =>
    if c == '\n' then ⟨(c :: acc).reverse⟩ :: pySplitLinesGo rest []
    else pySplitLinesGo rest (c :: acc)

def pySplitLines (s : String) : List String :=
  pySplitLinesGo s.data []

/-- Number of bytes of the UTF-8 encoding of a character
(`line.encode("UTF-8")` in the source). -/
def utf8Width (c : Char) : Nat :=
  if c.val < 0x80 then 1
  else if c.val < 0x800 then 2
  else if c.val < 0x10000 then 3
  else 4

/-- `len(byte_line[:n].decode("UTF-8"))`: the character count obtained by
decoding the first `n` bytes of the UTF-8 encoding of `line`.  Python
clamps the byte slice at the end of the line; decoding fails
(UnicodeDecodeError) when `n` cuts a multi-byte character. -/
def decodePrefixLen : List Char → Nat → Option Nat
  | _, 0 => some 0
  | [], _ + 1 => some 0
  | c :: cs, n + 1 =>
    if utf8Width c ≤ n + 1 then
      (decodePrefixLen cs (n + 1 - utf8Width c)).map (· + 1)
    else none

/-- Errors of the embedded pipeline.  Python raises AssertionError,
IndexError, TypeError or AttributeError at the corresponding sites; the
constructors carry the specification's names for those failure modes. -/
inductive Err where
  /-- `assert len(source.strip()) > 0` at the top of `mark_text_ranges`. -/
  | emptySource
  /-- `tokens[-1]` on an empty window inside `_set_real_end` and its
  stripping helpers (IndexError). -/
  | tokenExhaustion
  /-- a failed `assert` inside `_set_real_end` peeling or `_mark_parameters`. -/
  | assertError
  /-- `string_tokens.pop(0)` on an empty queue, or an out-of-range line
  subscript, inside `fix_ast_problems` (IndexError). -/
  | indexError
  /-- decoding failure in a byte-to-char column translation. -/
  | decodeError
  /-- reference to an attribute missing from the Python-2 runtime
  (`tokenize.ENCODING` in `tokenize_with_char_offsets`). -/
  | attributeError
deriving DecidableEq, Repr

/-- The embedded Python AST: the `ast` node classes this module
manipulates.  Each positioned node carries its parser-reported start
`(lineno, col_offset)` and an `end` slot, `none` until
`mark_text_ranges` fills it in.  `ast.keyword` nodes have no native
position attributes (`keyword._attributes` is empty in Python 2); the
whole range `(start, end)` they receive from `_mark_parameters` is the
`rng` slot.  `Module` has no position attributes. -/
inductive PyNode : Type where
  | module     (body : List PyNode)
  | exprStmt   (p : Pos) (e : Option Pos) (value : PyNode)
  | name       (p : Pos) (e : Option Pos) (id : String)
  | num        (p : Pos) (e : Option Pos) (lit : String)
  | strE       (p : Pos) (e : Option Pos) (lit : String)
  | tupleE     (p : Pos) (e : Option Pos) (elts : List PyNode)
  | dictE      (p : Pos) (e : Option Pos) (keys : List PyNode) (vals : List PyNode)
  | binOp      (p : Pos) (e : Option Pos) (left : PyNode) (right : PyNode)
  | attributeE (p : Pos) (e : Option Pos) (value : PyNode) (attr : String)
  | subscriptE (p : Pos) (e : Option Pos) (value : PyNode) (slice : PyNode)
  | call       (p : Pos) (e : Option Pos) (func : PyNode) (args : List PyNode)
               (kws : List PyNode) (star : List PyNode) (dstar : List PyNode)
  | kwNode     (arg : String) (rng : Option (Pos × Pos)) (value : PyNode)
deriving Repr

namespace PyNode

/-- `"lineno" in node._attributes and "col_offset" in node._attributes`:
true for statements and expressions, false for `Module` and `keyword`. -/
def positionedKind : PyNode → Bool
  | module _ => false
  | kwNode _ _ _ => false
  | _ => true

/-- The parser-reported start of a natively positioned node
(`(node.lineno, node.col_offset)`); `(0, 0)` for kinds without one. -/
def startP : PyNode → Pos
  | module _ => (0, 0)
  | exprStmt p _ _ => p
  | name p _ _ => p
  | num p _ _ => p
  | strE p _ _ => p
  | tupleE p _ _ => p
  | dictE p _ _ _ => p
  | binOp p _ _ _ => p
  | attributeE p _ _ _ => p
  | subscriptE p _ _ _ => p
  | call p _ _ _ _ _ _ => p
  | kwNode _ _ _ => (0, 0)

/-- The `(end_lineno, end_col_offset)` slot of a natively positioned node;
for `keyword` nodes the end half of their assigned range. -/
def endOf : PyNode → Option Pos
  | module _ => none
  | exprStmt _ e _ => e
  | name _ e _ => e
  | num _ e _ => e
  | strE _ e _ => e
  | tupleE _ e _ => e
  | dictE _ e _ _ => e
  | binOp _ e _ _ => e
  | attributeE _ e _ _ => e
  | subscriptE _ e _ _ => e
  | call _ e _ _ _ _ _ => e
  | kwNode _ rng _ => rng.map (·.2)

/-- The native start of a node as reported after processing; for `keyword`
nodes the start half of their assigned range, `none` for `Module`. -/
def startOf : PyNode → Option Pos
  | module _ => none
  | kwNode _ rng _ => rng.map (·.1)
  | n => some n.startP

/-- The range slot assigned by `_mark_parameters` (only `keyword` nodes
have one). -/
def kwRngOf : PyNode → Option (Pos × Pos)
  | kwNode _ rng _ => rng
  | _ => none

def isStmtKind : PyNode → Bool
  | exprStmt _ _ _ => true
  | _ => false

def isTupleKind : PyNode → Bool
  | tupleE _ _ _ => true
  | _ => false

def isCallKind : PyNode → Bool
  | call _ _ _ _ _ _ _ => true
  | _ => false

def isAttrKind : PyNode → Bool
  | attributeE _ _ _ _ => true
  | _ => false

def isStrKind : PyNode → Bool
  | strE _ _ _ => true
  | _ => false

/-- `isinstance(node, ast.Call)` with every actual-argument list empty
(`not (node.args or node.keywords or node.starargs or node.kwargs)`). -/
def isCallNoArgs : PyNode → Bool
  | call _ _ _ args kws star dstar =>
    args.isEmpty && kws.isEmpty && star.isEmpty && dstar.isEmpty
  | _ => false

/-- The value held by a `keyword` node (`keyword.value`); identity on
other nodes. -/
def kwValueOf : PyNode → PyNode
  | kwNode _ _ v => v
  | n => n

/-- Replace the value of a `keyword` node. -/
def withKwValue : PyNode → PyNode → PyNode
  | kwNode a rng _, v => kwNode a rng v
  | n, _ => n

/-- `ast.iter_child_nodes(node)`: the node's children in native field
order (for `Call`: func, args, keywords, starargs, kwargs; for `Dict`:
all keys, then all values). -/
def iterChildNodes : PyNode → List PyNode
  | module body => body
  | exprStmt _ _ v => [v]
  | name _ _ _ => []
  | num _ _ _ => []
  | strE _ _ _ => []
  | tupleE _ _ elts => elts
  | dictE _ _ keys vals => keys ++ vals
  | binOp _ _ l r => [l, r]
  | attributeE _ _ v _ => [v]
  | subscriptE _ _ v s => [v, s]
  | call _ _ f args kws star dstar => f :: (args ++ kws ++ star ++ dstar)
  | kwNode _ _ v => [v]

/-- The `Dict` loop of `_get_ordered_child_nodes`:
`for i in range(len(node.keys)): children.append(node.keys[i]);
children.append(node.values[i])` — key then value for each entry. -/
def interleave : List PyNode → List PyNode → List PyNode
  | k :: ks, v :: vs => k :: v :: interleave ks vs
  | _, _ => []

/-- The child slots the recursive passes actually visit, in native order.
`_get_ordered_child_nodes` visits `kw.value` (not the `keyword` node) for
calls, interleaves keys and values for dicts, and uses native order
elsewhere. -/
def rawSlots : PyNode → List PyNode
  | module body => body
  | exprStmt _ _ v => [v]
  | name _ _ _ => []
  | num _ _ _ => []
  | strE _ _ _ => []
  | tupleE _ _ elts => elts
  | dictE _ _ keys vals => interleave keys vals
  | binOp _ _ l r => [l, r]
  | attributeE _ _ v _ => [v]
  | subscriptE _ _ v s => [v, s]
  | call _ _ f args kws star dstar =>
    f :: (args ++ kws.map kwValueOf ++ star ++ dstar)
  | kwNode _ _ v => [v]

/-- Rebuild a node with its `rawSlots` replaced (arity-respecting inverse
of `rawSlots`; for calls the keyword nodes are rebuilt around the updated
values). -/
def setSlots : PyNode → List PyNode → PyNode
  | module _, ss => module ss
  | exprStmt p e _, ss => exprStmt p e (ss.headD (name (0,0) none ""))
  | name p e i, _ => name p e i
  | num p e l, _ => num p e l
  | strE p e l, _ => strE p e l
  | tupleE p e _, ss => tupleE p e ss
  | dictE p e keys vals, ss =>
    let n := min keys.length vals.length
    dictE p e
      ((List.range n).map (fun i => ss.getD (2*i) (name (0,0) none "")))
      ((List.range n).map (fun i => ss.getD (2*i+1) (name (0,0) none "")))
  | binOp p e l r, ss => binOp p e (ss.getD 0 l) (ss.getD 1 r)
  | attributeE p e v a, ss => attributeE p e (ss.headD v) a
  | subscriptE p e v s, ss => subscriptE p e (ss.getD 0 v) (ss.getD 1 s)
  | call p e f args kws star _, ss =>
    let f' := ss.headD f
    let rest := ss.tail
    let args' := rest.take args.length
    let kwvals := (rest.drop args.length).take kws.length
    let star' := (rest.drop (args.length + kws.length)).take star.length
    let dstar' := rest.drop (args.length + kws.length + star.length)
    call p e f' args' (kws.zipWith withKwValue kwvals) star' dstar'
  | kwNode a rng _, ss => kwNode a rng (ss.headD (name (0,0) none ""))

/-- Write the `(end_lineno, end_col_offset)` slot. -/
def setEnd : PyNode → Pos → PyNode
  | module body, _ => module body
  | exprStmt p _ v, e => exprStmt p (some e) v
  | name p _ i, e => name p (some e) i
  | num p _ l, e => num p (some e) l
  | strE p _ l, e => strE p (some e) l
  | tupleE p _ elts, e => tupleE p (some e) elts
  | dictE p _ keys vals, e => dictE p (some e) keys vals
  | binOp p _ l r, e => binOp p (some e) l r
  | attributeE p _ v a, e => attributeE p (some e) v a
  | subscriptE p _ v s, e => subscriptE p (some e) v s
  | call p _ f args kws star dstar, e => call p (some e) f args kws star dstar
  | kwNode a rng v, _ => kwNode a rng v

/-- Overwrite the reported start of a positioned node (used by
`fix_ast_problems`). -/
def setStart : PyNode → Pos → PyNode
  | module body, _ => module body
  | exprStmt _ e v, p => exprStmt p e v
  | name _ e i, p => name p e i
  | num _ e l, p => num p e l
  | strE _ e l, p => strE p e l
  | tupleE _ e elts, p => tupleE p e elts
  | dictE _ e keys vals, p => dictE p e keys vals
  | binOp _ e l r, p => binOp p e l r
  | attributeE _ e v a, p => attributeE p e v a
  | subscriptE _ e v s, p => subscriptE p e v s
  | call _ e f args kws star dstar, p => call p e f args kws star dstar
  | kwNode a rng v, _ => kwNode a rng v

-- Size measure for termination of the recursive passes: each node costs
-- 2 plus the cost of its native child list (1 per list cell).
mutual
def nsize : PyNode → Nat
  | module body => 2 + lsize body
  | exprStmt _ _ v => 3 + nsize v
  | name _ _ _ => 2
  | num _ _ _ => 2
  | strE _ _ _ => 2
  | tupleE _ _ elts => 2 + lsize elts
  | dictE _ _ keys vals => 2 + lsize keys + lsize vals
  | binOp _ _ l r => 4 + nsize l + nsize r
  | attributeE _ _ v _ => 3 + nsize v
  | subscriptE _ _ v s => 4 + nsize v + nsize s
  | call _ _ f args kws star dstar =>
    3 + nsize f + lsize args + lsize kws + lsize star + lsize dstar
  | kwNode _ _ v => 3 + nsize v
def lsize : List PyNode → Nat
  | [] => 0
  | x :: xs => 1 + nsize x + lsize xs
end

theorem lsize_append (a b : List PyNode) : lsize (a ++ b) = lsize a + lsize b := by
  induction a with
  | nil => simp [lsize]
  | cons x xs ih =>
    simp only [List.cons_append, lsize, List.append_eq] at ih ⊢
    omega

theorem nsize_mem_lt {x : PyNode} {l : List PyNode} (h : x ∈ l) :
    nsize x < lsize l := by
  induction l with
  | nil => cases h
  | cons y ys ih =>
    rcases List.mem_cons.mp h with rfl | h2
    · simp only [lsize]; omega
    · have := ih h2; simp only [lsize]; omega

theorem nsize_pos (n : PyNode) : 2 ≤ nsize n := by
  cases n <;> simp only [nsize] <;> omega

theorem nsize_kwValueOf_le (n : PyNode) : nsize n.kwValueOf ≤ nsize n := by
  cases n <;> simp only [kwValueOf, nsize] <;> omega

theorem lsize_map_kwValueOf_le (l : List PyNode) :
    lsize (l.map kwValueOf) ≤ lsize l := by
  induction l with
  | nil => simp [lsize]
  | cons x xs ih =>
    have := nsize_kwValueOf_le x
    simp only [List.map_cons, lsize]; omega

theorem lsize_interleave_le (keys vals : List PyNode) :
    lsize (interleave keys vals) ≤ lsize keys + lsize vals := by
  induction keys generalizing vals with
  | nil => simp [interleave, lsize]
  | cons k ks ih =>
    cases vals with
    | nil => simp only [interleave, lsize]; omega
    | cons v vs =>
      have := ih vs
      simp only [interleave, lsize]
      omega

/-- The slot list of a node is strictly smaller than the node. -/
theorem lsize_rawSlots_lt (n : PyNode) : lsize n.rawSlots < nsize n := by
  cases n with
  | dictE p e keys vals =>
    have := lsize_interleave_le keys vals
    simp only [rawSlots, nsize]; omega
  | call p e f args kws star dstar =>
    have h1 := lsize_map_kwValueOf_le kws
    simp only [rawSlots, nsize, lsize, List.cons_append, lsize_append]
    omega
  | _ => simp only [rawSlots, nsize, lsize] <;> omega

theorem nsize_slot_lt {s : PyNode} {n : PyNode} (h : s ∈ n.rawSlots) :
    nsize s < nsize n := by
  have h1 := nsize_mem_lt h
  have h2 := lsize_rawSlots_lt n
  omega

theorem lsize_iter_lt (n : PyNode) : lsize n.iterChildNodes < nsize n := by
  cases n with
  | dictE p e keys vals =>
    simp only [iterChildNodes, nsize, lsize_append]; omega
  | call p e f args kws star dstar =>
    simp only [iterChildNodes, nsize, lsize, List.cons_append, lsize_append]
    omega
  | _ => simp only [iterChildNodes, nsize, lsize] <;> omega

theorem nsize_iter_lt {s : PyNode} {n : PyNode} (h : s ∈ n.iterChildNodes) :
    nsize s < nsize n := by
  have h1 := nsize_mem_lt h
  have h2 := lsize_iter_lt n
  omega

-- Structural equality test.  Python `==` on AST nodes is object identity;
-- in this embedding nodes are values, so identity is structural equality
-- (the standard shallow-embedding reading).
mutual
def nbeq : PyNode → PyNode → Bool
  | module b1, module b2 => lbeq b1 b2
  | exprStmt p1 e1 v1, exprStmt p2 e2 v2 => p1 == p2 && e1 == e2 && nbeq v1 v2
  | name p1 e1 i1, name p2 e2 i2 => p1 == p2 && e1 == e2 && i1 == i2
  | num p1 e1 l1, num p2 e2 l2 => p1 == p2 && e1 == e2 && l1 == l2
  | strE p1 e1 l1, strE p2 e2 l2 => p1 == p2 && e1 == e2 && l1 == l2
  | tupleE p1 e1 l1, tupleE p2 e2 l2 => p1 == p2 && e1 == e2 && lbeq l1 l2
  | dictE p1 e1 k1 v1, dictE p2 e2 k2 v2 =>
    p1 == p2 && e1 == e2 && lbeq k1 k2 && lbeq v1 v2
  | binOp p1 e1 l1 r1, binOp p2 e2 l2 r2 =>
    p1 == p2 && e1 == e2 && nbeq l1 l2 && nbeq r1 r2
  | attributeE p1 e1 v1 a1, attributeE p2 e2 v2 a2 =>
    p1 == p2 && e1 == e2 && nbeq v1 v2 && a1 == a2
  | subscriptE p1 e1 v1 s1, subscriptE p2 e2 v2 s2 =>
    p1 == p2 && e1 == e2 && nbeq v1 v2 && nbeq s1 s2
  | call p1 e1 f1 a1 k1 s1 d1, call p2 e2 f2 a2 k2 s2 d2 =>
    p1 == p2 && e1 == e2 && nbeq f1 f2 && lbeq a1 a2 && lbeq k1 k2 &&
      lbeq s1 s2 && lbeq d1 d2
  | kwNode a1 r1 v1, kwNode a2 r2 v2 => a1 == a2 && r1 == r2 && nbeq v1 v2
  | _, _ => false
def lbeq : List PyNode → List PyNode → Bool
  | [], [] => true
  | x :: xs, y :: ys => nbeq x y && lbeq xs ys
  | _, _ => false
end

set_option maxHeartbeats 2000000 in
mutual
theorem nbeq_sound : ∀ (a b : PyNode), nbeq a b = true → a = b
  | module b1, b, h => by
    cases b <;> simp only [nbeq] at h <;> try exact absurd h Bool.false_ne_true
    rw [lbeq_sound b1 _ h]
  | exprStmt p1 e1 v1, b, h => by
    cases b <;> simp only [nbeq, Bool.and_eq_true, beq_iff_eq] at h <;>
      try exact absurd h Bool.false_ne_true
    rw [h.1.1, h.1.2, nbeq_sound v1 _ h.2]
  | name p1 e1 i1, b, h => by
    cases b <;> simp only [nbeq, Bool.and_eq_true, beq_iff_eq] at h <;>
      try exact absurd h Bool.false_ne_true
    rw [h.1.1, h.1.2, h.2]
  | num p1 e1 l1, b, h => by
    cases b <;> simp only [nbeq, Bool.and_eq_true, beq_iff_eq] at h <;>
      try exact absurd h Bool.false_ne_true
    rw [h.1.1, h.1.2, h.2]
  | strE p1 e1 l1, b, h => by
    cases b <;> simp only [nbeq, Bool.and_eq_true, beq_iff_eq] at h <;>
      try exact absurd h Bool.false_ne_true
    rw [h.1.1, h.1.2, h.2]
  | tupleE p1 e1 l1, b, h => by
    cases b <;> simp only [nbeq, Bool.and_eq_true, beq_iff_eq] at h <;>
      try exact absurd h Bool.false_ne_true
    rw [h.1.1, h.1.2, lbeq_sound l1 _ h.2]
  | dictE p1 e1 k1 v1, b, h => by
    cases b <;> simp only [nbeq, Bool.and_eq_true, beq_iff_eq] at h <;>
      try exact absurd h Bool.false_ne_true
    rw [h.1.1.1, h.1.1.2, lbeq_sound k1 _ h.1.2, lbeq_sound v1 _ h.2]
  | binOp p1 e1 l1 r1, b, h => by
    cases b <;> simp only [nbeq, Bool.and_eq_true, beq_iff_eq] at h <;>
      try exact absurd h Bool.false_ne_true
    rw [h.1.1.1, h.1.1.2, nbeq_sound l1 _ h.1.2, nbeq_sound r1 _ h.2]
  | attributeE p1 e1 v1 a1, b, h => by
    cases b <;> simp only [nbeq, Bool.and_eq_true, beq_iff_eq] at h <;>
      try exact absurd h Bool.false_ne_true
    rw [h.1.1.1, h.1.1.2, nbeq_sound v1 _ h.1.2, h.2]
  | subscriptE p1 e1 v1 s1, b, h => by
    cases b <;> simp only [nbeq, Bool.and_eq_true, beq_iff_eq] at h <;>
      try exact absurd h Bool.false_ne_true
    rw [h.1.1.1, h.1.1.2, nbeq_sound v1 _ h.1.2, nbeq_sound s1 _ h.2]
  | call p1 e1 f1 a1 k1 s1 d1, b, h => by
    cases b <;> simp only [nbeq, Bool.and_eq_true, beq_iff_eq] at h <;>
      try exact absurd h Bool.false_ne_true
    rw [h.1.1.1.1.1.1, h.1.1.1.1.1.2, nbeq_sound f1 _ h.1.1.1.1.2,
      lbeq_sound a1 _ h.1.1.1.2, lbeq_sound k1 _ h.1.1.2,
      lbeq_sound s1 _ h.1.2, lbeq_sound d1 _ h.2]
  | kwNode a1 r1 v1, b, h => by
    cases b <;> simp only [nbeq, Bool.and_eq_true, beq_iff_eq] at h <;>
      try exact absurd h Bool.false_ne_true
    rw [h.1.1, h.1.2, nbeq_sound v1 _ h.2]
theorem lbeq_sound : ∀ (l m : List PyNode), lbeq l m = true → l = m
  | [], m, h => by
    cases m <;> simp only [lbeq] at h ⊢
    exact absurd h Bool.false_ne_true
  | x :: xs, m, h => by
    cases m <;> simp only [lbeq, Bool.and_eq_true] at h <;>
      try exact absurd h Bool.false_ne_true
    rw [nbeq_sound x _ h.1, lbeq_sound xs _ h.2]
end

set_option maxHeartbeats 1000000 in
mutual
theorem nbeq_refl : ∀ (a : PyNode), nbeq a a = true
  | module b1 => by simp only [nbeq]; exact lbeq_refl b1
  | exprStmt p e v => by
    simp only [nbeq, Bool.and_eq_true, beq_self_eq_true]
    exact ⟨⟨trivial, trivial⟩, nbeq_refl v⟩
  | name p e i => by simp only [nbeq, Bool.and_eq_true, beq_self_eq_true]; exact ⟨⟨trivial, trivial⟩, trivial⟩
  | num p e l => by simp only [nbeq, Bool.and_eq_true, beq_self_eq_true]; exact ⟨⟨trivial, trivial⟩, trivial⟩
  | strE p e l => by simp only [nbeq, Bool.and_eq_true, beq_self_eq_true]; exact ⟨⟨trivial, trivial⟩, trivial⟩
  | tupleE p e l => by
    simp only [nbeq, Bool.and_eq_true, beq_self_eq_true]
    exact ⟨⟨trivial, trivial⟩, lbeq_refl l⟩
  | dictE p e k v => by
    simp only [nbeq, Bool.and_eq_true, beq_self_eq_true]
    exact ⟨⟨⟨trivial, trivial⟩, lbeq_refl k⟩, lbeq_refl v⟩
  | binOp p e l r => by
    simp only [nbeq, Bool.and_eq_true, beq_self_eq_true]
    exact ⟨⟨⟨trivial, trivial⟩, nbeq_refl l⟩, nbeq_refl r⟩
  | attributeE p e v a => by
    simp only [nbeq, Bool.and_eq_true, beq_self_eq_true]
    exact ⟨⟨⟨trivial, trivial⟩, nbeq_refl v⟩, trivial⟩
  | subscriptE p e v s => by
    simp only [nbeq, Bool.and_eq_true, beq_self_eq_true]
    exact ⟨⟨⟨trivial, trivial⟩, nbeq_refl v⟩, nbeq_refl s⟩
  | call p e f a k s d => by
    simp only [nbeq, Bool.and_eq_true, beq_self_eq_true]
    exact ⟨⟨⟨⟨⟨⟨trivial, trivial⟩, nbeq_refl f⟩, lbeq_refl a⟩, lbeq_refl k⟩,
      lbeq_refl s⟩, lbeq_refl d⟩
  | kwNode a r v => by
    simp only [nbeq, Bool.and_eq_true, beq_self_eq_true]
    exact ⟨⟨trivial, trivial⟩, nbeq_refl v⟩
theorem lbeq_refl : ∀ (l : List PyNode), lbeq l l = true
  | [] => rfl
  | x :: xs => by simp only [lbeq, Bool.and_eq_true]; exact ⟨nbeq_refl x, lbeq_refl xs⟩
end

theorem nbeq_iff {a b : PyNode} : nbeq a b = true ↔ a = b :=
  ⟨nbeq_sound a b, fun h => h ▸ nbeq_refl a⟩

instance : DecidableEq PyNode := fun a b =>
  decidable_of_iff (nbeq a b = true) nbeq_iff

end PyNode

open PyNode

/-! ## Range query utilities -/

/-- A text range, as the `TextRange` value used throughout the module. -/
structure TextRange where
  lineno : Nat
  col_offset : Nat
  end_lineno : Nat
  end_col_offset : Nat
deriving DecidableEq, Repr

/-- Apply `f` to the last element of a list (`lines[-1] = f(lines[-1])`). -/
def modifyLast (f : String → String) : List String → List String
  | [] => []
  | [x] => [f x]
  | x :: y :: xs => x :: modifyLast f (y :: xs)

/-- `extract_text_range(source, text_range)`: keep lines
`lineno-1 .. end_lineno-1` of the source, trim the last line after
`end_col_offset` and the first line before `col_offset`, join. -/
def extract_text_range (source : String) (tr : TextRange) : String :=
  let lines := pySplitLines source
  let lines := (lines.drop (tr.lineno - 1)).take (tr.end_lineno + 1 - tr.lineno)
  let lines := modifyLast (fun s => s.take tr.end_col_offset) lines
  let lines :=
    match lines with
    | [] => []
    | x :: xs => x.drop tr.col_offset :: xs
  String.join lines

-- `contains_node(parent_node, child_node)`: scan the children; report
-- true on the first child equal to `child_node` or (recursively) containing
-- it.  Python compares nodes by object identity; in the value embedding this
-- is structural equality (`nbeq`).  The recursion is structural over an
-- explicit budget decremented once per call; since `nsize`/`lsize` strictly
-- decreases along every call edge, the budget `nsize parent + 1` supplied by
-- the wrapper is never exhausted.
mutual
def containsF : Nat → PyNode → PyNode → Bool
  | 0, _, _ => false
  | f + 1, parent, child => containsListF f parent.iterChildNodes child
def containsListF : Nat → List PyNode → PyNode → Bool
  | 0, _, _ => false
  | _ + 1, [], _ => false
  | f + 1, c :: cs, child =>
    (nbeq c child || containsF f c child) || containsListF f cs child
end

def contains_node (parent_node child_node : PyNode) : Bool :=
  containsF (nsize parent_node + 1) parent_node child_node

-- All nodes of the tree, the node itself included (the node set yielded
-- by `ast.walk(tree)`; `walk` enumerates breadth-first while this list is
-- depth-first, but every use in the module only asks whether some node of
-- the set satisfies a predicate).
mutual
def walkF : Nat → PyNode → List PyNode
  | 0, _ => []
  | f + 1, n => n :: walkAllF f n.iterChildNodes
def walkAllF : Nat → List PyNode → List PyNode
  | 0, _ => []
  | _ + 1, [] => []
  | f + 1, x :: xs => walkF f x ++ walkAllF f xs
end

def walkList (t : PyNode) : List PyNode := walkF (nsize t + 1) t

/-- `has_parent_with_class(target_node, parent_class, tree)`: true when
some node of the tree is an instance of the class (embedded as a Boolean
kind predicate) and contains the target. -/
def has_parent_with_class (target_node : PyNode) (parent_class : PyNode → Bool)
    (tree : PyNode) : Bool :=
  (walkList tree).any (fun n => parent_class n && contains_node n target_node)

/-- `compare_node_positions(n1, n2)`, faithful to the source, including the
self-comparison `n2.col_offset < n2.col_offset` in its fourth branch. -/
def compare_node_positions (n1 n2 : Pos) : Int :=
  if n1.1 > n2.1 then 1
  else if n1.1 < n2.1 then -1
  else if n1.2 > n2.2 then 1
  else if n2.2 < n2.2 then -1
  else 0

/-! ## The ordered-children resolver (`_get_ordered_child_nodes`) -/

/-- The sort relation of `children.sort(key=lambda x: (x.lineno, x.col_offset))`:
lexicographic comparison of start positions. -/
def slotLe (a b : PyNode) : Prop := posLe a.startP b.startP = true

instance : DecidableRel slotLe := fun a b =>
  inferInstanceAs (Decidable (_ = true))

instance : IsTotal PyNode slotLe := ⟨fun a b => posLe_total a.startP b.startP⟩

instance : IsTrans PyNode slotLe := ⟨fun _ _ _ => posLe_trans⟩

/-- `_get_ordered_child_nodes(node)`: interleaved keys/values for dict
literals; for calls `[func] + args + [kw.value for kw in keywords]`
(+ starargs/kwargs when present) sorted by start position with Python's
stable sort; native child order otherwise. -/
def _get_ordered_child_nodes (n : PyNode) : List PyNode :=
  match n with
  | PyNode.dictE _ _ keys vals => interleave keys vals
  | PyNode.call _ _ f args kws star dstar =>
    List.insertionSort slotLe (f :: (args ++ kws.map kwValueOf ++ star ++ dstar))
  | _ => n.iterChildNodes

/-- Indexed form of the resolver used by the functional traversals: each
ordered child paired with its position in `rawSlots`, so the in-place child
mutations can be written back.  For calls this is a stable sort of the
enumerated slots by start position; elsewhere the slots are already in
resolver order. -/
def ordPairs (n : PyNode) : List (Nat × PyNode) :=
  if n.isCallKind then
    List.insertionSort (fun a b => slotLe a.2 b.2) n.rawSlots.enum
  else n.rawSlots.enum

/-- `plsize`: the `lsize` of the slots in an indexed slot list. -/
def plsize : List (Nat × PyNode) → Nat
  | [] => 0
  | p :: ps => 1 + nsize p.2 + plsize ps

theorem plsize_perm {l m : List (Nat × PyNode)} (h : l.Perm m) :
    plsize l = plsize m := by
  induction h with
  | nil => rfl
  | cons x _ ih => simp only [plsize, ih]
  | swap x y l => simp only [plsize]; omega
  | trans _ _ ih1 ih2 => omega

theorem plsize_enumFrom (k : Nat) (l : List PyNode) :
    plsize (List.enumFrom k l) = lsize l := by
  induction l generalizing k with
  | nil => rfl
  | cons x xs ih => simp only [List.enumFrom, plsize, lsize, ih]

theorem plsize_ordPairs (n : PyNode) : plsize (ordPairs n) = lsize n.rawSlots := by
  unfold ordPairs
  by_cases h : n.isCallKind
  · rw [if_pos h, plsize_perm (List.perm_insertionSort _ _)]
    exact plsize_enumFrom 0 n.rawSlots
  · rw [if_neg h]
    exact plsize_enumFrom 0 n.rawSlots

theorem orderedInsert_map_rel {α β : Type} (r : β → β → Prop) [DecidableRel r]
    (f : α → β) (x : α) (l : List α) :
    (List.orderedInsert (fun a b => r (f a) (f b)) x l).map f =
      List.orderedInsert r (f x) (l.map f) := by
  induction l with
  | nil => simp [List.orderedInsert]
  | cons y ys ih =>
    simp only [List.orderedInsert, List.map_cons]
    by_cases h : r (f x) (f y)
    · simp [h]
    · simp only [h, if_false, List.map_cons, ih]

theorem insertionSort_map_rel {α β : Type} (r : β → β → Prop) [DecidableRel r]
    (f : α → β) (l : List α) :
    (List.insertionSort (fun a b => r (f a) (f b)) l).map f =
      List.insertionSort r (l.map f) := by
  induction l with
  | nil => simp [List.insertionSort]
  | cons x xs ih =>
    simp only [List.insertionSort, List.map_cons]
    rw [orderedInsert_map_rel, ih]

/-- The indexed form agrees with the direct resolver. -/
theorem gocn_eq_map_ordPairs (n : PyNode) :
    _get_ordered_child_nodes n = (ordPairs n).map Prod.snd := by
  cases n with
  | call p e f args kws star dstar =>
    simp only [_get_ordered_child_nodes, ordPairs, isCallKind, if_true]
    rw [insertionSort_map_rel slotLe Prod.snd, List.enum_map_snd]
    rfl
  | dictE p e keys vals =>
    simp only [_get_ordered_child_nodes, ordPairs, isCallKind, Bool.false_eq_true,
      if_false]
    exact (List.enum_map_snd _).symm
  | _ =>
    simp only [_get_ordered_child_nodes, ordPairs, isCallKind, Bool.false_eq_true,
      if_false]
    exact (List.enum_map_snd _).symm

/-! ## The position-bug corrector (`fix_ast_problems`) -/

/-- Apply index-tagged replacements to a slot list (write-back of the
in-place child mutations). -/
def applyUpd (slots : List PyNode) (upd : List (Nat × PyNode)) : List PyNode :=
  upd.foldl (fun acc iu => acc.set iu.1 iu.2) slots

/-- The final `else` of `fix_node`: "assume the lineno is correct and the
col_offset byte-based" — recompute the column as
`len(byte_line[:col].decode("UTF-8"))`.  Out-of-range line subscripts and
decode failures are Python exceptions. -/
def decodeColOf (lines : List (List Char)) (n : PyNode) : Except Err PyNode :=
  if n.positionedKind then
    match lines[n.startP.1 - 1]? with
    | none => .error .indexError
    | some line =>
      match decodePrefixLen line n.startP.2 with
      | none => .error .decodeError
      | some c => .ok (n.setStart (n.startP.1, c))
  else .ok n

/-- The `elif` chain of `fix_node`, applied to a node whose children are
already fixed; threads the queue of STRING tokens. -/
def fixSelf (lines : List (List Char)) (q : List Tok) :
    PyNode → Except Err (PyNode × List Tok)
  | PyNode.strE _ e l =>
    -- rule 1: take the position from the next string token in the queue
    match q with
    | [] => .error .indexError
    | t :: q2 => .ok (PyNode.strE t.spos e l, q2)
  | PyNode.exprStmt p e v =>
    -- rule 2 (Expr wrapping a Str): copy the fixed child's position
    if v.isStrKind then .ok (PyNode.exprStmt v.startP e v, q)
    else (decodeColOf lines (PyNode.exprStmt p e v)).map (·, q)
  | PyNode.attributeE p e v a =>
    -- rule 2 (Attribute wrapping a Str), else rule 5
    if v.isStrKind then .ok (PyNode.attributeE v.startP e v a, q)
    else if compare_node_positions p v.startP > 0 then
      .ok (PyNode.attributeE v.startP e v a, q)
    else (decodeColOf lines (PyNode.attributeE p e v a)).map (·, q)
  | PyNode.binOp p e l r =>
    -- rule 3
    if compare_node_positions p l.startP > 0 then .ok (PyNode.binOp l.startP e l r, q)
    else (decodeColOf lines (PyNode.binOp p e l r)).map (·, q)
  | PyNode.call p e f args kws star dstar =>
    -- rule 4
    if compare_node_positions p f.startP > 0 then
      .ok (PyNode.call f.startP e f args kws star dstar, q)
    else (decodeColOf lines (PyNode.call p e f args kws star dstar)).map (·, q)
  | PyNode.subscriptE p e v sl =>
    -- rule 5 (Subscript)
    if compare_node_positions p v.startP > 0 then
      .ok (PyNode.subscriptE v.startP e v sl, q)
    else (decodeColOf lines (PyNode.subscriptE p e v sl)).map (·, q)
  | n => (decodeColOf lines n).map (·, q)

-- The recursive tree passes are defined structurally over an explicit
-- recursion budget (`fuel`), so that they reduce inside the kernel; the
-- budget is decremented once per call, and the measure
-- `nsize`/`plsize` strictly decreases along every call edge
-- (`lsize_rawSlots_lt`, `plsize_ordPairs`, `nsize_mem_lt`), so a budget
-- of `nsize root + 1` can never be exhausted: the out-of-fuel branches
-- are unreachable for the wrappers below, which supply that budget.

mutual
/-- `fix_node`: fix the ordered children first (writing the updates back
into their slots), then apply the rule chain to the node itself. -/
def fixNodeF : Nat → List (List Char) → List Tok → PyNode →
    Except Err (PyNode × List Tok)
  | 0, _, _, _ => .error .indexError
  | f + 1, lines, q, n =>
    match fixPairsF f lines (ordPairs n) q with
    | .error e => .error e
    | .ok (upd, q1) => fixSelf lines q1 (n.setSlots (applyUpd n.rawSlots upd))
/-- The `for child in _get_ordered_child_nodes(node)` loop of `fix_node`,
threading the string-token queue. -/
def fixPairsF : Nat → List (List Char) →
    List (Nat × PyNode) → List Tok → Except Err (List (Nat × PyNode) × List Tok)
  | 0, _, _, _ => .error .indexError
  | _ + 1, _, [], q => .ok ([], q)
  | f + 1, lines, (i, s) :: rest, q =>
    match fixNodeF f lines q s with
    | .error e => .error e
    | .ok (s1, q1) =>
      match fixPairsF f lines rest q1 with
      | .error e => .error e
      | .ok (upd, q2) => .ok ((i, s1) :: upd, q2)
end

def fixNode (lines : List (List Char)) (q : List Tok) (n : PyNode) :
    Except Err (PyNode × List Tok) :=
  fixNodeF (nsize n + 1) lines q n

/-- `fix_ast_problems(tree, source_lines, tokens)`. -/
def fix_ast_problems (tree : PyNode) (source_lines : List String)
    (tokens : List Tok) : Except Err PyNode :=
  let utf8_byte_lines := source_lines.map String.data
  let string_tokens := tokens.filter (fun t => t.ttype == tokSTRING)
  (fixNode utf8_byte_lines string_tokens tree).map (·.1)

/-! ## The range-marking engine (`mark_text_ranges`) -/

def dfltTok : Tok := ⟨0, "", (0, 0), (0, 0)⟩

/-- `_extract_tokens(tokens, lineno, col_offset, end_lineno, end_col_offset)`. -/
def _extract_tokens (tokens : List Tok) (lineno col_offset end_lineno end_col_offset : Nat) :
    List Tok :=
  tokens.filter (fun tok =>
    decide (tok.spos.1 ≥ lineno)
    && (decide (tok.spos.2 ≥ col_offset) || decide (tok.spos.1 > lineno))
    && decide (tok.epos.1 ≤ end_lineno)
    && (decide (tok.epos.2 ≤ end_col_offset) || decide (tok.epos.1 < end_lineno))
    && (tok.tstr != ""))

/-- The keyword list of `_strip_trailing_junk_from_expressions`. -/
def kwJunkList : List String :=
  ["and", "as", "assert", "class", "def", "del",
   "elif", "else", "except", "exec", "finally",
   "for", "from", "global", "if", "import", "in",
   "is", "lambda", "not", "or", "try",
   "while", "with", "yield"]

/-- The while-condition of `_strip_trailing_junk_from_expressions` on the
last token: `(TYPE not in closers-and-literals and not ellipsis and STRING
not in ")}]") or STRING in keyword-list`.  Under Python 2 the
`hasattr(token, "ELLIPSIS")` conjunct is false, short-circuiting the
ellipsis test. -/
def junkCond (t : Tok) : Bool :=
  ((!(t.ttype == tokRBRACE || t.ttype == tokRPAR || t.ttype == tokRSQB
      || t.ttype == tokNAME || t.ttype == tokNUMBER || t.ttype == tokSTRING))
    && !hasEllipsisAttr
    && !(pyInStr t.tstr ")\x7d]"))
  || kwJunkList.contains t.tstr

/-- The `while` loop of `_strip_trailing_junk_from_expressions` viewed
from the tail: on the reversed window, drop leading tokens while the
condition holds; reading `tokens[-1]` of an emptied window is an
IndexError (token exhaustion). -/
def stripJunkRevGo : List Tok → Except Err (List Tok)
  | [] => .error .tokenExhaustion
  | t :: rest => if junkCond t then stripJunkRevGo rest else .ok (t :: rest)

def _strip_trailing_junk_from_expressions (ts : List Tok) : Except Err (List Tok) :=
  (stripJunkRevGo ts.reverse).map List.reverse

/-- The scan of `_strip_trailing_extra_closers`: walk the window from the
front tracking bracket nesting (`i` is the index of the current token) and
report the index at which the loop truncates (`tokens[:] = tokens[0:i]`),
if any: the first naked level-zero comma (when requested) or the first
closer that drops the level below zero. -/
def stripClosersGo (remove_naked_comma : Bool) : List Tok → Nat → Int → Option Nat
  | [], _, _ => none
  | t :: rest, i, level =>
    let level2 :=
      if pyInStr t.tstr "(\x7b[" then level + 1
      else if pyInStr t.tstr ")\x7d]" then level - 1 else level
    if level2 == 0 && t.tstr == "," && remove_naked_comma then some i
    else if level2 < 0 then some i
    else stripClosersGo remove_naked_comma rest (i + 1) level2

def _strip_trailing_extra_closers (ts : List Tok) (remove_naked_comma : Bool) : List Tok :=
  match stripClosersGo remove_naked_comma ts 0 0 with
  | some i => ts.take i
  | none => ts

/-- The backward scan of `_strip_unclosed_brackets`, on the reversed
window.  An opener that drops the level below zero performs
`tokens[:] = tokens[0:i]`: the opener and every token after it (every
token already scanned) are discarded — the first component records that a
truncation happened so the outer frames drop their tokens — and the scan
continues over the retained prefix with the level reset to zero. -/
def stripUnclosedRevGo : List Tok → Int → Bool × List Tok
  | [], _ => (false, [])
  | t :: rest, level =>
    let level2 :=
      if pyInStr t.tstr "(\x7b[" then level - 1
      else if pyInStr t.tstr ")\x7d]" then level + 1 else level
    if level2 < 0 then (true, (stripUnclosedRevGo rest 0).2)
    else
      match stripUnclosedRevGo rest level2 with
      | (true, kept) => (true, kept)
      | (false, kept) => (false, t :: kept)

def _strip_unclosed_brackets (ts : List Tok) : List Tok :=
  (stripUnclosedRevGo ts.reverse 0).2.reverse

/-- The statement branch of `_set_real_end`: strip trailing NL / COMMENT /
NEWLINE / INDENT tokens and `":" else elif finally except` texts. -/
def stmtStripCond (t : Tok) : Bool :=
  (t.ttype == tokNL || t.ttype == tokCOMMENT || t.ttype == tokNEWLINE
    || t.ttype == tokINDENT)
  || (t.tstr == ":" || t.tstr == "else" || t.tstr == "elif"
    || t.tstr == "finally" || t.tstr == "except")

def stmtStripRevGo : List Tok → Except Err (List Tok)
  | [] => .error .tokenExhaustion
  | t :: rest => if stmtStripCond t then stmtStripRevGo rest else .ok (t :: rest)

def stmtStrip (ts : List Tok) : Except Err (List Tok) :=
  (stmtStripRevGo ts.reverse).map List.reverse

-- `_set_real_end(node, tokens, ...)`: strip trailing tokens that do not
-- belong to the node, set its end from the last survivor, then peel extra
-- tokens (empty call parens, attribute names) from the window handed to the
-- children.  It returns `(end, remaining tokens)`.

/-- The stripping stage of `_set_real_end`: statements lose trailing
blank-line/comment/clause tokens; expressions go through the three
expression strips. -/
def stripPhase (node : PyNode) (tokens : List Tok) : Except Err (List Tok) :=
  if node.isStmtKind then stmtStrip tokens
  else
    _strip_trailing_junk_from_expressions
      (_strip_unclosed_brackets
        (_strip_trailing_extra_closers tokens (!node.isTupleKind)))

/-- The peeling stage of `_set_real_end`: a call with an empty argument
list drops its close paren (asserted to be `)`), an attribute access drops
its attribute name (asserted to be a NAME), and both re-strip trailing
junk, so the children's window is not confused. -/
def peelPhase (node : PyNode) (ts : List Tok) (last : Tok) : Except Err (List Tok) :=
  if node.isCallNoArgs then
    if last.tstr == ")" then _strip_trailing_junk_from_expressions ts.dropLast
    else .error .assertError
  else if node.isAttrKind then
    if last.ttype == tokNAME then _strip_trailing_junk_from_expressions ts.dropLast
    else .error .assertError
  else .ok ts

def _set_real_end (node : PyNode) (tokens : List Tok) : Except Err (Pos × List Tok) :=
  match stripPhase node tokens with
  | .error e => .error e
  | .ok ts =>
    match ts.getLast? with
    | none => .error .tokenExhaustion
    | some last =>
      match peelPhase node ts last with
      | .error e => .error e
      | .ok final => .ok (last.epos, final)

/-- `_find_token_prior_to_position(tokens, lineno, col_offset, type_)`:
last token starting strictly before the position (and of the given type,
when one is requested). -/
def _find_token_prior_to_position (tokens : List Tok) (lineno col_offset : Nat)
    (type2 : Option Nat) : Option Tok :=
  tokens.reverse.find? (fun t =>
    (decide (t.spos.1 ≤ lineno)
      && (decide (t.spos.2 < col_offset) || decide (t.spos.1 < lineno)))
    && (match type2 with | none => true | some ty => t.ttype == ty))

/-- The per-keyword body of `_mark_parameters`: find the NAME token just
before the keyword value's start, assert its text is the keyword's name,
and store that token's span as the keyword node's range. -/
def markKw (tokens : List Tok) : PyNode → Except Err PyNode
  | PyNode.kwNode arg rng v =>
    if v.positionedKind then
      match _find_token_prior_to_position tokens v.startP.1 v.startP.2 (some tokNAME) with
      | none => .error .assertError
      | some t =>
        if t.tstr == arg then .ok (PyNode.kwNode arg (some (t.spos, t.epos)) v)
        else .error .assertError
    else .error .assertError
  | _ => .error .assertError

/-- `_mark_parameters(node, tokens)` (no-op when the call has no
keywords). -/
def _mark_parameters (node : PyNode) (tokens : List Tok) : Except Err PyNode :=
  match node with
  | PyNode.call p e f args kws star dstar =>
    if kws.isEmpty then .ok (PyNode.call p e f args kws star dstar)
    else do
      let kws2 ← kws.mapM (markKw tokens)
      .ok (PyNode.call p e f args kws2 star dstar)
  | n => .ok n

mutual
/-- `_mark_text_ranges_rec(node, tokens, prelim_end_lineno,
prelim_end_col_offset)`: narrow the window and set this node's end, mark
the ordered children right to left threading the provisional end, then
resolve keyword-argument spans for calls.  Returns the updated node and
the new provisional end (the node's start when it is positioned). -/
def markRecF : Nat → PyNode → List Tok → Nat → Nat → Except Err (PyNode × Pos)
  | 0, _, _, _, _ => .error .indexError
  | f + 1, node, tokens, prelim_end_lineno, prelim_end_col_offset =>
    match
      (if node.positionedKind then
        (match _set_real_end node (_extract_tokens tokens node.startP.1 node.startP.2
            prelim_end_lineno prelim_end_col_offset) with
        | .error e => .error e
        | .ok (e, w2) => .ok (w2, some e) : Except Err (List Tok × Option Pos))
      else .ok (tokens, (none : Option Pos))) with
    | .error e => .error e
    | .ok (tokens2, endp) =>
      match markPairsRevF f tokens2 (ordPairs node)
          (prelim_end_lineno, prelim_end_col_offset) with
      | .error e => .error e
      | .ok (upd, prelim2) =>
        let node3 :=
          match endp with
          | some e => (node.setSlots (applyUpd node.rawSlots upd)).setEnd e
          | none => node.setSlots (applyUpd node.rawSlots upd)
        let prelim3 := if node.positionedKind then node.startP else prelim2
        match (if node.isCallKind then _mark_parameters node3 tokens2
               else .ok node3) with
        | .error e => .error e
        | .ok node4 => .ok (node4, prelim3)
/-- The `for child in reversed(children)` loop: the indexed slot list is
in resolver order, and the recursion marks the suffix (the later
children) before the head, threading the provisional end leftwards. -/
def markPairsRevF : Nat → List Tok →
    List (Nat × PyNode) → Pos → Except Err (List (Nat × PyNode) × Pos)
  | 0, _, _, _ => .error .indexError
  | _ + 1, _, [], prelim => .ok ([], prelim)
  | f + 1, tokens, (i, s) :: rest, prelim =>
    match markPairsRevF f tokens rest prelim with
    | .error e => .error e
    | .ok (upd, prelim1) =>
      match markRecF f s tokens prelim1.1 prelim1.2 with
      | .error e => .error e
      | .ok (s1, prelim2) => .ok ((i, s1) :: upd, prelim2)
end

def _mark_text_ranges_rec (node : PyNode) (tokens : List Tok)
    (prelim_end_lineno prelim_end_col_offset : Nat) : Except Err (PyNode × Pos) :=
  markRecF (nsize node + 1) node tokens prelim_end_lineno prelim_end_col_offset

/-- `mark_text_ranges(node, source)`.  Tokenization is performed by the
external Python-2 lexer after the emptiness check; its outcome (the token
list, or a lexer error) is passed in as `tokres`, and is not consulted
before the check.  On the empty-source error the tree is returned
untouched (no output tree at all: the call aborts). -/
def mark_text_ranges (node : PyNode) (source : String)
    (tokres : Except Err (List Tok)) : Except Err PyNode :=
  if (pyStrip source).length > 0 then
    match tokres with
    | .error e => .error e
    | .ok all_tokens =>
      match fix_ast_problems node (pySplitLines source) all_tokens with
      | .error e => .error e
      | .ok tree1 =>
        match (pySplitLines source).getLast? with
        | none => .error .indexError
        | some lastLine =>
          match _mark_text_ranges_rec tree1 all_tokens
              (pySplitLines source).length lastLine.length with
          | .error e => .error e
          | .ok (tree2, _) => .ok tree2
  else .error .emptySource

/-! ## The tokenizer adapter (`tokenize_with_char_offsets`) -/

/-- The normalized token record built by the adapter. -/
structure Thoken where
  ttype : Nat
  tstr : String
  lineno : Nat
  col_offset : Nat
  end_lineno : Nat
  end_col_offset : Nat
deriving DecidableEq, Repr

/-- Python 2's `tokenize` module defines no `ENCODING` constant (it was
added in Python 3), so the attribute lookup `tokenize.ENCODING` fails. -/
def py2TokenizeENCODING : Option Nat := none

/-- `tokenize_with_char_offsets(source)`, embedded over the token list the
Python-2 lexer yields for the source.  The loop body's first statement
evaluates `tokenize.ENCODING`, which raises AttributeError under the
Python-2 runtime this module requires (the module's `print` statements and
`unicode` calls are Python-2-only syntax), so any non-empty token stream
aborts on the first iteration.  Were the stream empty, the loop would not
run and control would fall off the end of the function: there is no
`return` statement, so the accumulated `thokens` list is discarded and the
function returns `None`. -/
def tokenize_with_char_offsets (tokens : List Tok) : Except Err (Option (List Thoken)) :=
  match tokens with
  | [] => .ok none
  | _ :: _ =>
    match py2TokenizeENCODING with
    | none => .error .attributeError
    | some _ => .ok none

/-! ## Concrete fixtures

Token lists are exactly what Python 2's `tokenize.generate_tokens` yields
for each source (OP-typed punctuation, an empty-string NEWLINE for a
source with no trailing newline, a final ENDMARKER), and the trees are
the corresponding `ast.parse` outputs with Python-2 positions (a
parenthesized tuple starts at its first element; `Call` starts at its
callee). -/

/-- Tokens of the source `x(y=z)`. -/
def toksXYZ : List Tok :=
  [⟨tokNAME, "x", (1,0), (1,1)⟩,
   ⟨tokOP, "(", (1,1), (1,2)⟩,
   ⟨tokNAME, "y", (1,2), (1,3)⟩,
   ⟨tokOP, "=", (1,3), (1,4)⟩,
   ⟨tokNAME, "z", (1,4), (1,5)⟩,
   ⟨tokOP, ")", (1,5), (1,6)⟩,
   ⟨tokNEWLINE, "", (1,6), (1,7)⟩,
   ⟨tokENDMARKER, "", (2,0), (2,0)⟩]

/-- `ast.parse("x(y=z)")`. -/
def treeXYZ : PyNode :=
  module [exprStmt (1,0) none
    (call (1,0) none (name (1,0) none "x") []
      [kwNode "y" none (name (1,4) none "z")] [] [])]

/-- The tree produced by `mark_text_ranges` on `x(y=z)`: every node now
carries its end; the keyword node's range is the `y` name token. -/
def markedXYZ : PyNode :=
  module [exprStmt (1,0) (some (1,6))
    (call (1,0) (some (1,6)) (name (1,0) (some (1,1)) "x") []
      [kwNode "y" (some ((1,2), (1,3))) (name (1,4) (some (1,5)) "z")] [] [])]

theorem mark_run_xyz :
    mark_text_ranges treeXYZ "x(y=z)" (.ok toksXYZ) = .ok markedXYZ := by rfl

/-- Tokens of the source `(1, 2,)`. -/
def toksTup : List Tok :=
  [⟨tokOP, "(", (1,0), (1,1)⟩,
   ⟨tokNUMBER, "1", (1,1), (1,2)⟩,
   ⟨tokOP, ",", (1,2), (1,3)⟩,
   ⟨tokNUMBER, "2", (1,4), (1,5)⟩,
   ⟨tokOP, ",", (1,5), (1,6)⟩,
   ⟨tokOP, ")", (1,6), (1,7)⟩,
   ⟨tokNEWLINE, "", (1,7), (1,8)⟩,
   ⟨tokENDMARKER, "", (2,0), (2,0)⟩]

/-- `ast.parse("(1, 2,)")`: the tuple literal starts at its first element. -/
def treeTup : PyNode :=
  module [exprStmt (1,0) none
    (tupleE (1,1) none [num (1,1) none "1", num (1,4) none "2"])]

/-- The marked tree for `(1, 2,)`: the tuple's end is `(1, 5)` — the end
of the `2` token, before the trailing comma at columns 5–6. -/
def markedTup : PyNode :=
  module [exprStmt (1,0) (some (1,7))
    (tupleE (1,1) (some (1,5)) [num (1,1) (some (1,2)) "1", num (1,4) (some (1,5)) "2"])]

theorem mark_run_tup :
    mark_text_ranges treeTup "(1, 2,)" (.ok toksTup) = .ok markedTup := by rfl

/-- Tokens of the source `f(1, 2,)`. -/
def toksCallC : List Tok :=
  [⟨tokNAME, "f", (1,0), (1,1)⟩,
   ⟨tokOP, "(", (1,1), (1,2)⟩,
   ⟨tokNUMBER, "1", (1,2), (1,3)⟩,
   ⟨tokOP, ",", (1,3), (1,4)⟩,
   ⟨tokNUMBER, "2", (1,5), (1,6)⟩,
   ⟨tokOP, ",", (1,6), (1,7)⟩,
   ⟨tokOP, ")", (1,7), (1,8)⟩,
   ⟨tokNEWLINE, "", (1,8), (1,9)⟩,
   ⟨tokENDMARKER, "", (2,0), (2,0)⟩]

/-- `ast.parse("f(1, 2,)")`. -/
def treeCallC : PyNode :=
  module [exprStmt (1,0) none
    (call (1,0) none (name (1,0) none "f")
      [num (1,2) none "1", num (1,5) none "2"] [] [] [])]

/-- The marked tree for `f(1, 2,)`: the second argument's window is cut at
the naked level-zero comma, so its range ends at `(1, 6)`. -/
def markedCallC : PyNode :=
  module [exprStmt (1,0) (some (1,8))
    (call (1,0) (some (1,8)) (name (1,0) (some (1,1)) "f")
      [num (1,2) (some (1,3)) "1", num (1,5) (some (1,6)) "2"] [] [] [])]

theorem mark_run_callc :
    mark_text_ranges treeCallC "f(1, 2,)" (.ok toksCallC) = .ok markedCallC := by rfl

/-- The single source line `"é",x`: its UTF-8 encoding is 6 bytes (the
`é` takes two), while it has 5 characters. -/
def linesMB : List String := ["\"é\",x"]

/-- The lexer's STRING token for `"é"` (character columns). -/
def toksMB : List Tok := [⟨tokSTRING, "\"é\"", (1,0), (1,3)⟩]

/-- `ast.parse` output for the source `"é",x`: the parser reports the
column of `x` as a byte offset (5), not a character offset (4). -/
def treeMB : PyNode :=
  module [exprStmt (1,0) none
    (tupleE (1,0) none [strE (1,0) none "s", name (1,5) none "x"])]

/-- After one corrector run: `x` is at character column 4. -/
def treeMB1 : PyNode :=
  module [exprStmt (1,0) none
    (tupleE (1,0) none [strE (1,0) none "s", name (1,4) none "x"])]

/-- After a second corrector run: the already-character-based column 4 is
decoded as a byte offset again, moving `x` to column 3. -/
def treeMB2 : PyNode :=
  module [exprStmt (1,0) none
    (tupleE (1,0) none [strE (1,0) none "s", name (1,3) none "x"])]

theorem fix_run_mb1 : fix_ast_problems treeMB linesMB toksMB = .ok treeMB1 := by rfl

theorem fix_run_mb2 : fix_ast_problems treeMB1 linesMB toksMB = .ok treeMB2 := by rfl

/-! ## Claim theorems (first batch) -/

/-- C3: the claim states that `compare_node_positions` is a correct
lexicographic comparator — in particular that it returns a negative value
whenever `(n1.lineno, n1.col_offset)` is lexicographically smaller.  The
code's fourth branch compares `n2.col_offset` with itself, so for two
positions on the same line with `n1.col_offset < n2.col_offset` it falls
through to `return 0`: at `n1 = (1, 0)`, `n2 = (1, 5)` the comparator
returns `0` although `n1` is strictly smaller.  (The positive direction is
unaffected: `1` is returned exactly on lexicographically greater input.)  -/
theorem C3_compare_returns_zero_for_smaller :
    compare_node_positions (1, 0) (1, 5) = 0 ∧ posLt (1, 0) (1, 5) = true ∧
    ∀ a b : Pos, compare_node_positions a b = 1 ↔ posLt b a = true := by
  refine ⟨rfl, rfl, fun a b => ?_⟩
  simp only [compare_node_positions, posLt]
  rcases a with ⟨a1, a2⟩; rcases b with ⟨b1, b2⟩
  by_cases h1 : a1 > b1 <;> by_cases h2 : a1 < b1 <;>
    by_cases h3 : a2 > b2 <;> simp [h1, h2, h3] <;> omega

/-- C6: the claim states `tokenize_with_char_offsets` returns the complete
ordered token sequence with byte columns translated to character columns.
The function never returns the `thokens` list it builds: under the
Python-2 runtime this module requires (its `print` statements and `unicode`
are Python-2-only), the loop body's first comparison reads
`tokenize.ENCODING`, an attribute Python 2's `tokenize` does not define, so
any non-empty token stream (every tokenization yields at least an
ENDMARKER) raises AttributeError — and even on an empty stream control
falls off the end of the function, returning `None` (there is no `return`
statement).  Evaluated at the tokens of `x(y=z)`, the call errors. -/
theorem C6_adapter_never_returns_tokens :
    tokenize_with_char_offsets toksXYZ = .error .attributeError ∧
    ∀ tokens : List Tok,
      tokenize_with_char_offsets tokens =
        if tokens.isEmpty then .ok none else .error .attributeError := by
  refine ⟨rfl, fun tokens => ?_⟩
  cases tokens <;> rfl

/-- C1 (counterexample): on the source `x(y=z)` — which `mark_text_ranges`
processes to completion — the keyword argument node is positioned with
range `(1,2)–(1,3)` (the `y` token), while its positioned descendant, the
value `z`, has range `(1,4)–(1,5)`.  The descendant's end exceeds the
ancestor's end (`posLe (1,5) (1,3)` is false), so containment fails for a
positioned node and a positioned descendant, refuting the claim as stated.
Descendancy is witnessed by the module's own `contains_node`. -/
theorem C1_counterexample :
    mark_text_ranges treeXYZ "x(y=z)" (.ok toksXYZ) = .ok markedXYZ ∧
    contains_node markedXYZ
      (kwNode "y" (some ((1,2), (1,3))) (name (1,4) (some (1,5)) "z")) = true ∧
    contains_node (kwNode "y" (some ((1,2), (1,3))) (name (1,4) (some (1,5)) "z"))
      (name (1,4) (some (1,5)) "z") = true ∧
    startOf (kwNode "y" (some ((1,2), (1,3))) (name (1,4) (some (1,5)) "z")) = some (1,2) ∧
    endOf (kwNode "y" (some ((1,2), (1,3))) (name (1,4) (some (1,5)) "z")) = some (1,3) ∧
    startOf (name (1,4) (some (1,5)) "z") = some (1,4) ∧
    endOf (name (1,4) (some (1,5)) "z") = some (1,5) ∧
    posLe (1,5) (1,3) = false :=
  ⟨mark_run_xyz, rfl, rfl, rfl, rfl, rfl, rfl, rfl⟩

/-- C4 (counterexample): with the multi-byte source line `"é",x` (6 UTF-8
bytes, 5 characters) and the same source lines and token list both times,
the first corrector run moves `x` from byte column 5 to character column 4
— and a second run, fed the corrected tree, decodes the already
character-based column 4 as a byte count and moves `x` to column 3.  The
corrector is not idempotent on sources with multi-byte characters. -/
theorem C4_counterexample :
    fix_ast_problems treeMB linesMB toksMB = .ok treeMB1 ∧
    fix_ast_problems treeMB1 linesMB toksMB = .ok treeMB2 ∧
    nbeq treeMB1 treeMB2 = false ∧
    startOf (name (1,4) none "x") = some (1,4) ∧
    startOf (name (1,3) none "x") = some (1,3) :=
  ⟨fix_run_mb1, fix_run_mb2, rfl, rfl, rfl⟩

/-- C5 (counterexample): on the tuple literal `(1, 2,)` the marked range of
the tuple is `(1,1)–(1,5)`, whose extracted text is `"1, 2"`: the trailing
comma (columns 5–6) is *excluded*, contrary to the claim.  The tuple
exception in `_strip_trailing_extra_closers` only prevents truncation at
level-zero commas; the subsequent `_strip_trailing_junk_from_expressions`
pass deletes the trailing comma token (an OP that is neither a closer nor
a literal) anyway. -/
theorem C5_counterexample :
    mark_text_ranges treeTup "(1, 2,)" (.ok toksTup) = .ok markedTup ∧
    endOf (tupleE (1,1) (some (1,5))
      [num (1,1) (some (1,2)) "1", num (1,4) (some (1,5)) "2"]) = some (1,5) ∧
    extract_text_range "(1, 2,)" ⟨1, 1, 1, 5⟩ = "1, 2" ∧
    posLt (1,5) (1,6) = true :=
  ⟨mark_run_tup, rfl, rfl, rfl⟩

/-! ## Structural containment is strict (C10) -/

theorem containsListF_exists : ∀ (f : Nat) (l : List PyNode) (c : PyNode),
    containsListF f l c = true →
    ∃ x ∈ l, ∃ g, g < f ∧ (nbeq x c = true ∨ containsF g x c = true) := by
  intro f
  induction f with
  | zero => intro l c h; simp [containsListF] at h
  | succ f ih =>
    intro l c h
    cases l with
    | nil => simp [containsListF] at h
    | cons x xs =>
      simp only [containsListF, Bool.or_eq_true] at h
      rcases h with (h | h) | h
      · exact ⟨x, by simp, f, Nat.lt_succ_self f, Or.inl h⟩
      · exact ⟨x, by simp, f, Nat.lt_succ_self f, Or.inr h⟩
      · obtain ⟨y, hy, g, hg, hh⟩ := ih xs c h
        exact ⟨y, by simp [hy], g, Nat.lt_trans hg (Nat.lt_succ_self f), hh⟩

/-- Whatever the budget, a contained node is strictly structurally
smaller than its container. -/
theorem containsF_size : ∀ (f : Nat) (p c : PyNode),
    containsF f p c = true → nsize c < nsize p := by
  intro f
  induction f using Nat.strong_induction_on with
  | _ f ih =>
    intro p c h
    cases f with
    | zero => simp [containsF] at h
    | succ f =>
      simp only [containsF] at h
      obtain ⟨x, hx, g, hg, hh⟩ := containsListF_exists f _ c h
      have hxp := nsize_iter_lt hx
      rcases hh with hb | hc
      · rw [nbeq_sound x c hb] at hxp; exact hxp
      · exact Nat.lt_trans (ih g (Nat.lt_succ_of_lt hg) x c hc) hxp

theorem contains_node_self (n : PyNode) : contains_node n n = false := by
  cases hc : contains_node n n with
  | false => rfl
  | true => exact absurd (containsF_size (nsize n + 1) n n hc) (lt_irrefl _)

theorem any_filter_eq {α : Type} (L : List α) (f g : α → Bool)
    (h : ∀ m, g m = false → f m = false) : (L.filter g).any f = L.any f := by
  induction L with
  | nil => rfl
  | cons x xs ih =>
    cases hg : g x with
    | true => simp [List.filter_cons, hg, ih]
    | false =>
      simp [List.filter_cons, hg, ih, h x hg]

/-- C10: structural containment is strict: `contains_node(n, n)` is false
for every node (a node counts as contained only when reached through at
least one child edge), and consequently `has_parent_with_class` ignores
every occurrence of the node itself in the tree walk — filtering out the
nodes equal to `target_node` does not change its answer, even when the
node is an instance of the class. -/
theorem C10_strict_containment :
    (∀ n : PyNode, contains_node n n = false) ∧
    ∀ (n : PyNode) (cls : PyNode → Bool) (t : PyNode),
      has_parent_with_class n cls t =
        ((walkList t).filter (fun m => !(nbeq m n))).any
          (fun m => cls m && contains_node m n) := by
  refine ⟨contains_node_self, fun n cls t => ?_⟩
  unfold has_parent_with_class
  rw [any_filter_eq]
  intro m hm
  have hmn : nbeq m n = true := by
    revert hm; cases nbeq m n <;> simp
  rw [nbeq_sound m n hmn, contains_node_self n, Bool.and_false]

/-! ## The ordered-children resolver (C9) -/

def isDictKind : PyNode → Bool
  | dictE _ _ _ _ => true
  | _ => false

theorem interleave_length : ∀ keys vals : List PyNode,
    keys.length = vals.length → (interleave keys vals).length = 2 * keys.length := by
  intro keys
  induction keys with
  | nil => intro vals h; cases vals <;> simp_all [interleave]
  | cons k ks ih =>
    intro vals h
    cases vals with
    | nil => simp at h
    | cons v vs =>
      simp only [List.length_cons, Nat.succ_inj] at h
      simp [interleave, ih vs h]
      omega

theorem interleave_get : ∀ (keys vals : List PyNode),
    keys.length = vals.length → ∀ i, i < keys.length →
    (interleave keys vals)[2 * i]? = keys[i]? ∧
    (interleave keys vals)[2 * i + 1]? = vals[i]? := by
  intro keys
  induction keys with
  | nil => intro vals h i hi; simp at hi
  | cons k ks ih =>
    intro vals h i hi
    cases vals with
    | nil => simp at h
    | cons v vs =>
      simp only [List.length_cons, Nat.succ_inj] at h
      cases i with
      | zero => simp [interleave]
      | succ j =>
        have hj : j < ks.length := by simp at hi; omega
        have := ih vs h j hj
        constructor
        · have h2 : 2 * (j + 1) = (2 * j).succ.succ := by omega
          rw [h2]
          simpa [interleave] using this.1
        · have h2 : 2 * (j + 1) + 1 = (2 * j + 1).succ.succ := by omega
          rw [h2]
          simpa [interleave] using this.2

/-- C9: the ordered-children resolver.  For a dictionary literal with `n`
entries it returns `key_1, value_1, ..., key_n, value_n` in entry order
(characterized positionally).  For a call expression it returns a
permutation of callee, positional arguments, keyword-argument values, and
the *args/**kwargs children, sorted ascending (stably) by the nodes'
`(lineno, col_offset)` start positions.  For every other node kind it
returns the parser's native child iteration order. -/
theorem C9_ordered_children :
    (∀ (p : Pos) (e : Option Pos) (keys vals : List PyNode),
      keys.length = vals.length → ∀ i, i < keys.length →
      (_get_ordered_child_nodes (dictE p e keys vals)).length = 2 * keys.length ∧
      (_get_ordered_child_nodes (dictE p e keys vals))[2 * i]? = keys[i]? ∧
      (_get_ordered_child_nodes (dictE p e keys vals))[2 * i + 1]? = vals[i]?) ∧
    (∀ (p : Pos) (e : Option Pos) (f : PyNode) (args kws star dstar : List PyNode),
      (_get_ordered_child_nodes (call p e f args kws star dstar)).Perm
        (f :: (args ++ kws.map kwValueOf ++ star ++ dstar)) ∧
      List.Sorted slotLe (_get_ordered_child_nodes (call p e f args kws star dstar))) ∧
    (∀ n : PyNode, isDictKind n = false → isCallKind n = false →
      _get_ordered_child_nodes n = n.iterChildNodes) := by
  refine ⟨fun p e keys vals h i hi => ?_, fun p e f args kws star dstar => ?_, fun n h1 h2 => ?_⟩
  · have hg := interleave_get keys vals h i hi
    exact ⟨interleave_length keys vals h, hg.1, hg.2⟩
  · exact ⟨List.perm_insertionSort slotLe _, List.sorted_insertionSort slotLe _⟩
  · cases n <;> simp_all [_get_ordered_child_nodes, isDictKind, isCallKind, iterChildNodes]

/-- Witness for C9 at concrete inputs: a two-entry dictionary literal and
a call `f(1, y=z)` whose keyword value precedes nothing (sorted order is
callee, positional argument, keyword value). -/
theorem C9_witness :
    ([name (1,1) none "a", name (1,7) none "b"].length =
      [name (1,4) none "c", name (1,10) none "d"].length ∧
      (_get_ordered_child_nodes (dictE (1,0) none
        [name (1,1) none "a", name (1,7) none "b"]
        [name (1,4) none "c", name (1,10) none "d"]))[2 * 1]? =
        [name (1,1) none "a", name (1,7) none "b"][1]?) ∧
    isDictKind (tupleE (1,0) none []) = false ∧ isCallKind (tupleE (1,0) none []) = false ∧
    _get_ordered_child_nodes (tupleE (1,0) none []) = (tupleE (1,0) none []).iterChildNodes := by
  refine ⟨⟨rfl, (C9_ordered_children.1 (1,0) none
    [name (1,1) none "a", name (1,7) none "b"]
    [name (1,4) none "c", name (1,10) none "d"] rfl 1 (by decide)).2.1⟩, rfl, rfl, ?_⟩
  exact C9_ordered_children.2.2 _ rfl rfl

/-! ## The empty-source precondition (C7) -/

theorem except_bind_ne {α β : Type} {err : Err} {x : Except Err α} {f : α → Except Err β}
    (hx : x ≠ .error err) (hf : ∀ a, f a ≠ .error err) : (x >>= f) ≠ .error err := by
  cases x with
  | error e => simpa [Bind.bind, Except.bind] using hx
  | ok a => simpa [Bind.bind, Except.bind] using hf a

theorem except_map_ne {α β : Type} {err : Err} {x : Except Err α} {g : α → β}
    (hx : x ≠ .error err) : x.map g ≠ .error err := by
  cases x with
  | error e => simpa [Except.map] using hx
  | ok a => simp [Except.map]

theorem decodeColOf_ne_empty (lines : List (List Char)) (n : PyNode) :
    decodeColOf lines n ≠ .error .emptySource := by
  unfold decodeColOf
  split
  · split
    · simp
    · split <;> simp
  · simp

theorem fixSelf_ne_empty (lines : List (List Char)) (q : List Tok) (n : PyNode) :
    fixSelf lines q n ≠ .error .emptySource := by
  cases n <;> simp only [fixSelf] <;> (repeat' split) <;>
    solve
      | simp
      | exact except_map_ne (decodeColOf_ne_empty _ _)

mutual
theorem fixNodeF_ne_empty : ∀ (f : Nat) (lines : List (List Char)) (q : List Tok)
    (n : PyNode), fixNodeF f lines q n ≠ .error .emptySource
  | 0, _, _, _ => by simp [fixNodeF]
  | f + 1, lines, q, n => by
    simp only [fixNodeF]
    intro hc
    split at hc
    · rename_i e heq
      simp only [Except.error.injEq] at hc
      exact fixPairsF_ne_empty f lines (ordPairs n) q (hc ▸ heq)
    · exact fixSelf_ne_empty lines _ _ hc
theorem fixPairsF_ne_empty : ∀ (f : Nat) (lines : List (List Char))
    (l : List (Nat × PyNode)) (q : List Tok),
    fixPairsF f lines l q ≠ .error .emptySource
  | 0, _, _, _ => by simp [fixPairsF]
  | _ + 1, _, [], q => by simp [fixPairsF]
  | f + 1, lines, (i, s) :: rest, q => by
    simp only [fixPairsF]
    intro hc
    split at hc
    · rename_i e heq
      simp only [Except.error.injEq] at hc
      exact fixNodeF_ne_empty f lines q s (hc ▸ heq)
    · split at hc
      · rename_i e heq
        simp only [Except.error.injEq] at hc
        exact fixPairsF_ne_empty f lines rest _ (hc ▸ heq)
      · simp at hc
end

theorem fix_ast_problems_ne_empty (t : PyNode) (lines : List String) (toks : List Tok) :
    fix_ast_problems t lines toks ≠ .error .emptySource :=
  except_map_ne (fixNodeF_ne_empty _ _ _ _)

theorem stripJunkRevGo_ne_empty (ts : List Tok) :
    stripJunkRevGo ts ≠ .error .emptySource := by
  induction ts with
  | nil => simp [stripJunkRevGo]
  | cons t rest ih => simp only [stripJunkRevGo]; split <;> simp_all

theorem stmtStripRevGo_ne_empty (ts : List Tok) :
    stmtStripRevGo ts ≠ .error .emptySource := by
  induction ts with
  | nil => simp [stmtStripRevGo]
  | cons t rest ih => simp only [stmtStripRevGo]; split <;> simp_all

theorem strip_junk_ne_empty (ts : List Tok) :
    _strip_trailing_junk_from_expressions ts ≠ .error .emptySource :=
  except_map_ne (stripJunkRevGo_ne_empty _)

theorem stmtStrip_ne_empty (ts : List Tok) :
    stmtStrip ts ≠ .error .emptySource :=
  except_map_ne (stmtStripRevGo_ne_empty _)

theorem stripPhase_ne_empty (n : PyNode) (ts : List Tok) :
    stripPhase n ts ≠ .error .emptySource := by
  unfold stripPhase
  split
  · exact stmtStrip_ne_empty _
  · exact strip_junk_ne_empty _

theorem peelPhase_ne_empty (n : PyNode) (ts : List Tok) (last : Tok) :
    peelPhase n ts last ≠ .error .emptySource := by
  unfold peelPhase
  (repeat' split) <;> solve | simp | exact strip_junk_ne_empty _

theorem _set_real_end_ne_empty (n : PyNode) (ts : List Tok) :
    _set_real_end n ts ≠ .error .emptySource := by
  unfold _set_real_end
  intro hc
  split at hc
  · rename_i e heq
    simp only [Except.error.injEq] at hc
    exact stripPhase_ne_empty n ts (hc ▸ heq)
  · split at hc
    · simp at hc
    · split at hc
      · rename_i e heq
        simp only [Except.error.injEq] at hc
        exact peelPhase_ne_empty _ _ _ (hc ▸ heq)
      · simp at hc

theorem markKw_ne_empty (tokens : List Tok) (n : PyNode) :
    markKw tokens n ≠ .error .emptySource := by
  cases n <;> simp only [markKw] <;> try simp
  split
  · split
    · simp
    · split <;> simp
  · simp

theorem mapM_markKw_ne_empty (tokens : List Tok) (l : List PyNode) :
    l.mapM (markKw tokens) ≠ .error .emptySource := by
  induction l with
  | nil => simp [List.mapM, List.mapM.loop, Pure.pure, Except.pure]
  | cons x xs ih =>
    rw [List.mapM_cons]
    exact except_bind_ne (markKw_ne_empty tokens x)
      (fun a => except_bind_ne ih (fun b => by simp [Pure.pure, Except.pure]))

theorem _mark_parameters_ne_empty (n : PyNode) (tokens : List Tok) :
    _mark_parameters n tokens ≠ .error .emptySource := by
  cases n <;> simp only [_mark_parameters] <;> try simp
  split
  · simp
  · exact except_bind_ne (mapM_markKw_ne_empty _ _) (fun a => by simp)

mutual
theorem markRecF_ne_empty : ∀ (f : Nat) (n : PyNode) (tokens : List Tok)
    (pl pc : Nat), markRecF f n tokens pl pc ≠ .error .emptySource
  | 0, _, _, _, _ => by simp [markRecF]
  | f + 1, node, tokens, pl, pc => by
    simp only [markRecF]
    intro hc
    split at hc
    · rename_i e heq
      simp only [Except.error.injEq] at hc
      subst hc
      split at heq
      · split at heq
        · rename_i e2 heq2
          simp only [Except.error.injEq] at heq
          exact _set_real_end_ne_empty _ _ (heq ▸ heq2)
        · simp at heq
      · simp at heq
    · split at hc
      · rename_i e heq
        simp only [Except.error.injEq] at hc
        exact markPairsRevF_ne_empty f _ (ordPairs node) (pl, pc) (hc ▸ heq)
      · split at hc
        · rename_i e heq
          simp only [Except.error.injEq] at hc
          subst hc
          split at heq
          · exact _mark_parameters_ne_empty _ _ heq
          · simp at heq
        · simp at hc
theorem markPairsRevF_ne_empty : ∀ (f : Nat) (tokens : List Tok)
    (l : List (Nat × PyNode)) (prelim : Pos),
    markPairsRevF f tokens l prelim ≠ .error .emptySource
  | 0, _, _, _ => by simp [markPairsRevF]
  | _ + 1, _, [], prelim => by simp [markPairsRevF]
  | f + 1, tokens, (i, s) :: rest, prelim => by
    simp only [markPairsRevF]
    intro hc
    split at hc
    · rename_i e heq
      simp only [Except.error.injEq] at hc
      exact markPairsRevF_ne_empty f tokens rest prelim (hc ▸ heq)
    · split at hc
      · rename_i e heq
        simp only [Except.error.injEq] at hc
        exact markRecF_ne_empty f s tokens _ _ (hc ▸ heq)
      · simp at hc
end

theorem pyStrip_length_zero_iff (s : String) :
    ((pyStrip s).length = 0) ↔ s.data.all pyIsSpace = true := by
  unfold pyStrip
  show (List.length _ = 0) ↔ _
  rw [List.length_eq_zero, List.reverse_eq_nil_iff, List.dropWhile_eq_nil_iff,
    List.all_eq_true]
  constructor
  · intro h c hc
    by_cases hcw : pyIsSpace c = true
    · exact hcw
    · exfalso
      have hmem : c ∈ s.data.dropWhile pyIsSpace := by
        have hsplit := @List.takeWhile_append_dropWhile _ pyIsSpace s.data
        rw [← hsplit] at hc
        rcases List.mem_append.mp hc with h1 | h1
        · exact absurd (List.mem_takeWhile_imp h1) hcw
        · exact h1
      exact hcw (h c (List.mem_reverse.mpr hmem))
  · intro h c hc
    apply h
    exact List.dropWhile_sublist pyIsSpace |>.mem (List.mem_reverse.mp hc)

/-- C7: `mark_text_ranges` fails with the empty-source error exactly for
empty or whitespace-only sources — for *every* tokenizer outcome (even a
tokenizer failure: the check runs before tokenizing) and every tree (the
error aborts the call before the tree is read, so nothing is mutated).
The one hypothesis records that the external lexer itself never signals
the module's empty-source condition. -/
theorem C7_empty_source (tree : PyNode) (source : String)
    (tokres : Except Err (List Tok)) (htok : tokres ≠ .error .emptySource) :
    mark_text_ranges tree source tokres = .error .emptySource ↔
      source.data.all pyIsSpace = true := by
  rw [← pyStrip_length_zero_iff]
  unfold mark_text_ranges
  split
  · rename_i hlen
    constructor
    · intro hc
      exfalso
      split at hc
      · rename_i e
        simp only [Except.error.injEq] at hc
        exact htok (by rw [hc])
      · rename_i toks
        split at hc
        · rename_i e heq
          simp only [Except.error.injEq] at hc
          exact fix_ast_problems_ne_empty _ _ _ (hc ▸ heq)
        · split at hc
          · simp at hc
          · split at hc
            · rename_i e heq
              simp only [Except.error.injEq] at hc
              exact markRecF_ne_empty _ _ _ _ _ (hc ▸ heq)
            · simp at hc
    · omega
  · rename_i hlen
    constructor
    · intro _; omega
    · intro _; rfl

/-- Witness for C7: on the whitespace-only source `"  \n "` the call
fails with the empty-source error even though the supplied tokenizer
outcome is itself a (different) failure; on `"x(y=z)"` the result is not
the empty-source error. -/
theorem C7_witness :
    ((Except.error Err.attributeError : Except Err (List Tok)) ≠ .error .emptySource) ∧
    mark_text_ranges treeXYZ "  \n " (.error .attributeError) = .error .emptySource ∧
    ((mark_text_ranges treeXYZ "x(y=z)" (.ok toksXYZ) = .error .emptySource) ↔
      ("x(y=z)".data.all pyIsSpace = true)) := by
  refine ⟨by simp, ?_, C7_empty_source treeXYZ "x(y=z)" (.ok toksXYZ) (by simp)⟩
  exact (C7_empty_source treeXYZ "  \n " (.error .attributeError) (by simp)).mpr (by decide)

/-! ## Window-stripping facts and token exhaustion (C8) -/

theorem stripJunkRevGo_sublist {l l2 : List Tok}
    (h : stripJunkRevGo l = .ok l2) : l2.Sublist l := by
  induction l with
  | nil => simp [stripJunkRevGo] at h
  | cons t rest ih =>
    simp only [stripJunkRevGo] at h
    split at h
    · exact (ih h).trans (List.sublist_cons_self t rest)
    · cases h; exact List.Sublist.refl _

theorem strip_junk_sublist {ts ts2 : List Tok}
    (h : _strip_trailing_junk_from_expressions ts = .ok ts2) : ts2.Sublist ts := by
  unfold _strip_trailing_junk_from_expressions at h
  rcases h2 : stripJunkRevGo ts.reverse with e | l2
  · rw [h2] at h; simp [Except.map] at h
  · rw [h2] at h
    simp only [Except.map, Except.ok.injEq] at h
    subst h
    have := List.reverse_sublist.mpr (stripJunkRevGo_sublist h2)
    simpa using this

theorem stmtStripRevGo_sublist {l l2 : List Tok}
    (h : stmtStripRevGo l = .ok l2) : l2.Sublist l := by
  induction l with
  | nil => simp [stmtStripRevGo] at h
  | cons t rest ih =>
    simp only [stmtStripRevGo] at h
    split at h
    · exact (ih h).trans (List.sublist_cons_self t rest)
    · cases h; exact List.Sublist.refl _

theorem stmtStrip_sublist {ts ts2 : List Tok}
    (h : stmtStrip ts = .ok ts2) : ts2.Sublist ts := by
  unfold stmtStrip at h
  rcases h2 : stmtStripRevGo ts.reverse with e | l2
  · rw [h2] at h; simp [Except.map] at h
  · rw [h2] at h
    simp only [Except.map, Except.ok.injEq] at h
    subst h
    have := List.reverse_sublist.mpr (stmtStripRevGo_sublist h2)
    simpa using this

theorem _strip_trailing_extra_closers_sublist (ts : List Tok) (b : Bool) :
    (_strip_trailing_extra_closers ts b).Sublist ts := by
  unfold _strip_trailing_extra_closers
  split
  · exact List.take_sublist _ _
  · exact List.Sublist.refl _

theorem stripUnclosedRevGo_sublist : ∀ (l : List Tok) (lv : Int),
    (stripUnclosedRevGo l lv).2.Sublist l := by
  intro l
  induction l with
  | nil => intro lv; simp [stripUnclosedRevGo]
  | cons t rest ih =>
    intro lv
    simp only [stripUnclosedRevGo]
    generalize (if pyInStr t.tstr "(\x7b[" = true then lv - 1
      else if pyInStr t.tstr ")\x7d]" = true then lv + 1 else lv) = lv2
    split
    · exact (ih 0).trans (List.sublist_cons_self t rest)
    · rcases hr : stripUnclosedRevGo rest lv2 with ⟨b, kept⟩
      have := ih lv2
      rw [hr] at this
      cases b
      · exact this.cons₂ t
      · exact this.trans (List.sublist_cons_self t rest)

theorem _strip_unclosed_brackets_sublist (ts : List Tok) :
    (_strip_unclosed_brackets ts).Sublist ts := by
  unfold _strip_unclosed_brackets
  have := List.reverse_sublist.mpr (stripUnclosedRevGo_sublist ts.reverse 0)
  simpa using this

theorem stripPhase_sublist {n : PyNode} {ts ts2 : List Tok}
    (h : stripPhase n ts = .ok ts2) : ts2.Sublist ts := by
  unfold stripPhase at h
  split at h
  · exact stmtStrip_sublist h
  · exact (strip_junk_sublist h).trans
      ((_strip_unclosed_brackets_sublist _).trans
        (_strip_trailing_extra_closers_sublist _ _))

theorem peelPhase_sublist {n : PyNode} {ts ts2 : List Tok} {last : Tok}
    (h : peelPhase n ts last = .ok ts2) : ts2.Sublist ts := by
  unfold peelPhase at h
  split at h
  · split at h
    · exact (strip_junk_sublist h).trans (List.dropLast_sublist ts)
    · cases h
  · split at h
    · split at h
      · exact (strip_junk_sublist h).trans (List.dropLast_sublist ts)
      · cases h
    · cases h; exact List.Sublist.refl _

/-- On success, `_set_real_end` hands the children a sub-window of its
input and reports as end the end of an actual token of that input. -/
theorem _set_real_end_spec {n : PyNode} {ts ts2 : List Tok} {e : Pos}
    (h : _set_real_end n ts = .ok (e, ts2)) :
    (∃ t ∈ ts, e = t.epos) ∧ ts2.Sublist ts := by
  unfold _set_real_end at h
  split at h
  · cases h
  · rename_i S hS
    split at h
    · cases h
    · rename_i last hlast
      split at h
      · cases h
      · rename_i final hfinal
        cases h
        have hSsub := stripPhase_sublist hS
        refine ⟨⟨last, hSsub.mem (List.mem_of_mem_getLast? hlast), rfl⟩, ?_⟩
        exact (peelPhase_sublist hfinal).trans hSsub

/-- C8: when the stripping rules leave a positioned node's token window
with no token to derive an end from, `_set_real_end` fails (the IndexError
on `tokens[-1]`, the specification's token-exhaustion error), and
`_mark_text_ranges_rec` propagates the failure, aborting the whole call —
no degenerate end position is ever assigned: on success the end is always
the end of a token actually present in the node's window.  In particular
the empty window always errors. -/
theorem C8_token_exhaustion :
    (∀ n : PyNode, _set_real_end n [] = .error .tokenExhaustion) ∧
    (∀ (n : PyNode) (ts ts2 : List Tok) (e : Pos),
      _set_real_end n ts = .ok (e, ts2) → ∃ t ∈ ts, e = t.epos) ∧
    (∀ (n : PyNode) (tokens : List Tok) (pl pc : Nat) (er : Err),
      n.positionedKind = true →
      _set_real_end n (_extract_tokens tokens n.startP.1 n.startP.2 pl pc) = .error er →
      _mark_text_ranges_rec n tokens pl pc = .error er) := by
  refine ⟨fun n => ?_, fun n ts ts2 e h => (_set_real_end_spec h).1, ?_⟩
  · cases n <;> rfl
  · intro n tokens pl pc er hpos herr
    unfold _mark_text_ranges_rec
    have hsz : nsize n + 1 = (nsize n) + 1 := rfl
    simp only [markRecF, hpos, if_pos, herr]

/-- Witness for C8: a `Num` node at `(1, 5)` whose window (every token of
the stream starting at or after its start) is empty: the end-setting step
and the whole marking call fail with the token-exhaustion error. -/
theorem C8_witness :
    (num (1,5) none "7").positionedKind = true ∧
    _set_real_end (num (1,5) none "7")
      (_extract_tokens [⟨tokNAME, "a", (1,0), (1,1)⟩] 1 5 1 9) =
      .error .tokenExhaustion ∧
    _mark_text_ranges_rec (num (1,5) none "7") [⟨tokNAME, "a", (1,0), (1,1)⟩] 1 9 =
      .error .tokenExhaustion := by
  refine ⟨rfl, rfl, ?_⟩
  exact C8_token_exhaustion.2.2 (num (1,5) none "7") [⟨tokNAME, "a", (1,0), (1,1)⟩]
    1 9 .tokenExhaustion rfl rfl

/-! ## Keyword-argument spans (C2) -/

/-- The specification's description of the keyword scan: the nearest
token before the position that is identifier-kind *and* whose text equals
the keyword's name.  (The code instead takes the nearest identifier-kind
token and asserts its text; on success the two agree, which is proved
below.) -/
def findTokenPriorNamed (tokens : List Tok) (lineno col_offset : Nat)
    (arg : String) : Option Tok :=
  tokens.reverse.find? (fun t =>
    (decide (t.spos.1 ≤ lineno)
      && (decide (t.spos.2 < col_offset) || decide (t.spos.1 < lineno)))
    && t.ttype == tokNAME && t.tstr == arg)

theorem find?_strengthen {α : Type} (l : List α) (P Q : α → Bool) (t : α)
    (hPQ : ∀ u, Q u = true → P u = true) (ht : l.find? P = some t)
    (hQt : Q t = true) : l.find? Q = some t := by
  induction l with
  | nil => simp at ht
  | cons u us ih =>
    rw [List.find?_cons] at ht ⊢
    cases hPu : P u with
    | true =>
      rw [hPu] at ht
      simp only [Option.some.injEq] at ht
      subst ht
      rw [hQt]
    | false =>
      rw [hPu] at ht
      cases hQu : Q u with
      | true => exact absurd (hPQ u hQu) (by rw [hPu]; simp)
      | false => exact ih ht

/-- C2: for every call expression processed by `mark_text_ranges` (the
engine runs `_mark_parameters` on every `Call` node after its children
are marked), each keyword argument's assigned range is exactly the
start/end of the identifier token naming the keyword, found by scanning
the call's token window backward from the keyword value's start: on
success the found token is the nearest identifier-kind token before the
value's start, its text equals the keyword's name, and it is also what
the specification's text-filtered scan finds.  In particular, for the
source `x(y=z)` the keyword node's range extracts to exactly `"y"`. -/
theorem C2_keyword_spans :
    (∀ (tokens : List Tok) (arg : String) (rng : Option (Pos × Pos))
       (v n2 : PyNode), markKw tokens (kwNode arg rng v) = .ok n2 →
      ∃ t : Tok,
        _find_token_prior_to_position tokens v.startP.1 v.startP.2 (some tokNAME) =
          some t ∧
        t.tstr = arg ∧
        findTokenPriorNamed tokens v.startP.1 v.startP.2 arg = some t ∧
        n2 = kwNode arg (some (t.spos, t.epos)) v) ∧
    (∀ (p : Pos) (e : Option Pos) (f : PyNode) (args kws star dstar : List PyNode)
       (tokens : List Tok) (n2 : PyNode),
      _mark_parameters (call p e f args kws star dstar) tokens = .ok n2 →
      ∃ kws2, n2 = call p e f args kws2 star dstar ∧
        (kws.isEmpty = true ∧ kws2 = kws ∨ kws.mapM (markKw tokens) = .ok kws2)) ∧
    (mark_text_ranges treeXYZ "x(y=z)" (.ok toksXYZ) = .ok markedXYZ ∧
      kwRngOf (kwNode "y" (some ((1,2), (1,3))) (name (1,4) (some (1,5)) "z")) =
        some ((1,2), (1,3)) ∧
      extract_text_range "x(y=z)" ⟨1, 2, 1, 3⟩ = "y") := by
  refine ⟨?_, ?_, mark_run_xyz, rfl, rfl⟩
  · intro tokens arg rng v n2 h
    simp only [markKw] at h
    split at h
    · split at h
      · exact absurd h (by simp)
      · rename_i t hfind
        split at h
        · rename_i htstr
          simp only [Except.ok.injEq] at h
          refine ⟨t, hfind, by simpa using htstr, ?_, h.symm⟩
          unfold findTokenPriorNamed
          unfold _find_token_prior_to_position at hfind
          refine find?_strengthen _ _ _ t ?_ hfind ?_
          · intro u hu
            simp only [Bool.and_eq_true] at hu ⊢
            exact ⟨hu.1.1, by simp [hu.1.2]⟩
          · simp only [Bool.and_eq_true]
            have hmem := List.find?_some hfind
            simp only [Bool.and_eq_true] at hmem
            exact ⟨⟨hmem.1, hmem.2⟩, htstr⟩
        · exact absurd h (by simp)
    · exact absurd h (by simp)
  · intro p e f args kws star dstar tokens n2 h
    simp only [_mark_parameters] at h
    split at h
    · rename_i hemp
      simp only [Except.ok.injEq] at h
      exact ⟨kws, h.symm, Or.inl ⟨hemp, rfl⟩⟩
    · rcases hmap : kws.mapM (markKw tokens) with e2 | kws2
      · rw [hmap] at h
        exact absurd h (by simp [Bind.bind, Except.bind])
      · rw [hmap] at h
        simp only [Bind.bind, Except.bind, Except.ok.injEq] at h
        exact ⟨kws2, h.symm, Or.inr rfl⟩

/-- Witness for C2: the keyword of `x(y=z)` — `markKw` on the call's
window finds the `y` token at `(1,2)–(1,3)` and names the keyword node's
range with it, and `_mark_parameters` rebuilds the call with it. -/
theorem C2_witness :
    (∃ t : Tok,
      _find_token_prior_to_position toksXYZ 1 4 (some tokNAME) = some t ∧
      t.tstr = "y" ∧
      findTokenPriorNamed toksXYZ 1 4 "y" = some t ∧
      kwNode "y" (some ((1,2), (1,3))) (name (1,4) none "z") =
        kwNode "y" (some (t.spos, t.epos)) (name (1,4) none "z")) := by
  have h := C2_keyword_spans.1 toksXYZ "y" none (name (1,4) none "z")
    (kwNode "y" (some ((1,2), (1,3))) (name (1,4) none "z")) rfl
  exact h

/-! ## Range containment after marking (C1): structural predicates -/

/-- `SubNode n m`: `m` lies in the subtree of `n` (including `n` itself),
through `ast.iter_child_nodes` edges. -/
inductive SubNode : PyNode → PyNode → Prop where
  | refl (n : PyNode) : SubNode n n
  | step {n c m : PyNode} : c ∈ n.iterChildNodes → SubNode c m → SubNode n m

/-- `m` is a proper descendant of `n`. -/
def ProperSub (n m : PyNode) : Prop := ∃ c ∈ n.iterChildNodes, SubNode c m

theorem SubNode.trans {a b c : PyNode} (h1 : SubNode a b) (h2 : SubNode b c) :
    SubNode a c := by
  induction h1 with
  | refl => exact h2
  | step hmem _ ih => exact SubNode.step hmem (ih h2)

/-- Every natively positioned node of the subtree starts at or after `p`. -/
def StartsGe (p : Pos) (m : PyNode) : Prop :=
  ∀ d, SubNode m d → d.positionedKind = true → posLe p d.startP = true

/-- Start positions are monotone along the tree: every positioned node
starts at or before each node of each of its child subtrees. -/
def StartsMono (m : PyNode) : Prop :=
  ∀ d, SubNode m d → d.positionedKind = true →
    ∀ c ∈ d.iterChildNodes, StartsGe d.startP c

/-- Every dict literal in the subtree has as many keys as values. -/
def DictsOk (m : PyNode) : Prop :=
  ∀ d, SubNode m d → ∀ p e keys vals, d = dictE p e keys vals →
    keys.length = vals.length

theorem StartsMono.child {m c : PyNode} (h : StartsMono m)
    (hc : c ∈ m.iterChildNodes) : StartsMono c :=
  fun d hd => h d (SubNode.step hc hd)

theorem StartsMono.descend {m c : PyNode} (h : StartsMono m) (hc : SubNode m c) :
    StartsMono c :=
  fun d hd => h d (hc.trans hd)

theorem DictsOk.inherit {m c : PyNode} (h : DictsOk m) (hc : SubNode m c) :
    DictsOk c :=
  fun d hd => h d (hc.trans hd)

theorem SubNode.of_slot {n s : PyNode} (h : s ∈ n.rawSlots) : SubNode n s := by
  cases n with
  | module body => exact SubNode.step h (.refl _)
  | exprStmt p e v => exact SubNode.step h (.refl _)
  | name p e i => exact absurd h (by simp [rawSlots])
  | num p e l => exact absurd h (by simp [rawSlots])
  | strE p e l => exact absurd h (by simp [rawSlots])
  | tupleE p e elts => exact SubNode.step h (.refl _)
  | binOp p e l r => exact SubNode.step h (.refl _)
  | attributeE p e v a => exact SubNode.step h (.refl _)
  | subscriptE p e v sl => exact SubNode.step h (.refl _)
  | kwNode a rng v => exact SubNode.step h (.refl _)
  | dictE p e keys vals =>
    have hm : s ∈ keys ∨ s ∈ vals := by
      have h2 : s ∈ interleave keys vals := h
      clear h
      induction keys generalizing vals with
      | nil => simp [interleave] at h2
      | cons k ks ih =>
        cases vals with
        | nil => simp [interleave] at h2
        | cons v vs =>
          simp only [interleave, List.mem_cons] at h2
          rcases h2 with rfl | rfl | h2
          · exact Or.inl (by simp)
          · exact Or.inr (by simp)
          · rcases ih vs h2 with h | h
            · exact Or.inl (by simp [h])
            · exact Or.inr (by simp [h])
    exact SubNode.step (by simp only [iterChildNodes, List.mem_append]; exact hm)
      (.refl _)
  | call p e f args kws star dstar =>
    have h2 : s = f ∨ s ∈ args ++ kws.map kwValueOf ++ star ++ dstar := by
      simpa [rawSlots] using h
    rcases h2 with rfl | h2
    · exact SubNode.step (by simp [iterChildNodes]) (.refl _)
    · rcases List.mem_append.mp h2 with h2 | hd
      · rcases List.mem_append.mp h2 with h2 | hs
        · rcases List.mem_append.mp h2 with ha | hm
          · exact SubNode.step (by simp [iterChildNodes, ha]) (.refl _)
          · obtain ⟨k, hk, rfl⟩ := List.mem_map.mp hm
            have hkc : k ∈ (call p e f args kws star dstar).iterChildNodes := by
              simp [iterChildNodes, hk]
            cases k with
            | kwNode a rng v =>
              exact SubNode.step hkc
                (SubNode.step (by simp [iterChildNodes, kwValueOf]) (.refl _))
            | module body => exact SubNode.step hkc (.refl _)
            | exprStmt p2 e2 v => exact SubNode.step hkc (.refl _)
            | name p2 e2 i => exact SubNode.step hkc (.refl _)
            | num p2 e2 l => exact SubNode.step hkc (.refl _)
            | strE p2 e2 l => exact SubNode.step hkc (.refl _)
            | tupleE p2 e2 elts => exact SubNode.step hkc (.refl _)
            | dictE p2 e2 ks vs => exact SubNode.step hkc (.refl _)
            | binOp p2 e2 l r => exact SubNode.step hkc (.refl _)
            | attributeE p2 e2 v a => exact SubNode.step hkc (.refl _)
            | subscriptE p2 e2 v sl => exact SubNode.step hkc (.refl _)
            | call p2 e2 f2 a2 k2 s2 d2 => exact SubNode.step hkc (.refl _)
        · exact SubNode.step (by simp [iterChildNodes, hs]) (.refl _)
      · exact SubNode.step (by simp [iterChildNodes, hd]) (.refl _)

-- Positions and end slots erased: what the marking pass must leave
-- untouched is everything stripMarks keeps.
mutual
def stripMarks : PyNode → PyNode
  | module body => module (stripMarksList body)
  | exprStmt p _ v => exprStmt p none (stripMarks v)
  | name p _ i => name p none i
  | num p _ l => num p none l
  | strE p _ l => strE p none l
  | tupleE p _ elts => tupleE p none (stripMarksList elts)
  | dictE p _ keys vals => dictE p none (stripMarksList keys) (stripMarksList vals)
  | binOp p _ l r => binOp p none (stripMarks l) (stripMarks r)
  | attributeE p _ v a => attributeE p none (stripMarks v) a
  | subscriptE p _ v sl => subscriptE p none (stripMarks v) (stripMarks sl)
  | call p _ f args kws star dstar =>
    call p none (stripMarks f) (stripMarksList args) (stripMarksList kws)
      (stripMarksList star) (stripMarksList dstar)
  | kwNode a _ v => kwNode a none (stripMarks v)
def stripMarksList : List PyNode → List PyNode
  | [] => []
  | x :: xs => stripMarks x :: stripMarksList xs
end

theorem stripMarks_startP (n : PyNode) : (stripMarks n).startP = n.startP := by
  cases n <;> rfl

theorem stripMarks_positionedKind (n : PyNode) :
    (stripMarks n).positionedKind = n.positionedKind := by
  cases n <;> rfl

theorem stripMarksList_length (l : List PyNode) :
    (stripMarksList l).length = l.length := by
  induction l with
  | nil => rfl
  | cons x xs ih => simp [stripMarksList, ih]

/-! ### Accessor bookkeeping for the rebuilt nodes -/

theorem startP_setEnd (n : PyNode) (e : Pos) : (n.setEnd e).startP = n.startP := by
  cases n <;> rfl

theorem positionedKind_setEnd (n : PyNode) (e : Pos) :
    (n.setEnd e).positionedKind = n.positionedKind := by
  cases n <;> rfl

theorem endOf_setEnd {n : PyNode} (e : Pos) (h : n.positionedKind = true) :
    (n.setEnd e).endOf = some e := by
  cases n <;> first | rfl | exact absurd h (by simp [positionedKind])

theorem kwRngOf_setEnd (n : PyNode) (e : Pos) : (n.setEnd e).kwRngOf = n.kwRngOf := by
  cases n <;> rfl

theorem rawSlots_setEnd (n : PyNode) (e : Pos) : (n.setEnd e).rawSlots = n.rawSlots := by
  cases n <;> rfl

theorem iterChildNodes_setEnd (n : PyNode) (e : Pos) :
    (n.setEnd e).iterChildNodes = n.iterChildNodes := by
  cases n <;> rfl

theorem stripMarks_setEnd (n : PyNode) (e : Pos) :
    stripMarks (n.setEnd e) = stripMarks n := by
  cases n <;> rfl

theorem isCallKind_setEnd (n : PyNode) (e : Pos) :
    (n.setEnd e).isCallKind = n.isCallKind := by
  cases n <;> rfl

theorem startP_setSlots (n : PyNode) (ss : List PyNode) :
    (n.setSlots ss).startP = n.startP := by
  cases n <;> rfl

theorem positionedKind_setSlots (n : PyNode) (ss : List PyNode) :
    (n.setSlots ss).positionedKind = n.positionedKind := by
  cases n <;> rfl

theorem endOf_setSlots (n : PyNode) (ss : List PyNode) :
    (n.setSlots ss).endOf = n.endOf := by
  cases n <;> rfl

theorem kwRngOf_setSlots (n : PyNode) (ss : List PyNode) :
    (n.setSlots ss).kwRngOf = n.kwRngOf := by
  cases n <;> rfl

theorem isCallKind_setSlots (n : PyNode) (ss : List PyNode) :
    (n.setSlots ss).isCallKind = n.isCallKind := by
  cases n <;> rfl

theorem startOf_positioned {n : PyNode} (h : n.positionedKind = true) :
    n.startOf = some n.startP := by
  cases n <;> first | rfl | exact absurd h (by simp [positionedKind])

/-- Where a defined `startOf` can come from: a natively positioned node's
reported start, or the start half of a keyword node's assigned range. -/
theorem startOf_eq_some_cases {d : PyNode} {s : Pos} (h : d.startOf = some s) :
    (d.positionedKind = true ∧ s = d.startP) ∨
    (∃ a e2 v, d = kwNode a (some (s, e2)) v) := by
  cases d with
  | module body => exact absurd h (by simp [startOf])
  | kwNode a rng v =>
    cases rng with
    | none => exact absurd h (by simp [startOf])
    | some r =>
      refine Or.inr ⟨a, r.2, v, ?_⟩
      simp only [startOf, Option.map_some] at h
      cases h
      rfl
  | _ => exact Or.inl ⟨rfl, by simp_all [startOf, startP]⟩

theorem endOf_kwNode_some {a : String} {rng : Option (Pos × Pos)} {v : PyNode}
    {e : Pos} (h : (kwNode a rng v).endOf = some e) :
    ∃ s, rng = some (s, e) := by
  cases rng with
  | none => exact absurd h (by simp [endOf])
  | some r =>
    have h2 : r.2 = e := by simpa [endOf] using h
    exact ⟨r.1, by rw [← h2]⟩

theorem stripMarksList_eq_map (l : List PyNode) :
    stripMarksList l = l.map stripMarks := by
  induction l with
  | nil => rfl
  | cons x xs ih => simp [stripMarksList, ih]

theorem startP_of_stripMarks_eq {a b : PyNode} (h : stripMarks a = stripMarks b) :
    a.startP = b.startP := by
  rw [← stripMarks_startP a, ← stripMarks_startP b, h]

theorem positionedKind_of_stripMarks_eq {a b : PyNode}
    (h : stripMarks a = stripMarks b) :
    a.positionedKind = b.positionedKind := by
  rw [← stripMarks_positionedKind a, ← stripMarks_positionedKind b, h]

theorem isModule_of_stripMarks_module {x : PyNode} {l : List PyNode}
    (h : stripMarks x = module l) : ∃ b, x = module b := by
  cases x <;> simp_all [stripMarks]

theorem isKw_of_stripMarks_kw {x : PyNode} {a : String} {r : Option (Pos × Pos)}
    {v : PyNode} (h : stripMarks x = kwNode a r v) :
    ∃ r2 v2, x = kwNode a r2 v2 := by
  cases x <;> simp_all [stripMarks]

theorem isCall_of_stripMarks_eq {a b : PyNode} (h : stripMarks a = stripMarks b) :
    a.isCallKind = b.isCallKind := by
  cases a <;> cases b <;> first | rfl | simp_all [stripMarks, isCallKind]

/-! ### Token-window facts -/

/-- Well-formed token stream: each token's start is at or before its end,
and the ends are nondecreasing along the stream. -/
def TokWf (toks : List Tok) : Prop :=
  (∀ t ∈ toks, posLe t.spos t.epos = true) ∧
  toks.Pairwise (fun a b => posLe a.epos b.epos = true)

theorem TokWf.sublist {l toks : List Tok} (h : TokWf toks) (hs : l.Sublist toks) :
    TokWf l :=
  ⟨fun t ht => h.1 t (hs.mem ht), h.2.sublist hs⟩

theorem extract_sublist (tokens : List Tok) (a b c d : Nat) :
    (_extract_tokens tokens a b c d).Sublist tokens :=
  List.filter_sublist tokens

theorem extract_mem {tokens : List Tok} {a b c d : Nat} {t : Tok}
    (h : t ∈ _extract_tokens tokens a b c d) :
    t ∈ tokens ∧ posLe (a, b) t.spos = true ∧ posLe t.epos (c, d) = true := by
  have h2 := List.mem_filter.mp h
  refine ⟨h2.1, ?_, ?_⟩
  · have := h2.2
    simp only [Bool.and_eq_true, Bool.or_eq_true, decide_eq_true_eq] at this
    simp only [posLe, Bool.or_eq_true, Bool.and_eq_true, beq_iff_eq,
      decide_eq_true_eq]
    omega
  · have := h2.2
    simp only [Bool.and_eq_true, Bool.or_eq_true, decide_eq_true_eq] at this
    simp only [posLe, Bool.or_eq_true, Bool.and_eq_true, beq_iff_eq,
      decide_eq_true_eq]
    omega

theorem pairwise_rel_getLast {α : Type} {R : α → α → Prop} :
    ∀ {l : List α} {x : α}, l.Pairwise R → l.getLast? = some x →
      ∀ u ∈ l, u = x ∨ R u x := by
  intro l
  induction l with
  | nil => intro x _ h; cases h
  | cons a t ih =>
    intro x hp hl u hu
    cases t with
    | nil =>
      simp only [List.getLast?_singleton, Option.some.injEq] at hl
      rcases List.mem_singleton.mp hu with rfl
      first
        | exact Or.inl hl
        | exact Or.inl hl.symm
    | cons b t2 =>
      have hl2 : (b :: t2).getLast? = some x := by
        rw [List.getLast?_cons_cons] at hl; exact hl
      cases hu with
      | head =>
        have hx : x ∈ b :: t2 := List.mem_of_mem_getLast? hl2
        exact Or.inr ((List.pairwise_cons.mp hp).1 x hx)
      | tail _ hu => exact ih (List.pairwise_cons.mp hp).2 hl2 u hu

/-- `_set_real_end` on a stream with nondecreasing ends: the reported end
is the end of a token of the window, every token handed to the children is
a window token whose end is at or before the reported end. -/
theorem set_real_end_full {n : PyNode} {ts ts2 : List Tok} {e : Pos}
    (hwf : ts.Pairwise (fun a b => posLe a.epos b.epos = true))
    (h : _set_real_end n ts = .ok (e, ts2)) :
    (∃ t ∈ ts, e = t.epos) ∧ ts2.Sublist ts ∧
      (∀ u ∈ ts2, posLe u.epos e = true) := by
  unfold _set_real_end at h
  split at h
  · cases h
  · rename_i S hS
    split at h
    · cases h
    · rename_i last hlast
      split at h
      · cases h
      · rename_i final hfinal
        cases h
        have hSsub := stripPhase_sublist hS
        have hfin := peelPhase_sublist hfinal
        refine ⟨⟨last, hSsub.mem (List.mem_of_mem_getLast? hlast), rfl⟩,
          hfin.trans hSsub, ?_⟩
        intro u hu
        have hpS : S.Pairwise (fun a b => posLe a.epos b.epos = true) :=
          hwf.sublist hSsub
        rcases pairwise_rel_getLast hpS hlast u (hfin.mem hu) with rfl | hle
        · exact posLe_refl _
        · exact hle

/-! ### Write-back bookkeeping: `applyUpd` and the indexed resolver -/

theorem applyUpd_nil (slots : List PyNode) : applyUpd slots [] = slots := rfl

theorem applyUpd_cons (slots : List PyNode) (i : Nat) (x : PyNode)
    (rest : List (Nat × PyNode)) :
    applyUpd slots ((i, x) :: rest) = applyUpd (slots.set i x) rest := rfl

theorem applyUpd_length : ∀ (upd : List (Nat × PyNode)) (slots : List PyNode),
    (applyUpd slots upd).length = slots.length := by
  intro upd
  induction upd with
  | nil => intro slots; rfl
  | cons p rest ih =>
    intro slots
    rw [show applyUpd slots (p :: rest) = applyUpd (slots.set p.1 p.2) rest from rfl,
      ih, List.length_set]

theorem getElem?_some_lt {α : Type} {l : List α} {i : Nat} {a : α}
    (h : l[i]? = some a) : i < l.length := by
  by_contra hge
  rw [List.getElem?_eq_none (by omega)] at h
  cases h

theorem applyUpd_getElem_not_mem :
    ∀ (upd : List (Nat × PyNode)) (slots : List PyNode) (j : Nat),
    j ∉ upd.map Prod.fst → (applyUpd slots upd)[j]? = slots[j]? := by
  intro upd
  induction upd with
  | nil => intro slots j _; rfl
  | cons p rest ih =>
    intro slots j hj
    simp only [List.map_cons, List.mem_cons, not_or] at hj
    rw [show applyUpd slots (p :: rest) = applyUpd (slots.set p.1 p.2) rest from rfl,
      ih _ j hj.2]
    exact List.getElem?_set_ne (fun h => hj.1 h.symm)

theorem applyUpd_getElem_mem :
    ∀ (upd : List (Nat × PyNode)) (slots : List PyNode) (i : Nat) (x : PyNode),
    (upd.map Prod.fst).Nodup → (i, x) ∈ upd → i < slots.length →
    (applyUpd slots upd)[i]? = some x := by
  intro upd
  induction upd with
  | nil => intro slots i x _ hmem _; cases hmem
  | cons p rest ih =>
    intro slots i x hnd hmem hi
    simp only [List.map_cons, List.nodup_cons] at hnd
    cases hmem with
    | head =>
      rw [show applyUpd slots ((i, x) :: rest) = applyUpd (slots.set i x) rest
        from rfl]
      rw [applyUpd_getElem_not_mem rest _ i hnd.1]
      exact List.getElem?_set_eq hi
    | tail _ hmem =>
      rw [show applyUpd slots (p :: rest) = applyUpd (slots.set p.1 p.2) rest
        from rfl]
      exact ih _ i x hnd.2 hmem (by rwa [List.length_set])

theorem ordPairs_perm_enum (n : PyNode) : (ordPairs n).Perm n.rawSlots.enum := by
  unfold ordPairs
  by_cases h : n.isCallKind
  · rw [if_pos h]; exact List.perm_insertionSort _ _
  · rw [if_neg h]

theorem mem_enumFrom_getElem {α : Type} :
    ∀ (l : List α) (k : Nat) {i : Nat} {a : α}, (i, a) ∈ l.enumFrom k →
      k ≤ i ∧ l[i - k]? = some a := by
  intro l
  induction l with
  | nil => intro k i a h; cases h
  | cons x xs ih =>
    intro k i a h
    simp only [List.enumFrom, List.mem_cons] at h
    rcases h with h | h
    · injection h with h1 h2
      subst h1; subst h2
      simp
    · obtain ⟨h1, h2⟩ := ih (k + 1) h
      refine ⟨by omega, ?_⟩
      have : i - k = (i - (k + 1)) + 1 := by omega
      rw [this]
      simpa using h2

theorem ordPairs_mem {n : PyNode} {i : Nat} {s : PyNode}
    (h : (i, s) ∈ ordPairs n) : n.rawSlots[i]? = some s := by
  have h2 : (i, s) ∈ n.rawSlots.enum := (ordPairs_perm_enum n).mem_iff.mp h
  have h3 := mem_enumFrom_getElem n.rawSlots 0 h2
  simpa using h3.2

theorem ordPairs_slot_mem {n : PyNode} {i : Nat} {s : PyNode}
    (h : (i, s) ∈ ordPairs n) : s ∈ n.rawSlots :=
  List.getElem?_mem (ordPairs_mem h)

theorem ordPairs_fst_perm (n : PyNode) :
    ((ordPairs n).map Prod.fst).Perm (List.range n.rawSlots.length) := by
  have := (ordPairs_perm_enum n).map Prod.fst
  rwa [List.enum_map_fst] at this

theorem ordPairs_fst_nodup (n : PyNode) : ((ordPairs n).map Prod.fst).Nodup :=
  ((ordPairs_fst_perm n).nodup_iff).mpr (List.nodup_range _)

theorem ordPairs_complete {n : PyNode} {j : Nat} (hj : j < n.rawSlots.length) :
    ∃ s, (j, s) ∈ ordPairs n ∧ n.rawSlots[j]? = some s := by
  have hjr : j ∈ (ordPairs n).map Prod.fst :=
    (ordPairs_fst_perm n).mem_iff.mpr (List.mem_range.mpr hj)
  obtain ⟨p, hp, hpj⟩ := List.mem_map.mp hjr
  obtain ⟨i, s⟩ := p
  cases hpj
  exact ⟨s, hp, ordPairs_mem hp⟩

/-! ### Sorting is determined by how the relation acts on the elements -/

theorem orderedInsert_congr {α : Type} {r1 r2 : α → α → Prop}
    [DecidableRel r1] [DecidableRel r2] (x : α) :
    ∀ (m : List α), (∀ b ∈ m, (r1 x b ↔ r2 x b)) →
      List.orderedInsert r1 x m = List.orderedInsert r2 x m := by
  intro m
  induction m with
  | nil => intro _; rfl
  | cons y ys ih =>
    intro h
    by_cases h1 : r1 x y
    · have h2 : r2 x y := (h y (by simp)).mp h1
      simp [List.orderedInsert, h1, h2]
    · have h2 : ¬ r2 x y := fun h2 => h1 ((h y (by simp)).mpr h2)
      simp only [List.orderedInsert, if_neg h1, if_neg h2]
      rw [ih (fun b hb => h b (by simp [hb]))]

theorem insertionSort_congr {α : Type} {r1 r2 : α → α → Prop}
    [DecidableRel r1] [DecidableRel r2] :
    ∀ (l : List α), (∀ a ∈ l, ∀ b ∈ l, (r1 a b ↔ r2 a b)) →
      List.insertionSort r1 l = List.insertionSort r2 l := by
  intro l
  induction l with
  | nil => intro _; rfl
  | cons x xs ih =>
    intro h
    show List.orderedInsert r1 x (List.insertionSort r1 xs) =
      List.orderedInsert r2 x (List.insertionSort r2 xs)
    rw [ih (fun a ha b hb => h a (by simp [ha]) b (by simp [hb]))]
    refine orderedInsert_congr x _ (fun b hb => ?_)
    have hbx : b ∈ xs := (List.perm_insertionSort r2 xs).mem_iff.mp hb
    exact h x (by simp) b (by simp [hbx])

theorem enum_eq_map_of_length_eq {α : Type} (l1 l2 : List α) (d : α)
    (hlen : l2.length = l1.length) :
    l2.enum = l1.enum.map (fun p => (p.1, l2.getD p.1 d)) := by
  apply List.ext_getElem?
  intro j
  rw [List.getElem?_map]
  by_cases hj : j < l1.length
  · have hj2 : j < l2.length := by omega
    rw [List.getElem?_enum, List.getElem?_enum]
    rw [List.getElem?_eq_getElem hj, List.getElem?_eq_getElem hj2]
    have hd : l2.getD j d = l2[j] := by
      rw [List.getD_eq_getElem?_getD, List.getElem?_eq_getElem hj2]
      rfl
    show some (j, l2[j]) = some (j, l2.getD j d)
    rw [hd]
  · rw [List.getElem?_enum, List.getElem?_enum]
    rw [List.getElem?_eq_none (by omega), List.getElem?_eq_none (by omega)]
    rfl

/-! ### Rebuilding a node around updated slots -/

theorem list_len2 {α : Type} {l : List α} (h : l.length = 2) :
    ∃ a b, l = [a, b] := by
  cases l with
  | nil => simp at h
  | cons a t =>
    cases t with
    | nil => simp at h
    | cons b t2 =>
      cases t2 with
      | nil => exact ⟨a, b, rfl⟩
      | cons c t3 => simp at h

theorem range_map_getElem {α : Type} (f : Nat → α) (n i : Nat) (hi : i < n) :
    ((List.range n).map f)[i]? = some (f i) := by
  rw [List.getElem?_map, List.getElem?_range hi]
  rfl

theorem map_kwValueOf_zipWith :
    ∀ (kws kwvals : List PyNode), kwvals.length = kws.length →
    (∀ k ∈ kws, ∃ a rng v, k = kwNode a rng v) →
    (kws.zipWith withKwValue kwvals).map kwValueOf = kwvals := by
  intro kws
  induction kws with
  | nil =>
    intro kwvals hlen _
    cases kwvals with
    | nil => rfl
    | cons v vs => simp at hlen
  | cons k ks ih =>
    intro kwvals hlen hkw
    cases kwvals with
    | nil => simp at hlen
    | cons v vs =>
      obtain ⟨a, rng, w, rfl⟩ := hkw k (by simp)
      simp only [List.zipWith_cons_cons, List.map_cons]
      rw [ih vs (by simpa using hlen) (fun k2 hk2 => hkw k2 (by simp [hk2]))]
      rfl

/-- Destructure `setSlots` on a call node: the updated slot list is split
positionally into callee, arguments, keyword values, star and double-star
arguments. -/
theorem setSlots_call_eq (p : Pos) (e : Option Pos) (f : PyNode)
    (args kws star dstar ss : List PyNode)
    (hlen : ss.length =
      1 + (args.length + (kws.length + (star.length + dstar.length)))) :
    ∃ x rest, ss = x :: rest ∧
      rest.length = args.length + (kws.length + (star.length + dstar.length)) ∧
      setSlots (call p e f args kws star dstar) ss =
        call p e x (rest.take args.length)
          (kws.zipWith withKwValue ((rest.drop args.length).take kws.length))
          ((rest.drop (args.length + kws.length)).take star.length)
          (rest.drop (args.length + kws.length + star.length)) ∧
      rest = rest.take args.length ++ ((rest.drop args.length).take kws.length ++
        (((rest.drop (args.length + kws.length)).take star.length) ++
          rest.drop (args.length + kws.length + star.length))) := by
  cases ss with
  | nil => exact absurd hlen (by simp; omega)
  | cons x rest =>
    have e1 : (rest.drop args.length).drop kws.length =
        rest.drop (args.length + kws.length) := by
      rw [List.drop_drop]
    have e2 : (rest.drop (args.length + kws.length)).drop star.length =
        rest.drop (args.length + kws.length + star.length) := by
      rw [List.drop_drop]
    refine ⟨x, rest, rfl, by simp only [List.length_cons] at hlen; omega, rfl, ?_⟩
    conv_lhs => rw [← List.take_append_drop args.length rest]
    congr 1
    conv_lhs => rw [← List.take_append_drop kws.length (rest.drop args.length)]
    rw [e1]
    congr 1
    conv_lhs => rw [← List.take_append_drop star.length
      (rest.drop (args.length + kws.length))]
    rw [e2]

/-- With an updated slot list of matching length (and the dict/call shape
conditions), `rawSlots` of the rebuilt node is exactly that list. -/
theorem rawSlots_setSlots (n : PyNode) (ss : List PyNode)
    (hlen : ss.length = n.rawSlots.length)
    (hbal : ∀ p e keys vals, n = dictE p e keys vals → keys.length = vals.length)
    (hkw : ∀ p e f args kws star dstar, n = call p e f args kws star dstar →
      ∀ k ∈ kws, ∃ a rng v, k = kwNode a rng v) :
    (setSlots n ss).rawSlots = ss := by
  cases n with
  | module body => rfl
  | exprStmt p e v =>
    obtain ⟨a, rfl⟩ := List.length_eq_one.mp (by simpa [rawSlots] using hlen)
    rfl
  | name p e i =>
    simp only [rawSlots, List.length_nil] at hlen
    exact (List.length_eq_zero.mp hlen).symm
  | num p e l =>
    simp only [rawSlots, List.length_nil] at hlen
    exact (List.length_eq_zero.mp hlen).symm
  | strE p e l =>
    simp only [rawSlots, List.length_nil] at hlen
    exact (List.length_eq_zero.mp hlen).symm
  | tupleE p e elts => rfl
  | binOp p e l r =>
    obtain ⟨a, b, rfl⟩ := list_len2 (by simpa [rawSlots] using hlen)
    rfl
  | attributeE p e v at2 =>
    obtain ⟨a, rfl⟩ := List.length_eq_one.mp (by simpa [rawSlots] using hlen)
    rfl
  | subscriptE p e v sl =>
    obtain ⟨a, b, rfl⟩ := list_len2 (by simpa [rawSlots] using hlen)
    rfl
  | kwNode a rng v =>
    obtain ⟨a2, rfl⟩ := List.length_eq_one.mp (by simpa [rawSlots] using hlen)
    rfl
  | dictE p e keys vals =>
    have hb : keys.length = vals.length := hbal p e keys vals rfl
    have hmin : min keys.length vals.length = keys.length := by omega
    have hslen : ss.length = 2 * keys.length := by
      rw [hlen]
      exact interleave_length keys vals hb
    have hset : setSlots (dictE p e keys vals) ss =
        dictE p e
          ((List.range keys.length).map (fun i => ss.getD (2*i) (name (0,0) none "")))
          ((List.range keys.length).map (fun i => ss.getD (2*i+1) (name (0,0) none ""))) := by
      show dictE p e
          ((List.range (min keys.length vals.length)).map
            (fun i => ss.getD (2*i) (name (0,0) none "")))
          ((List.range (min keys.length vals.length)).map
            (fun i => ss.getD (2*i+1) (name (0,0) none ""))) =
        dictE p e
          ((List.range keys.length).map (fun i => ss.getD (2*i) (name (0,0) none "")))
          ((List.range keys.length).map (fun i => ss.getD (2*i+1) (name (0,0) none "")))
      rw [hmin]
    rw [hset]
    show interleave
      ((List.range keys.length).map (fun i => ss.getD (2*i) (name (0,0) none "")))
      ((List.range keys.length).map (fun i => ss.getD (2*i+1) (name (0,0) none ""))) = ss
    apply List.ext_getElem?
    intro j
    have hkl : ((List.range keys.length).map
        (fun i => ss.getD (2*i) (name (0,0) none ""))).length = keys.length := by
      simp
    have hvl : ((List.range keys.length).map
        (fun i => ss.getD (2*i+1) (name (0,0) none ""))).length = keys.length := by
      simp
    by_cases hj : j < 2 * keys.length
    · obtain ⟨i, hij⟩ : ∃ i, j = 2*i ∨ j = 2*i+1 := ⟨j / 2, by omega⟩
      have hilt : i < keys.length := by omega
      have hg := interleave_get
        ((List.range keys.length).map (fun i => ss.getD (2*i) (name (0,0) none "")))
        ((List.range keys.length).map (fun i => ss.getD (2*i+1) (name (0,0) none "")))
        (by rw [hkl, hvl]) i (by rw [hkl]; exact hilt)
      have hsj : ss[j]? = some (ss.getD j (name (0,0) none "")) := by
        rw [List.getD_eq_getElem?_getD, List.getElem?_eq_getElem (by omega)]
        rfl
      rcases hij with rfl | rfl
      · rw [hg.1, range_map_getElem _ _ _ hilt, hsj]
      · rw [hg.2, range_map_getElem _ _ _ hilt, hsj]
    · rw [List.getElem?_eq_none, List.getElem?_eq_none]
      · omega
      · rw [interleave_length _ _ (by rw [hkl, hvl]), hkl]
        omega
  | call p e f args kws star dstar =>
    have hlen2 : ss.length =
        1 + (args.length + (kws.length + (star.length + dstar.length))) := by
      simp only [rawSlots, List.length_cons, List.length_append,
        List.length_map] at hlen
      omega
    obtain ⟨x, rest, rfl, hrl, hset, hdec⟩ :=
      setSlots_call_eq p e f args kws star dstar ss hlen2
    rw [hset]
    have hkv : ((rest.drop args.length).take kws.length).length = kws.length := by
      simp
      omega
    show (rest.take args.length ++
        (kws.zipWith withKwValue ((rest.drop args.length).take kws.length)).map kwValueOf ++
        (rest.drop (args.length + kws.length)).take star.length ++
        rest.drop (args.length + kws.length + star.length)).cons x = x :: rest
    rw [map_kwValueOf_zipWith kws _ hkv (hkw p e f args kws star dstar rfl)]
    rw [List.append_assoc, List.append_assoc]
    exact congrArg (List.cons x) hdec.symm

theorem map_sm_eq {l1 l2 : List PyNode} (hlen : l2.length = l1.length)
    (hsm : ∀ j : Nat, l2[j]?.map stripMarks = l1[j]?.map stripMarks) :
    l2.map stripMarks = l1.map stripMarks := by
  apply List.ext_getElem?
  intro j
  rw [List.getElem?_map, List.getElem?_map, hsm j]

theorem map_stripMarks_zipWith :
    ∀ (kws kwvals : List PyNode),
    kwvals.length = kws.length →
    (∀ k ∈ kws, ∃ a rng v, k = kwNode a rng v) →
    kwvals.map stripMarks = (kws.map kwValueOf).map stripMarks →
    (kws.zipWith withKwValue kwvals).map stripMarks = kws.map stripMarks := by
  intro kws
  induction kws with
  | nil => intro kwvals _ _ _; cases kwvals <;> rfl
  | cons k ks ih =>
    intro kwvals hlen hkw hsm
    cases kwvals with
    | nil => simp at hlen
    | cons v vs =>
      obtain ⟨a, rng, w, rfl⟩ := hkw k (by simp)
      simp only [List.map_cons, List.zipWith_cons_cons, kwValueOf] at hsm ⊢
      injection hsm with h1 h2
      rw [ih vs (by simpa using hlen) (fun k2 hk2 => hkw k2 (by simp [hk2])) h2]
      show (kwNode a none (stripMarks v)) :: ks.map stripMarks =
        (kwNode a none (stripMarks w)) :: ks.map stripMarks
      rw [h1]

/-- Replacing the slots with a list whose members erase to the same marks
leaves the erased tree unchanged. -/
theorem stripMarks_setSlots (n : PyNode) (ss : List PyNode)
    (hlen : ss.length = n.rawSlots.length)
    (hbal : ∀ p e keys vals, n = dictE p e keys vals → keys.length = vals.length)
    (hkw : ∀ p e f args kws star dstar, n = call p e f args kws star dstar →
      ∀ k ∈ kws, ∃ a rng v, k = kwNode a rng v)
    (hsm : ∀ j : Nat, ss[j]?.map stripMarks = n.rawSlots[j]?.map stripMarks) :
    stripMarks (setSlots n ss) = stripMarks n := by
  cases n with
  | module body =>
    show module (stripMarksList ss) = module (stripMarksList body)
    rw [stripMarksList_eq_map, stripMarksList_eq_map,
      map_sm_eq (by simpa [rawSlots] using hlen) hsm]
    rfl
  | exprStmt p e v =>
    obtain ⟨a, rfl⟩ := List.length_eq_one.mp (by simpa [rawSlots] using hlen)
    have h0 : stripMarks a = stripMarks v := by simpa [rawSlots] using hsm 0
    show exprStmt p none (stripMarks a) = exprStmt p none (stripMarks v)
    rw [h0]
  | name p e i => rfl
  | num p e l => rfl
  | strE p e l => rfl
  | tupleE p e elts =>
    show tupleE p none (stripMarksList ss) = tupleE p none (stripMarksList elts)
    rw [stripMarksList_eq_map, stripMarksList_eq_map,
      map_sm_eq (by simpa [rawSlots] using hlen) hsm]
    rfl
  | binOp p e l r =>
    obtain ⟨a, b, rfl⟩ := list_len2 (by simpa [rawSlots] using hlen)
    have h0 : stripMarks a = stripMarks l := by simpa [rawSlots] using hsm 0
    have h1 : stripMarks b = stripMarks r := by simpa [rawSlots] using hsm 1
    show binOp p none (stripMarks a) (stripMarks b) =
      binOp p none (stripMarks l) (stripMarks r)
    rw [h0, h1]
  | attributeE p e v at2 =>
    obtain ⟨a, rfl⟩ := List.length_eq_one.mp (by simpa [rawSlots] using hlen)
    have h0 : stripMarks a = stripMarks v := by simpa [rawSlots] using hsm 0
    show attributeE p none (stripMarks a) at2 = attributeE p none (stripMarks v) at2
    rw [h0]
  | subscriptE p e v sl =>
    obtain ⟨a, b, rfl⟩ := list_len2 (by simpa [rawSlots] using hlen)
    have h0 : stripMarks a = stripMarks v := by simpa [rawSlots] using hsm 0
    have h1 : stripMarks b = stripMarks sl := by simpa [rawSlots] using hsm 1
    show subscriptE p none (stripMarks a) (stripMarks b) =
      subscriptE p none (stripMarks v) (stripMarks sl)
    rw [h0, h1]
  | kwNode a rng v =>
    obtain ⟨a2, rfl⟩ := List.length_eq_one.mp (by simpa [rawSlots] using hlen)
    have h0 : stripMarks a2 = stripMarks v := by simpa [rawSlots] using hsm 0
    show kwNode a none (stripMarks a2) = kwNode a none (stripMarks v)
    rw [h0]
  | dictE p e keys vals =>
    have hb : keys.length = vals.length := hbal p e keys vals rfl
    have hmin : min keys.length vals.length = keys.length := by omega
    have hslen : ss.length = 2 * keys.length := by
      rw [hlen]; exact interleave_length keys vals hb
    have hset : setSlots (dictE p e keys vals) ss =
        dictE p e
          ((List.range keys.length).map (fun i => ss.getD (2*i) (name (0,0) none "")))
          ((List.range keys.length).map (fun i => ss.getD (2*i+1) (name (0,0) none ""))) := by
      show dictE p e
          ((List.range (min keys.length vals.length)).map
            (fun i => ss.getD (2*i) (name (0,0) none "")))
          ((List.range (min keys.length vals.length)).map
            (fun i => ss.getD (2*i+1) (name (0,0) none ""))) = _
      rw [hmin]
    rw [hset]
    show dictE p none _ _ = dictE p none (stripMarksList keys) (stripMarksList vals)
    rw [stripMarksList_eq_map, stripMarksList_eq_map,
      stripMarksList_eq_map, stripMarksList_eq_map]
    have hsmk : ∀ j : Nat,
        ((List.range keys.length).map
          (fun i => ss.getD (2*i) (name (0,0) none "")))[j]?.map stripMarks =
          keys[j]?.map stripMarks := by
      intro j
      by_cases hj : j < keys.length
      · rw [range_map_getElem _ _ _ hj]
        have hsj : ss[2*j]? = some (ss.getD (2*j) (name (0,0) none "")) := by
          rw [List.getD_eq_getElem?_getD, List.getElem?_eq_getElem (by omega)]
          rfl
        have h2 := hsm (2*j)
        rw [hsj] at h2
        rw [show ((dictE p e keys vals).rawSlots) = interleave keys vals from rfl,
          (interleave_get keys vals hb j hj).1] at h2
        exact h2
      · rw [List.getElem?_eq_none (by simp; omega), List.getElem?_eq_none (by omega)]
    have hsmv : ∀ j : Nat,
        ((List.range keys.length).map
          (fun i => ss.getD (2*i+1) (name (0,0) none "")))[j]?.map stripMarks =
          vals[j]?.map stripMarks := by
      intro j
      by_cases hj : j < keys.length
      · rw [range_map_getElem _ _ _ hj]
        have hsj : ss[2*j+1]? = some (ss.getD (2*j+1) (name (0,0) none "")) := by
          rw [List.getD_eq_getElem?_getD, List.getElem?_eq_getElem (by omega)]
          rfl
        have h2 := hsm (2*j+1)
        rw [hsj] at h2
        rw [show ((dictE p e keys vals).rawSlots) = interleave keys vals from rfl,
          (interleave_get keys vals hb j hj).2] at h2
        exact h2
      · rw [List.getElem?_eq_none (by simp; omega), List.getElem?_eq_none (by omega)]
    rw [@map_sm_eq keys _ (by simp) hsmk, @map_sm_eq vals _ (by simp; omega) hsmv]
  | call p e f args kws star dstar =>
    have hlen2 : ss.length =
        1 + (args.length + (kws.length + (star.length + dstar.length))) := by
      simp only [rawSlots, List.length_cons, List.length_append,
        List.length_map] at hlen
      omega
    obtain ⟨x, rest, rfl, hrl, hset, hdec⟩ :=
      setSlots_call_eq p e f args kws star dstar ss hlen2
    have hmap : (x :: rest).map stripMarks =
        (call p e f args kws star dstar).rawSlots.map stripMarks :=
      map_sm_eq hlen hsm
    rw [show (call p e f args kws star dstar).rawSlots =
      f :: (args ++ kws.map kwValueOf ++ star ++ dstar) from rfl] at hmap
    rw [List.append_assoc, List.append_assoc] at hmap
    conv_lhs at hmap => rw [show (x :: rest) = x :: (rest.take args.length ++
      ((rest.drop args.length).take kws.length ++
        (((rest.drop (args.length + kws.length)).take star.length) ++
          rest.drop (args.length + kws.length + star.length)))) from
            congrArg (List.cons x) hdec]
    simp only [List.map_cons, List.map_append] at hmap
    injection hmap with hx hrest
    have h1 := List.append_inj hrest (by simp; omega)
    have h2 := List.append_inj h1.2 (by simp; omega)
    have h3 := List.append_inj h2.2 (by simp; omega)
    rw [hset]
    show call p none (stripMarks x) (stripMarksList (rest.take args.length))
        (stripMarksList (kws.zipWith withKwValue ((rest.drop args.length).take kws.length)))
        (stripMarksList ((rest.drop (args.length + kws.length)).take star.length))
        (stripMarksList (rest.drop (args.length + kws.length + star.length))) =
      call p none (stripMarks f) (stripMarksList args) (stripMarksList kws)
        (stripMarksList star) (stripMarksList dstar)
    rw [stripMarksList_eq_map, stripMarksList_eq_map, stripMarksList_eq_map,
      stripMarksList_eq_map, stripMarksList_eq_map, stripMarksList_eq_map,
      stripMarksList_eq_map, stripMarksList_eq_map]
    rw [hx, h1.1, h3.1, h3.2]
    rw [map_stripMarks_zipWith kws _ (by simp; omega)
      (hkw p e f args kws star dstar rfl) h2.1]

/-- The resolver order of a call node is insensitive to replacing the
slots by ones with the same start positions: sorting the updated
enumeration is the pointwise update of the sorted enumeration. -/
theorem ordPairs_marked_call (n : PyNode) (ss : List PyNode)
    (hlen : ss.length = n.rawSlots.length)
    (hsp : ∀ j : Nat, ss[j]?.map startP = n.rawSlots[j]?.map startP) :
    List.insertionSort (fun a b => slotLe a.2 b.2) ss.enum =
      (List.insertionSort (fun a b => slotLe a.2 b.2) n.rawSlots.enum).map
        (fun p => (p.1, ss.getD p.1 (name (0,0) none ""))) := by
  have key : ∀ c ∈ n.rawSlots.enum,
      (ss.getD c.1 (name (0,0) none "")).startP = c.2.startP := by
    intro c hc
    obtain ⟨i, x⟩ := c
    have h2 := mem_enumFrom_getElem n.rawSlots 0 hc
    have hx : n.rawSlots[i]? = some x := by simpa using h2.2
    have h3 := hsp i
    rw [hx] at h3
    have hilt : i < ss.length := by
      rw [hlen]; exact getElem?_some_lt hx
    rw [List.getElem?_eq_getElem hilt] at h3
    have h4 : ss[i].startP = x.startP := by simpa using h3
    rw [List.getD_eq_getElem?_getD, List.getElem?_eq_getElem hilt]
    exact h4
  rw [enum_eq_map_of_length_eq n.rawSlots ss (name (0,0) none "") hlen]
  rw [← insertionSort_map_rel (fun a b => slotLe a.2 b.2)
    (fun p => (p.1, ss.getD p.1 (name (0,0) none ""))) n.rawSlots.enum]
  congr 1
  apply insertionSort_congr
  intro a ha b hb
  show slotLe (ss.getD a.1 (name (0,0) none "")) (ss.getD b.1 (name (0,0) none "")) ↔
    slotLe a.2 b.2
  unfold slotLe
  rw [key a ha, key b hb]

/-- For every non-call kind the resolver order of the rebuilt node is the
updated slot list itself. -/
theorem gocn_setSlots_noncall (n : PyNode) (ss : List PyNode)
    (hlen : ss.length = n.rawSlots.length)
    (hbal : ∀ p e keys vals, n = dictE p e keys vals → keys.length = vals.length)
    (hncall : n.isCallKind = false) :
    _get_ordered_child_nodes (setSlots n ss) = ss := by
  cases n with
  | module body => exact rfl
  | exprStmt p e v =>
    obtain ⟨a, rfl⟩ := List.length_eq_one.mp (by simpa [rawSlots] using hlen)
    rfl
  | name p e i =>
    simp only [rawSlots, List.length_nil] at hlen
    obtain rfl := List.length_eq_zero.mp hlen
    rfl
  | num p e l =>
    simp only [rawSlots, List.length_nil] at hlen
    obtain rfl := List.length_eq_zero.mp hlen
    rfl
  | strE p e l =>
    simp only [rawSlots, List.length_nil] at hlen
    obtain rfl := List.length_eq_zero.mp hlen
    rfl
  | tupleE p e elts => exact rfl
  | binOp p e l r =>
    obtain ⟨a, b, rfl⟩ := list_len2 (by simpa [rawSlots] using hlen)
    rfl
  | attributeE p e v at2 =>
    obtain ⟨a, rfl⟩ := List.length_eq_one.mp (by simpa [rawSlots] using hlen)
    rfl
  | subscriptE p e v sl =>
    obtain ⟨a, b, rfl⟩ := list_len2 (by simpa [rawSlots] using hlen)
    rfl
  | kwNode a rng v =>
    obtain ⟨a2, rfl⟩ := List.length_eq_one.mp (by simpa [rawSlots] using hlen)
    rfl
  | dictE p e keys vals =>
    exact rawSlots_setSlots (dictE p e keys vals) ss hlen hbal
      (fun p2 e2 f2 a2 k2 s2 d2 heq => by cases heq)
  | call p e f args kws star dstar => exact absurd hncall (by simp [isCallKind])

theorem mem_interleave_of_mem_append {c : PyNode} :
    ∀ (keys vals : List PyNode), keys.length = vals.length →
      c ∈ keys ++ vals → c ∈ interleave keys vals := by
  intro keys
  induction keys with
  | nil =>
    intro vals hl hm
    obtain rfl := List.length_eq_zero.mp hl.symm
    cases hm
  | cons k ks ih =>
    intro vals hl hm
    cases vals with
    | nil => simp at hl
    | cons v vs =>
      simp only [List.length_cons, Nat.succ_inj] at hl
      simp only [List.cons_append, List.mem_cons] at hm
      rcases hm with rfl | hm
      · simp [interleave]
      · have hm2 : c ∈ ks ++ vs ∨ c = v := by
          rcases List.mem_append.mp hm with h | h
          · exact Or.inl (List.mem_append.mpr (Or.inl h))
          · rcases List.mem_cons.mp h with rfl | h
            · exact Or.inr rfl
            · exact Or.inl (List.mem_append.mpr (Or.inr h))
        rcases hm2 with hm2 | rfl
        · have := ih vs hl hm2
          simp [interleave, this]
        · simp [interleave]

/-- Every iterated child of a non-call rebuilt node is one of the updated
slots. -/
theorem mem_iter_setSlots {n : PyNode} {ss : List PyNode} {c : PyNode}
    (hlen : ss.length = n.rawSlots.length)
    (hbal : ∀ p e keys vals, n = dictE p e keys vals → keys.length = vals.length)
    (hncall : n.isCallKind = false)
    (hc : c ∈ (setSlots n ss).iterChildNodes) : c ∈ ss := by
  cases n with
  | module body => exact hc
  | exprStmt p e v =>
    obtain ⟨a, rfl⟩ := List.length_eq_one.mp (by simpa [rawSlots] using hlen)
    exact hc
  | name p e i => exact absurd hc (by simp [setSlots, iterChildNodes])
  | num p e l => exact absurd hc (by simp [setSlots, iterChildNodes])
  | strE p e l => exact absurd hc (by simp [setSlots, iterChildNodes])
  | tupleE p e elts => exact hc
  | binOp p e l r =>
    obtain ⟨a, b, rfl⟩ := list_len2 (by simpa [rawSlots] using hlen)
    exact hc
  | attributeE p e v at2 =>
    obtain ⟨a, rfl⟩ := List.length_eq_one.mp (by simpa [rawSlots] using hlen)
    exact hc
  | subscriptE p e v sl =>
    obtain ⟨a, b, rfl⟩ := list_len2 (by simpa [rawSlots] using hlen)
    exact hc
  | kwNode a rng v =>
    obtain ⟨a2, rfl⟩ := List.length_eq_one.mp (by simpa [rawSlots] using hlen)
    exact hc
  | call p e f args kws star dstar => exact absurd hncall (by simp [isCallKind])
  | dictE p e keys vals =>
    have hraw := rawSlots_setSlots (dictE p e keys vals) ss hlen hbal
      (fun p2 e2 f2 a2 k2 s2 d2 heq => by cases heq)
    have hc2 : c ∈ ((dictE p e keys vals).setSlots ss).rawSlots := by
      have hl2 : ((List.range (min keys.length vals.length)).map
          (fun i => ss.getD (2*i) (name (0,0) none ""))).length =
          ((List.range (min keys.length vals.length)).map
            (fun i => ss.getD (2*i+1) (name (0,0) none ""))).length := by simp
      exact mem_interleave_of_mem_append _ _ hl2 hc
    rwa [hraw] at hc2

/-- Success of `mapM` over Except: every element maps successfully,
positionally. -/
theorem mapM_ok_spec {α β : Type} {g : α → Except Err β} :
    ∀ {l : List α} {l2 : List β}, l.mapM g = .ok l2 →
      l2.length = l.length ∧
      ∀ (m : Nat) (a : α), l[m]? = some a → ∃ b, l2[m]? = some b ∧ g a = .ok b := by
  intro l
  induction l with
  | nil =>
    intro l2 h
    have h2 : l2 = [] := by
      simp only [List.mapM_nil, pure, Except.pure, Except.ok.injEq] at h
      exact h.symm
    subst h2
    exact ⟨rfl, fun m a ha => by cases ha⟩
  | cons x xs ih =>
    intro l2 h
    rw [List.mapM_cons] at h
    cases hfx : g x with
    | error e =>
      rw [hfx] at h
      simp only [bind, Except.bind] at h
      cases h
    | ok b =>
      rw [hfx] at h
      simp only [bind, Except.bind] at h
      cases hrest : xs.mapM g with
      | error e =>
        rw [hrest] at h
        cases h
      | ok l3 =>
        rw [hrest] at h
        simp only [pure, Except.pure, Except.ok.injEq] at h
        subst h
        obtain ⟨hlen, hpt⟩ := ih hrest
        refine ⟨by simp [hlen], ?_⟩
        intro m a ha
        cases m with
        | zero =>
          simp only [List.getElem?_cons_zero, Option.some.injEq] at ha
          subst ha
          exact ⟨b, by simp, hfx⟩
        | succ m2 =>
          simp only [List.getElem?_cons_succ] at ha ⊢
          exact hpt m2 a ha

/-- What `markKw` produces on success: the keyword node is re-ranged to
the span of a token of the stream, keeping its name and value. -/
theorem markKw_spec {tokens : List Tok} {k k2 : PyNode}
    (h : markKw tokens k = .ok k2) :
    ∃ a rng v t, k = kwNode a rng v ∧
      k2 = kwNode a (some (t.spos, t.epos)) v ∧ t ∈ tokens := by
  cases k with
  | kwNode a rng v =>
    by_cases hv : v.positionedKind
    · simp only [markKw, hv, if_true] at h
      cases hfind : _find_token_prior_to_position tokens v.startP.1 v.startP.2
          (some tokNAME) with
      | none => rw [hfind] at h; cases h
      | some t =>
        rw [hfind] at h
        have h2 : (if (t.tstr == a) = true then
            (Except.ok (kwNode a (some (t.spos, t.epos)) v) : Except Err PyNode)
          else Except.error Err.assertError) = Except.ok k2 := h
        by_cases hstr : t.tstr == a
        · rw [if_pos hstr] at h2
          have hmem : t ∈ tokens := by
            have := List.mem_of_find?_eq_some hfind
            exact List.mem_reverse.mp this
          refine ⟨a, rng, v, t, rfl, ?_, hmem⟩
          injection h2 with h3
          exact h3.symm
        · rw [if_neg hstr] at h2
          cases h2
    · simp only [markKw, hv, if_false] at h
      cases h
  | module body => exact absurd h (by simp [markKw])
  | exprStmt p e v => exact absurd h (by simp [markKw])
  | name p e i => exact absurd h (by simp [markKw])
  | num p e l => exact absurd h (by simp [markKw])
  | strE p e l => exact absurd h (by simp [markKw])
  | tupleE p e elts => exact absurd h (by simp [markKw])
  | dictE p e keys vals => exact absurd h (by simp [markKw])
  | binOp p e l r => exact absurd h (by simp [markKw])
  | attributeE p e v at2 => exact absurd h (by simp [markKw])
  | subscriptE p e v sl => exact absurd h (by simp [markKw])
  | call p e f args kws star dstar => exact absurd h (by simp [markKw])

/-- `_mark_parameters` on a call: the result is the same call with each
keyword node re-ranged by `markKw`, positionally. -/
theorem mark_parameters_spec {node node4 : PyNode} {tokens : List Tok}
    (h : _mark_parameters node tokens = .ok node4) :
    ∀ p e f args kws star dstar, node = call p e f args kws star dstar →
      ∃ kws2, node4 = call p e f args kws2 star dstar ∧
        kws2.length = kws.length ∧
        ∀ (m : Nat) (k : PyNode), kws[m]? = some k →
          ∃ k2, kws2[m]? = some k2 ∧ markKw tokens k = .ok k2 := by
  intro p e f args kws star dstar heq
  subst heq
  by_cases hkE : kws.isEmpty
  · obtain rfl : kws = [] := List.isEmpty_iff.mp hkE
    simp only [_mark_parameters, List.isEmpty_nil, if_true, Except.ok.injEq] at h
    exact ⟨[], h.symm, rfl, fun m k hk => by cases m <;> cases hk⟩
  · have h2 : (if kws.isEmpty then
        (Except.ok (call p e f args kws star dstar) : Except Err PyNode)
      else do
        let kws2 ← kws.mapM (markKw tokens)
        Except.ok (call p e f args kws2 star dstar)) = .ok node4 := h
    rw [if_neg hkE] at h2
    cases hm : kws.mapM (markKw tokens) with
    | error e2 =>
      rw [hm] at h2
      simp only [bind, Except.bind] at h2
      cases h2
    | ok kws2 =>
      rw [hm] at h2
      simp only [bind, Except.bind, Except.ok.injEq] at h2
      obtain ⟨hlen, hpt⟩ := mapM_ok_spec hm
      exact ⟨kws2, h2.symm, hlen, hpt⟩

/-! ### The well-formed-input bundle for the marking engine -/

def isKwKind : PyNode → Bool
  | kwNode _ _ _ => true
  | _ => false

/-- Input conditions under which the marking engine is analysed: monotone
native starts, balanced dict literals, keyword nodes only in the keyword
list of calls (so never in a visited slot), and every member of a call's
keyword list an actual keyword node. -/
def WfTree (m : PyNode) : Prop :=
  StartsMono m ∧ DictsOk m ∧
  (∀ d, SubNode m d → ∀ s ∈ d.rawSlots, isKwKind s = false) ∧
  (∀ d, SubNode m d → ∀ p e f args kws star dstar,
    d = call p e f args kws star dstar → ∀ k ∈ kws, ∃ a rng v, k = kwNode a rng v)

theorem WfTree.restrict {m c : PyNode} (h : WfTree m) (hc : SubNode m c) : WfTree c :=
  ⟨h.1.descend hc, h.2.1.inherit hc,
    fun d hd => h.2.2.1 d (hc.trans hd),
    fun d hd => h.2.2.2 d (hc.trans hd)⟩

theorem subnode_cases {r d : PyNode} (h : SubNode r d) :
    d = r ∨ ∃ c ∈ r.iterChildNodes, SubNode c d := by
  cases h with
  | refl => exact Or.inl rfl
  | step hmem hsub => exact Or.inr ⟨_, hmem, hsub⟩

theorem StartsGe.along {p : Pos} {c d : PyNode} (h : StartsGe p c)
    (hd : SubNode c d) : StartsGe p d :=
  fun x hx => h x (hd.trans hx)

theorem notKw_of_isKwKind_false {s : PyNode} (h : isKwKind s = false) :
    ∀ a rng v, s ≠ kwNode a rng v := by
  intro a rng v heq
  subst heq
  simp [isKwKind] at h

theorem wf_slots_startsGe {n : PyNode} (hwf : WfTree n)
    (hpos : n.positionedKind = true) :
    ∀ s ∈ n.rawSlots, StartsGe n.startP s := by
  intro s hs
  have hsub := SubNode.of_slot hs
  rcases subnode_cases hsub with rfl | ⟨c, hc, hcs⟩
  · exact absurd (nsize_slot_lt hs) (by omega)
  · exact (hwf.1 n (SubNode.refl n) hpos c hc).along hcs

theorem kwRngOf_nonkw {n : PyNode} (h : ∀ a rng v, n ≠ kwNode a rng v) :
    n.kwRngOf = none := by
  cases n <;> first | rfl | exact absurd rfl (h _ _ _)

theorem nonpos_nonkw_closed {n : PyNode} (hpos : n.positionedKind = false)
    (hkw : ∀ a rng v, n ≠ kwNode a rng v) :
    n.startOf = none ∧ n.endOf = none := by
  cases n <;>
    first
      | exact ⟨rfl, rfl⟩
      | exact absurd rfl (hkw _ _ _)
      | exact absurd hpos (by simp [positionedKind])

theorem gocn_setEnd (n : PyNode) (e : Pos) :
    _get_ordered_child_nodes (n.setEnd e) = _get_ordered_child_nodes n := by
  cases n <;> rfl

/-! ### The marking-result payload -/

/-- Every assigned end is the end of an actual stream token at or before
the bound, keyword ranges are token spans, and every assigned range runs
forward. -/
def RangesOk (toks : List Tok) (bound : Pos) (m : PyNode) : Prop :=
  ∀ d, SubNode m d →
    (∀ e, d.endOf = some e → (∃ t ∈ toks, e = t.epos) ∧ posLe e bound = true) ∧
    (∀ s e2, d.kwRngOf = some (s, e2) → ∃ t ∈ toks, s = t.spos ∧ e2 = t.epos) ∧
    (∀ s e2, d.startOf = some s → d.endOf = some e2 → posLe s e2 = true)

/-- Sibling order: the earlier node ends at or before the later starts. -/
def sibRel (A B : PyNode) : Prop :=
  ∀ eA sB, A.endOf = some eA → B.startOf = some sB → posLe eA sB = true

/-- Containment: every natively positioned node's range contains the
ranges of everything below it. -/
def ContainOk (m : PyNode) : Prop :=
  ∀ N, SubNode m N → N.positionedKind = true → ∀ eN, N.endOf = some eN →
    ∀ D, ProperSub N D →
      (∀ sD, D.startOf = some sD → posLe N.startP sD = true) ∧
      (∀ eD, D.endOf = some eD → posLe eD eN = true)

/-- At every node of the subtree, the resolver-ordered children do not
overlap. -/
def SibOk (m : PyNode) : Prop :=
  ∀ P, SubNode m P → (_get_ordered_child_nodes P).Pairwise sibRel

/-- Everything the marking pass guarantees about a marked subtree. -/
def MarkedTo (toks : List Tok) (bound : Pos) (s s2 : PyNode) : Prop :=
  stripMarks s2 = stripMarks s ∧
  RangesOk toks bound s2 ∧ ContainOk s2 ∧ SibOk s2 ∧
  (∀ p2, StartsGe p2 s → StartsGe p2 s2) ∧
  (s.positionedKind = true → ∃ e, s2.endOf = some e)

theorem RangesOk.monotone {toks toks2 : List Tok} {bound bound2 : Pos} {m : PyNode}
    (h : RangesOk toks bound m) (hsub : ∀ t ∈ toks, t ∈ toks2)
    (hb : posLe bound bound2 = true) : RangesOk toks2 bound2 m := by
  intro d hd
  obtain ⟨h1, h2, h3⟩ := h d hd
  refine ⟨fun e he => ?_, fun s e2 hk => ?_, h3⟩
  · obtain ⟨⟨t, ht, rfl⟩, hle⟩ := h1 e he
    exact ⟨⟨t, hsub t ht, rfl⟩, posLe_trans hle hb⟩
  · obtain ⟨t, ht, hts⟩ := h2 s e2 hk
    exact ⟨t, hsub t ht, hts⟩

theorem MarkedTo.weaken {toks toks2 : List Tok} {bound bound2 : Pos}
    {s s2 : PyNode} (h : MarkedTo toks bound s s2)
    (hsub : ∀ t ∈ toks, t ∈ toks2) (hb : posLe bound bound2 = true) :
    MarkedTo toks2 bound2 s s2 :=
  ⟨h.1, h.2.1.monotone hsub hb, h.2.2.1, h.2.2.2.1, h.2.2.2.2.1, h.2.2.2.2.2⟩

/-! ### An executable well-formedness checker (for concrete inputs) -/

mutual
def startsGeB : Nat → Pos → PyNode → Bool
  | 0, _, _ => false
  | f + 1, p, n =>
    (!n.positionedKind || posLe p n.startP) && startsGeLB f p n.iterChildNodes
def startsGeLB : Nat → Pos → List PyNode → Bool
  | 0, _, _ => false
  | _ + 1, _, [] => true
  | f + 1, p, c :: cs => startsGeB f p c && startsGeLB f p cs
end

mutual
def wfB : Nat → PyNode → Bool
  | 0, _ => false
  | f + 1, n =>
    (match n with
      | dictE _ _ keys vals => keys.length == vals.length
      | _ => true) &&
    (match n with
      | call _ _ _ _ kws _ _ => kws.all (fun k => isKwKind k)
      | _ => true) &&
    n.rawSlots.all (fun s => !isKwKind s) &&
    (!n.positionedKind || startsGeLB f n.startP n.iterChildNodes) &&
    wfLB f n.iterChildNodes
def wfLB : Nat → List PyNode → Bool
  | 0, _ => false
  | _ + 1, [] => true
  | f + 1, c :: cs => wfB f c && wfLB f cs
end

theorem startsGe_sound_both : ∀ f : Nat,
    (∀ p c, startsGeB f p c = true → StartsGe p c) ∧
    (∀ p l, startsGeLB f p l = true → ∀ c ∈ l, StartsGe p c) := by
  intro f
  induction f with
  | zero =>
    constructor
    · intro p c h; simp [startsGeB] at h
    · intro p l h; simp [startsGeLB] at h
  | succ f ih =>
    constructor
    · intro p c h d hd hpos
      simp only [startsGeB, Bool.and_eq_true] at h
      cases hd with
      | refl =>
        have h1 := h.1
        rw [hpos] at h1
        simpa using h1
      | step hmem hsub => exact ih.2 p _ h.2 _ hmem d hsub hpos
    · intro p l h c hc
      cases l with
      | nil => cases hc
      | cons x xs =>
        simp only [startsGeLB, Bool.and_eq_true] at h
        rcases List.mem_cons.mp hc with rfl | hc
        · exact ih.1 p c h.1
        · exact ih.2 p xs h.2 c hc

/-- Local shape conditions of a single node, as the checker verifies. -/
def LocalWf (d : PyNode) : Prop :=
  (∀ p e keys vals, d = dictE p e keys vals → keys.length = vals.length) ∧
  (∀ p e f args kws star dstar, d = call p e f args kws star dstar →
    ∀ k ∈ kws, ∃ a rng v, k = kwNode a rng v) ∧
  (∀ s ∈ d.rawSlots, isKwKind s = false) ∧
  (d.positionedKind = true → ∀ c ∈ d.iterChildNodes, StartsGe d.startP c)

theorem wfB_sound_both : ∀ f : Nat,
    (∀ n, wfB f n = true → ∀ d, SubNode n d → LocalWf d) ∧
    (∀ l, wfLB f l = true → ∀ c ∈ l, ∀ d, SubNode c d → LocalWf d) := by
  intro f
  induction f with
  | zero =>
    constructor
    · intro n h; simp [wfB] at h
    · intro l h; simp [wfLB] at h
  | succ f ih =>
    constructor
    · intro n h d hd
      simp only [wfB, Bool.and_eq_true] at h
      obtain ⟨⟨⟨⟨h1, h2⟩, h3⟩, h4⟩, h5⟩ := h
      cases hd with
      | refl =>
        refine ⟨?_, ?_, ?_, ?_⟩
        · intro p e keys vals heq
          subst heq
          simpa using h1
        · intro p e f2 args kws star dstar heq k hk
          subst heq
          have := List.all_eq_true.mp h2 k hk
          cases k <;> simp_all [isKwKind]
        · intro s hs
          have := List.all_eq_true.mp h3 s hs
          simpa using this
        · intro hpos c hc
          rw [hpos] at h4
          have h4b : startsGeLB f n.startP n.iterChildNodes = true := by
            simpa using h4
          exact (startsGe_sound_both f).2 _ _ h4b c hc
      | step hmem hsub => exact ih.2 _ h5 _ hmem d hsub
    · intro l h c hc d hd
      cases l with
      | nil => cases hc
      | cons x xs =>
        simp only [wfLB, Bool.and_eq_true] at h
        rcases List.mem_cons.mp hc with rfl | hc
        · exact ih.1 c h.1 d hd
        · exact ih.2 xs h.2 c hc d hd

/-- The checker implies the input bundle. -/
theorem WfTree_of_wfB {f : Nat} {n : PyNode} (h : wfB f n = true) : WfTree n := by
  have hl := (wfB_sound_both f).1 n h
  refine ⟨?_, ?_, ?_, ?_⟩
  · intro d hd hpos c hc
    exact (hl d hd).2.2.2 hpos c hc
  · intro d hd p e keys vals heq
    exact (hl d hd).1 p e keys vals heq
  · intro d hd s hs
    exact (hl d hd).2.2.1 s hs
  · intro d hd p e f2 args kws star dstar heq k hk
    exact (hl d hd).2.1 p e f2 args kws star dstar heq k hk

/-- Executable token-stream well-formedness. -/
def tokPairB : List Tok → Bool
  | [] => true
  | t :: rest => rest.all (fun u => posLe t.epos u.epos) && tokPairB rest

def tokWfB (toks : List Tok) : Bool :=
  toks.all (fun t => posLe t.spos t.epos) && tokPairB toks

theorem tokPairB_sound : ∀ {toks : List Tok}, tokPairB toks = true →
    toks.Pairwise (fun a b => posLe a.epos b.epos = true) := by
  intro toks
  induction toks with
  | nil => intro _; exact List.Pairwise.nil
  | cons t rest ih =>
    intro h
    simp only [tokPairB, Bool.and_eq_true] at h
    exact List.pairwise_cons.mpr ⟨fun u hu => List.all_eq_true.mp h.1 u hu, ih h.2⟩

theorem TokWf_of_tokWfB {toks : List Tok} (h : tokWfB toks = true) : TokWf toks := by
  simp only [tokWfB, Bool.and_eq_true] at h
  exact ⟨fun t ht => List.all_eq_true.mp h.1 t ht, tokPairB_sound h.2⟩

theorem isCall_shape {n : PyNode} (h : n.isCallKind = true) :
    ∃ p e f args kws star dstar, n = call p e f args kws star dstar := by
  cases n <;> first
    | exact ⟨_, _, _, _, _, _, _, rfl⟩
    | exact absurd h (by simp [isCallKind])

theorem pos_of_isCall {n : PyNode} (h : n.isCallKind = true) :
    n.positionedKind = true := by
  cases n <;> first
    | rfl
    | exact absurd h (by simp [isCallKind])

theorem nonkw_setSlots {n : PyNode} (ss : List PyNode)
    (h : ∀ a r v, n ≠ kwNode a r v) :
    ∀ a r v, n.setSlots ss ≠ kwNode a r v := by
  cases n with
  | kwNode a2 r2 v2 => exact absurd rfl (h _ _ _)
  | _ => intro a r v heq <;> cases heq

theorem nonkw_setEnd {n : PyNode} (e : Pos)
    (h : ∀ a r v, n ≠ kwNode a r v) :
    ∀ a r v, n.setEnd e ≠ kwNode a r v := by
  cases n with
  | kwNode a2 r2 v2 => exact absurd rfl (h _ _ _)
  | _ => intro a r v heq <;> cases heq

/-! ### The marking engine satisfies the range discipline -/

set_option maxHeartbeats 4000000 in
mutual
theorem markRecF_full : ∀ (f : Nat) (node : PyNode) (toks : List Tok)
    (pl pc : Nat) (n2 : PyNode) (ret : Pos),
    TokWf toks → WfTree node → (∀ a rng v, node ≠ kwNode a rng v) →
    markRecF f node toks pl pc = .ok (n2, ret) →
    posLe ret (pl, pc) = true ∧
    (node.positionedKind = true → ret = node.startP) ∧
    MarkedTo toks (pl, pc) node n2
  | 0, node, toks, pl, pc, n2, ret => by
    intro _ _ _ h
    exact absurd h (by simp [markRecF])
  | f + 1, node, toks, pl, pc, n2, ret => by
    intro hwf htree hnkw h
    have hbal : ∀ p e keys vals, node = dictE p e keys vals →
        keys.length = vals.length :=
      fun p e keys vals heq => htree.2.1 node (SubNode.refl node) p e keys vals heq
    have hkwsh : ∀ p e f2 args kws star dstar,
        node = call p e f2 args kws star dstar →
        ∀ k ∈ kws, ∃ a rng v, k = kwNode a rng v :=
      fun p e f2 args kws star dstar heq =>
        htree.2.2.2 node (SubNode.refl node) p e f2 args kws star dstar heq
    have hpairswf : ∀ (i : Nat) (s : PyNode), (i, s) ∈ ordPairs node →
        WfTree s ∧ isKwKind s = false := by
      intro i s hm
      have hsl := ordPairs_slot_mem hm
      exact ⟨htree.restrict (SubNode.of_slot hsl),
        htree.2.2.1 node (SubNode.refl node) s hsl⟩
    have horp_len : (ordPairs node).length = node.rawSlots.length := by
      have := (ordPairs_perm_enum node).length_eq
      simpa using this
    simp only [markRecF] at h
    split at h
    · exact Except.noConfusion h
    rename_i tokens2 endp heqW
    split at h
    · exact Except.noConfusion h
    rename_i upd prelim2 heqP
    split at h
    · exact Except.noConfusion h
    rename_i node4 heqM
    injection h with h2
    injection h2 with hn hr
    subst hn
    subst hr
    by_cases hpos : node.positionedKind = true
    · -- positioned node: window extracted, end assigned from its last token
      rw [if_pos hpos] at heqW
      split at heqW
      · exact Except.noConfusion heqW
      rename_i e2 w2 heqS
      injection heqW with hW2
      injection hW2 with hw1 hw2
      rw [← hw1] at heqP heqM
      rw [← hw2] at heqM
      have hWsub : (_extract_tokens toks node.startP.1 node.startP.2 pl pc).Sublist
          toks := extract_sublist toks _ _ _ _
      have hwfW := hwf.2.sublist hWsub
      obtain ⟨⟨te, hteW, hte⟩, hT2W, hT2le⟩ := set_real_end_full hwfW heqS
      subst hte
      have htokens2_toks : ∀ u ∈ w2, u ∈ toks := fun u hu => hWsub.mem (hT2W.mem hu)
      have hw2W : ∀ u ∈ w2,
          u ∈ _extract_tokens toks node.startP.1 node.startP.2 pl pc :=
        fun u hu => hT2W.mem hu
      have hwf2 : TokWf w2 := hwf.sublist (hT2W.trans hWsub)
      have hteT : te ∈ toks := hWsub.mem hteW
      have hte_cond := extract_mem hteW
      have hstartle : posLe node.startP te.epos = true :=
        posLe_trans hte_cond.2.1 (hwf.1 te hteT)
      obtain ⟨hL1, hLen, hPt, hPw, hL4⟩ :=
        markPairsRevF_full f w2 (ordPairs node) (pl, pc) upd prelim2
          hwf2 hpairswf heqP
      have hlenss : (applyUpd node.rawSlots upd).length = node.rawSlots.length :=
        applyUpd_length upd node.rawSlots
      have hfst : ∀ k : Nat, (upd.map Prod.fst)[k]? =
          ((ordPairs node).map Prod.fst)[k]? := by
        intro k
        rw [List.getElem?_map, List.getElem?_map]
        by_cases hk : k < (ordPairs node).length
        · have hpk : (ordPairs node)[k]? = some ((ordPairs node)[k]) :=
            List.getElem?_eq_getElem hk
          obtain ⟨s2k, hu, _, _⟩ := hPt k ((ordPairs node)[k]).1
            ((ordPairs node)[k]).2 (by rw [hpk])
          rw [hpk, hu]
          rfl
        · rw [List.getElem?_eq_none (le_of_not_lt (by rw [hLen]; omega)),
            List.getElem?_eq_none (le_of_not_lt hk)]
      have hfsteq : upd.map Prod.fst = (ordPairs node).map Prod.fst :=
        List.ext_getElem? hfst
      have hnd : (upd.map Prod.fst).Nodup := by
        rw [hfsteq]; exact ordPairs_fst_nodup node
      have hslot : ∀ j : Nat, j < node.rawSlots.length →
          ∃ s s2, node.rawSlots[j]? = some s ∧
            (applyUpd node.rawSlots upd)[j]? = some s2 ∧
            MarkedTo w2 (pl, pc) s s2 ∧
            (s.positionedKind = true → s2.startOf = some s.startP) := by
        intro j hj
        obtain ⟨s, hm, hsj⟩ := ordPairs_complete hj
        obtain ⟨k, hk⟩ := List.mem_iff_getElem?.mp hm
        obtain ⟨s2, hu, hM, hst⟩ := hPt k j s hk
        exact ⟨s, s2, hsj,
          applyUpd_getElem_mem upd node.rawSlots j s2 hnd (List.getElem?_mem hu) hj,
          hM, hst⟩
      have hslotfacts : ∀ c ∈ applyUpd node.rawSlots upd,
          ∃ s, MarkedTo w2 (pl, pc) s c ∧ s ∈ node.rawSlots := by
        intro c hc
        obtain ⟨j, hj⟩ := List.mem_iff_getElem?.mp hc
        have hjl : j < node.rawSlots.length := by
          have := getElem?_some_lt hj
          omega
        obtain ⟨s, s2, h1, h2, hM, hst⟩ := hslot j hjl
        rw [hj] at h2
        injection h2 with h3
        subst h3
        exact ⟨s, hM, List.getElem?_mem h1⟩
      have hsm : ∀ j : Nat, (applyUpd node.rawSlots upd)[j]?.map stripMarks =
          node.rawSlots[j]?.map stripMarks := by
        intro j
        by_cases hj : j < node.rawSlots.length
        · obtain ⟨s, s2, h1, h2, hM, _⟩ := hslot j hj
          rw [h1, h2]
          show some (stripMarks s2) = some (stripMarks s)
          rw [hM.1]
        · rw [List.getElem?_eq_none (le_of_not_lt (by rw [hlenss]; omega)),
            List.getElem?_eq_none (le_of_not_lt hj)]
      have hsp2 : ∀ j : Nat, (applyUpd node.rawSlots upd)[j]?.map startP =
          node.rawSlots[j]?.map startP := by
        intro j
        by_cases hj : j < node.rawSlots.length
        · obtain ⟨s, s2, h1, h2, hM, _⟩ := hslot j hj
          rw [h1, h2]
          show some s2.startP = some s.startP
          rw [startP_of_stripMarks_eq hM.1]
        · rw [List.getElem?_eq_none (le_of_not_lt (by rw [hlenss]; omega)),
            List.getElem?_eq_none (le_of_not_lt hj)]
      have hsmM : stripMarks (node.setSlots (applyUpd node.rawSlots upd)) =
          stripMarks node :=
        stripMarks_setSlots node _ hlenss hbal hkwsh hsm
      have hSG : ∀ c ∈ applyUpd node.rawSlots upd, StartsGe node.startP c := by
        intro c hc
        obtain ⟨s, hM, hsmem⟩ := hslotfacts c hc
        exact hM.2.2.2.2.1 node.startP (wf_slots_startsGe htree hpos s hsmem)
      have hchild : ∀ c ∈ applyUpd node.rawSlots upd, ∀ d, SubNode c d →
          (∀ e3, d.endOf = some e3 →
            (∃ t ∈ toks, e3 = t.epos) ∧ posLe e3 (pl, pc) = true) ∧
          (∀ s0 e3, d.kwRngOf = some (s0, e3) →
            ∃ t ∈ toks, s0 = t.spos ∧ e3 = t.epos) ∧
          (∀ s0 e3, d.startOf = some s0 → d.endOf = some e3 →
            posLe s0 e3 = true) := by
        intro c hc d hd
        obtain ⟨s, hM, _⟩ := hslotfacts c hc
        exact (hM.weaken htokens2_toks (posLe_refl _)).2.1 d hd
      have hDstart : ∀ c ∈ applyUpd node.rawSlots upd, ∀ D, SubNode c D →
          ∀ sD, D.startOf = some sD → posLe node.startP sD = true := by
        intro c hc D hD sD hsD
        rcases startOf_eq_some_cases hsD with ⟨hDpos, rfl⟩ | ⟨a, e3, v, hDkw⟩
        · exact hSG c hc D hD hDpos
        · obtain ⟨s, hM, _⟩ := hslotfacts c hc
          obtain ⟨t, ht2, hts, _⟩ := (hM.2.1 D hD).2.1 sD e3 (by rw [hDkw]; rfl)
          subst hts
          exact (extract_mem (hw2W t ht2)).2.1
      have hDend : ∀ c ∈ applyUpd node.rawSlots upd, ∀ D, SubNode c D →
          ∀ eD, D.endOf = some eD → posLe eD te.epos = true := by
        intro c hc D hD eD heD
        obtain ⟨s, hM, _⟩ := hslotfacts c hc
        obtain ⟨⟨t, ht2, rfl⟩, _⟩ := (hM.2.1 D hD).1 eD heD
        exact hT2le t ht2
      have hSib : ∀ c ∈ applyUpd node.rawSlots upd, SibOk c := by
        intro c hc
        obtain ⟨s, hM, _⟩ := hslotfacts c hc
        exact hM.2.2.2.1
      have hContain : ∀ c ∈ applyUpd node.rawSlots upd, ContainOk c := by
        intro c hc
        obtain ⟨s, hM, _⟩ := hslotfacts c hc
        exact hM.2.2.1
      have hPres : ∀ c ∈ applyUpd node.rawSlots upd, ∀ p0,
          StartsGe p0 node → StartsGe p0 c := by
        intro c hc p0 hp0
        obtain ⟨s, hM, hsmem⟩ := hslotfacts c hc
        exact hM.2.2.2.2.1 p0 (hp0.along (SubNode.of_slot hsmem))
      by_cases hcall : node.isCallKind = true
      · -- a call: destructure and account for the re-ranged keywords
        obtain ⟨cp, ce, cf, cargs, ckws, cstar, cdstar, hnodeq⟩ := isCall_shape hcall
        have hnsp : node.startP = cp := by rw [hnodeq]; rfl
        rw [if_pos hcall] at heqM
        have heqM2 : _mark_parameters
            ((node.setSlots (applyUpd node.rawSlots upd)).setEnd te.epos) w2 =
            .ok node4 := heqM
        have hlen2 : (applyUpd node.rawSlots upd).length =
            1 + (cargs.length + (ckws.length + (cstar.length + cdstar.length))) := by
          rw [hlenss, hnodeq]
          simp only [rawSlots, List.length_cons, List.length_append,
            List.length_map]
          omega
        obtain ⟨x, rest, hssx, hrl, hset, hdec⟩ :=
          setSlots_call_eq cp ce cf cargs ckws cstar cdstar _ hlen2
        have hnode3 : (node.setSlots (applyUpd node.rawSlots upd)).setEnd te.epos =
            call cp (some te.epos) x (rest.take cargs.length)
              (ckws.zipWith withKwValue ((rest.drop cargs.length).take ckws.length))
              ((rest.drop (cargs.length + ckws.length)).take cstar.length)
              (rest.drop (cargs.length + ckws.length + cstar.length)) := by
          rw [hnodeq] at hset ⊢
          rw [hset]
          rfl
        rw [hnode3] at heqM2
        obtain ⟨kws2, hnode4, hklen, hkpt⟩ :=
          mark_parameters_spec heqM2 cp (some te.epos) x _ _ _ _ rfl
        subst hnode4
        have hcshape : ∀ k ∈ ckws, ∃ a rng v, k = kwNode a rng v :=
          hkwsh cp ce cf cargs ckws cstar cdstar hnodeq
        have hkvlen : ((rest.drop cargs.length).take ckws.length).length =
            ckws.length := by
          simp only [List.length_take, List.length_drop]
          omega
        have hgd : ∀ m : Nat, m < ckws.length →
            ((rest.drop cargs.length).take ckws.length)[m]? =
              some (((rest.drop cargs.length).take ckws.length).getD m
                (name (0,0) none "")) := by
          intro m hm
          rw [List.getD_eq_getElem?_getD,
            List.getElem?_eq_getElem (by omega : m <
              ((rest.drop cargs.length).take ckws.length).length)]
          rfl
        have hkw'get : ∀ m : Nat, m < ckws.length →
            ∃ am rm, ckws[m]? = some (kwNode am rm
                (kwValueOf (ckws.getD m (name (0,0) none "")))) ∧
              (ckws.zipWith withKwValue
                  ((rest.drop cargs.length).take ckws.length))[m]? =
                some (kwNode am rm
                  (((rest.drop cargs.length).take ckws.length).getD m
                    (name (0,0) none ""))) := by
          intro m hm
          have hck : ckws[m]? = some ckws[m] := List.getElem?_eq_getElem hm
          obtain ⟨am, rm, vm, hsh⟩ := hcshape ckws[m] (List.getElem?_mem hck)
          have hckd : ckws.getD m (name (0,0) none "") = ckws[m] := by
            rw [List.getD_eq_getElem?_getD, hck]
            rfl
          have hkvm : m < ((rest.drop cargs.length).take ckws.length).length := by
            omega
          have hkv : ((rest.drop cargs.length).take ckws.length)[m]? =
              some (((rest.drop cargs.length).take ckws.length)[m]) :=
            List.getElem?_eq_getElem hkvm
          have hz : (ckws.zipWith withKwValue
              ((rest.drop cargs.length).take ckws.length))[m]? =
              some (withKwValue ckws[m]
                (((rest.drop cargs.length).take ckws.length)[m])) := by
            rw [List.getElem?_zipWith, hck, hkv]
          refine ⟨am, rm, ?_, ?_⟩
          · rw [hck, hckd, hsh]
            rfl
          · rw [hz, hsh]
            have hgd2 := hgd m hm
            rw [hkv] at hgd2
            injection hgd2 with hgd3
            rw [hgd3]
            rfl
        have hkws2len : kws2.length = ckws.length := by
          rw [hklen, List.length_zipWith]
          omega
        have hkws2get : ∀ m : Nat, m < ckws.length →
            ∃ am t v2, kws2[m]? = some (kwNode am (some (t.spos, t.epos)) v2) ∧
              t ∈ w2 ∧ v2 ∈ applyUpd node.rawSlots upd ∧
              v2 = ((rest.drop cargs.length).take ckws.length).getD m
                (name (0,0) none "") := by
          intro m hm
          obtain ⟨am, rm, hck, hz⟩ := hkw'get m hm
          obtain ⟨k2, hk2, hmk⟩ := hkpt m _ hz
          obtain ⟨a3, r3, v3, t, hkeq, hk2eq, htw⟩ := markKw_spec hmk
          injection hkeq with ha3 hr3 hv3
          subst ha3
          subst hr3
          subst hv3
          refine ⟨am, t, _, by rw [hk2, hk2eq], htw, ?_, rfl⟩
          have hkvm : m < ((rest.drop cargs.length).take ckws.length).length := by
            omega
          have hgd2 := hgd m hm
          have hmemkv : ((rest.drop cargs.length).take ckws.length).getD m
              (name (0,0) none "") ∈ (rest.drop cargs.length).take ckws.length :=
            List.getElem?_mem hgd2
          have hmemrest : ((rest.drop cargs.length).take ckws.length).getD m
              (name (0,0) none "") ∈ rest :=
            (List.drop_sublist cargs.length rest).mem
              ((List.take_sublist ckws.length (rest.drop cargs.length)).mem hmemkv)
          rw [hssx]
          exact List.mem_cons_of_mem x hmemrest
        have hmapkv : kws2.map kwValueOf =
            (rest.drop cargs.length).take ckws.length := by
          apply List.ext_getElem?
          intro m
          by_cases hm : m < ckws.length
          · obtain ⟨am, t, v2, hg, _, _, hv2⟩ := hkws2get m hm
            rw [List.getElem?_map, hg]
            have hgd2 := hgd m hm
            rw [hgd2, ← hv2]
            rfl
          · rw [List.getElem?_eq_none (le_of_not_lt (by
                rw [List.length_map, hkws2len]; omega)),
              List.getElem?_eq_none (le_of_not_lt (by rw [hkvlen]; omega))]
        have hraw4 : (call cp (some te.epos) x (rest.take cargs.length) kws2
            ((rest.drop (cargs.length + ckws.length)).take cstar.length)
            (rest.drop (cargs.length + ckws.length + cstar.length))).rawSlots =
            applyUpd node.rawSlots upd := by
          show x :: (rest.take cargs.length ++ kws2.map kwValueOf ++
            (rest.drop (cargs.length + ckws.length)).take cstar.length ++
            rest.drop (cargs.length + ckws.length + cstar.length)) = _
          rw [hmapkv, hssx]
          rw [List.append_assoc, List.append_assoc]
          exact congrArg (List.cons x) hdec.symm
        have hmem4c : ∀ c ∈ (call cp (some te.epos) x (rest.take cargs.length) kws2
            ((rest.drop (cargs.length + ckws.length)).take cstar.length)
            (rest.drop (cargs.length + ckws.length + cstar.length))).iterChildNodes,
            c ∈ applyUpd node.rawSlots upd ∨
              ∃ m : Nat, m < ckws.length ∧ kws2[m]? = some c := by
          intro c hc
          have hrmem : ∀ u ∈ rest, u ∈ applyUpd node.rawSlots upd := by
            intro u hu
            rw [hssx]
            exact List.mem_cons_of_mem x hu
          rcases List.mem_cons.mp hc with rfl | hc2
          · left
            rw [hssx]
            exact List.mem_cons_self _ _
          · rcases List.mem_append.mp hc2 with h3 | hd2
            · rcases List.mem_append.mp h3 with h4 | hs2
              · rcases List.mem_append.mp h4 with ha2 | hk2
                · exact Or.inl (hrmem c ((List.take_sublist _ _).mem ha2))
                · right
                  obtain ⟨m, hmk⟩ := List.mem_iff_getElem?.mp hk2
                  have hmlt : m < ckws.length := by
                    have := getElem?_some_lt hmk
                    omega
                  exact ⟨m, hmlt, hmk⟩
              · exact Or.inl (hrmem c ((List.drop_sublist _ _).mem
                  ((List.take_sublist _ _).mem hs2)))
            · exact Or.inl (hrmem c ((List.drop_sublist _ _).mem hd2))
        have hsmkws : kws2.map stripMarks =
            (ckws.zipWith withKwValue
              ((rest.drop cargs.length).take ckws.length)).map stripMarks := by
          apply List.ext_getElem?
          intro m
          by_cases hm : m < ckws.length
          · obtain ⟨am, rm, hck, hz⟩ := hkw'get m hm
            obtain ⟨am2, t, v2, hg, _, _, hv2⟩ := hkws2get m hm
            rw [List.getElem?_map, List.getElem?_map, hg, hz]
            have ham : am2 = am := by
              obtain ⟨k2, hk2, hmk⟩ := hkpt m _ hz
              rw [hg] at hk2
              obtain ⟨a3, r3, v3, t3, hkeq, hk2eq, _⟩ := markKw_spec hmk
              injection hkeq with h5 h6 h7
              rw [hk2eq] at hk2
              injection hk2 with hk3
              injection hk3 with h8 h9 h10
              rw [h8, ← h5]
            subst ham
            rw [hv2]
            rfl
          · rw [List.getElem?_eq_none (le_of_not_lt (by
                rw [List.length_map, hkws2len]; omega)),
              List.getElem?_eq_none (le_of_not_lt (by
                rw [List.length_map, List.length_zipWith]; omega))]
        have hsm4 : stripMarks (call cp (some te.epos) x (rest.take cargs.length)
            kws2 ((rest.drop (cargs.length + ckws.length)).take cstar.length)
            (rest.drop (cargs.length + ckws.length + cstar.length))) =
            stripMarks node := by
          have h5 : stripMarks (call cp (some te.epos) x (rest.take cargs.length)
              kws2 ((rest.drop (cargs.length + ckws.length)).take cstar.length)
              (rest.drop (cargs.length + ckws.length + cstar.length))) =
              stripMarks (call cp (some te.epos) x (rest.take cargs.length)
                (ckws.zipWith withKwValue
                  ((rest.drop cargs.length).take ckws.length))
                ((rest.drop (cargs.length + ckws.length)).take cstar.length)
                (rest.drop (cargs.length + ckws.length + cstar.length))) := by
            simp only [stripMarks, stripMarksList_eq_map]
            rw [hsmkws]
          rw [h5, ← hnode3, stripMarks_setEnd]
          exact hsmM
        have hord4 : ordPairs (call cp (some te.epos) x (rest.take cargs.length)
            kws2 ((rest.drop (cargs.length + ckws.length)).take cstar.length)
            (rest.drop (cargs.length + ckws.length + cstar.length))) =
            (ordPairs node).map
              (fun p => (p.1, (applyUpd node.rawSlots upd).getD p.1
                (name (0,0) none ""))) := by
          unfold ordPairs
          rw [if_pos (show (call cp (some te.epos) x (rest.take cargs.length)
              kws2 ((rest.drop (cargs.length + ckws.length)).take cstar.length)
              (rest.drop (cargs.length + ckws.length + cstar.length))).isCallKind =
              true from rfl),
            if_pos hcall]
          rw [hraw4]
          exact ordPairs_marked_call node _ hlenss hsp2
        have hsnd4 : (ordPairs (call cp (some te.epos) x (rest.take cargs.length)
            kws2 ((rest.drop (cargs.length + ckws.length)).take cstar.length)
            (rest.drop (cargs.length + ckws.length + cstar.length)))).map Prod.snd =
            upd.map Prod.snd := by
          rw [hord4, List.map_map]
          apply List.ext_getElem?
          intro k
          by_cases hk : k < (ordPairs node).length
          · have hpk : (ordPairs node)[k]? = some ((ordPairs node)[k]) :=
              List.getElem?_eq_getElem hk
            obtain ⟨s2k, hu, _, _⟩ := hPt k ((ordPairs node)[k]).1
              ((ordPairs node)[k]).2 (by rw [hpk])
            have hik : ((ordPairs node)[k]).1 < node.rawSlots.length :=
              getElem?_some_lt (ordPairs_mem
                (show (((ordPairs node)[k]).1, ((ordPairs node)[k]).2) ∈
                  ordPairs node from List.getElem?_mem (by rw [hpk])))
            have hssik : (applyUpd node.rawSlots upd)[((ordPairs node)[k]).1]? =
                some s2k :=
              applyUpd_getElem_mem upd node.rawSlots _ s2k hnd
                (List.getElem?_mem hu) hik
            rw [List.getElem?_map, List.getElem?_map, hpk, hu]
            show some ((applyUpd node.rawSlots upd).getD ((ordPairs node)[k]).1
              (name (0,0) none "")) = some s2k
            rw [List.getD_eq_getElem?_getD, hssik]
            rfl
          · rw [List.getElem?_eq_none (le_of_not_lt (by
                rw [List.length_map]; omega)),
              List.getElem?_eq_none (le_of_not_lt (by
                rw [List.length_map, hLen]; omega))]
        have hgocn4 : _get_ordered_child_nodes
            (call cp (some te.epos) x (rest.take cargs.length) kws2
              ((rest.drop (cargs.length + ckws.length)).take cstar.length)
              (rest.drop (cargs.length + ckws.length + cstar.length))) =
            upd.map Prod.snd := by
          rw [gocn_eq_map_ordPairs, hsnd4]
        refine ⟨?_, ?_, hsm4, ?_, ?_, ?_, ?_, ?_⟩
        · rw [if_pos hpos]
          exact posLe_trans hstartle hte_cond.2.2
        · intro _
          rw [if_pos hpos]
        · -- RangesOk
          intro d hd
          rcases subnode_cases hd with rfl | ⟨c, hc, hcd⟩
          · refine ⟨?_, ?_, ?_⟩
            · intro e3 he3
              have he4 : te.epos = e3 := by simpa [endOf] using he3
              subst he4
              exact ⟨⟨te, hteT, rfl⟩, hte_cond.2.2⟩
            · intro s0 e3 hk
              simp [kwRngOf] at hk
            · intro s0 e3 hs0 he3
              have hs1 : cp = s0 := by simpa [startOf, startP] using hs0
              have he4 : te.epos = e3 := by simpa [endOf] using he3
              subst hs1
              subst he4
              rw [← hnsp]
              exact hstartle
          · rcases hmem4c c hc with hcss | ⟨m, hm, hcm⟩
            · exact hchild c hcss d hcd
            · obtain ⟨am, t, v2, hg, htw, hv2ss, _⟩ := hkws2get m hm
              rw [hcm] at hg
              injection hg with hg2
              subst hg2
              rcases subnode_cases hcd with rfl | ⟨c2, hc2, hc2d⟩
              · refine ⟨?_, ?_, ?_⟩
                · intro e3 he3
                  have he4 : t.epos = e3 := by simpa [endOf] using he3
                  subst he4
                  exact ⟨⟨t, htokens2_toks t htw, rfl⟩,
                    (extract_mem (hw2W t htw)).2.2⟩
                · intro s0 e3 hk
                  have hk2 : (some (t.spos, t.epos) : Option (Pos × Pos)) =
                      some (s0, e3) := hk
                  injection hk2 with hk3
                  injection hk3 with hk4 hk5
                  subst hk4
                  subst hk5
                  exact ⟨t, htokens2_toks t htw, rfl, rfl⟩
                · intro s0 e3 hs0 he3
                  have hs1 : t.spos = s0 := by simpa [startOf] using hs0
                  have he4 : t.epos = e3 := by simpa [endOf] using he3
                  subst hs1
                  subst he4
                  exact hwf.1 t (htokens2_toks t htw)
              · have hc2v : c2 = v2 := by simpa [iterChildNodes] using hc2
                rw [hc2v] at hc2d
                exact hchild v2 hv2ss d hc2d
        · -- ContainOk
          intro N hN hNpos eN hNe D hD
          rcases subnode_cases hN with rfl | ⟨c, hc, hcN⟩
          · have heN2 : te.epos = eN := by simpa [endOf] using hNe
            subst heN2
            obtain ⟨c, hc, hcD⟩ := hD
            rcases hmem4c c hc with hcss | ⟨m, hm, hcm⟩
            · constructor
              · intro sD hsD
                have := hDstart c hcss D hcD sD hsD
                rw [hnsp] at this
                exact this
              · intro eD heD
                exact hDend c hcss D hcD eD heD
            · obtain ⟨am, t, v2, hg, htw, hv2ss, _⟩ := hkws2get m hm
              rw [hcm] at hg
              injection hg with hg2
              subst hg2
              rcases subnode_cases hcD with rfl | ⟨c2, hc2, hc2d⟩
              · constructor
                · intro sD hsD
                  have hs1 : t.spos = sD := by simpa [startOf] using hsD
                  subst hs1
                  have := (extract_mem (hw2W t htw)).2.1
                  rw [hnsp] at this
                  exact this
                · intro eD heD
                  have he4 : t.epos = eD := by simpa [endOf] using heD
                  subst he4
                  exact hT2le t htw
              · have hc2v : c2 = v2 := by simpa [iterChildNodes] using hc2
                rw [hc2v] at hc2d
                constructor
                · intro sD hsD
                  have := hDstart v2 hv2ss D hc2d sD hsD
                  rw [hnsp] at this
                  exact this
                · intro eD heD
                  exact hDend v2 hv2ss D hc2d eD heD
          · rcases hmem4c c hc with hcss | ⟨m, hm, hcm⟩
            · exact hContain c hcss N hcN hNpos eN hNe D hD
            · obtain ⟨am, t, v2, hg, htw, hv2ss, _⟩ := hkws2get m hm
              rw [hcm] at hg
              injection hg with hg2
              subst hg2
              rcases subnode_cases hcN with rfl | ⟨c2, hc2, hc2N⟩
              · exact absurd hNpos (by simp [positionedKind])
              · have hc2v : c2 = v2 := by simpa [iterChildNodes] using hc2
                rw [hc2v] at hc2N
                exact hContain v2 hv2ss N hc2N hNpos eN hNe D hD
        · -- SibOk
          intro P hP
          rcases subnode_cases hP with rfl | ⟨c, hc, hcP⟩
          · rw [hgocn4]
            exact hPw
          · rcases hmem4c c hc with hcss | ⟨m, hm, hcm⟩
            · exact hSib c hcss P hcP
            · obtain ⟨am, t, v2, hg, htw, hv2ss, _⟩ := hkws2get m hm
              rw [hcm] at hg
              injection hg with hg2
              subst hg2
              rcases subnode_cases hcP with rfl | ⟨c2, hc2, hc2P⟩
              · exact List.pairwise_singleton sibRel v2
              · have hc2v : c2 = v2 := by simpa [iterChildNodes] using hc2
                rw [hc2v] at hc2P
                exact hSib v2 hv2ss P hc2P
        · -- starts preserved
          intro p0 hp0 d hd hdpos
          rcases subnode_cases hd with rfl | ⟨c, hc, hcd⟩
          · have := hp0 node (SubNode.refl node) hpos
            rw [hnsp] at this
            exact this
          · rcases hmem4c c hc with hcss | ⟨m, hm, hcm⟩
            · exact hPres c hcss p0 hp0 d hcd hdpos
            · obtain ⟨am, t, v2, hg, htw, hv2ss, _⟩ := hkws2get m hm
              rw [hcm] at hg
              injection hg with hg2
              subst hg2
              rcases subnode_cases hcd with rfl | ⟨c2, hc2, hc2d⟩
              · exact absurd hdpos (by simp [positionedKind])
              · have hc2v : c2 = v2 := by simpa [iterChildNodes] using hc2
                rw [hc2v] at hc2d
                exact hPres v2 hv2ss p0 hp0 d hc2d hdpos
        · intro _
          exact ⟨te.epos, rfl⟩
      · -- not a call: the node is rebuilt around the marked slots directly
        have hcf : node.isCallKind = false := by
          revert hcall
          cases node.isCallKind <;> simp
        rw [if_neg hcall] at heqM
        injection heqM with h3
        have hnode4 : node4 =
            (node.setSlots (applyUpd node.rawSlots upd)).setEnd te.epos := h3.symm
        subst hnode4
        have hpos4 : ((node.setSlots (applyUpd node.rawSlots upd)).setEnd
            te.epos).positionedKind = true := by
          rw [positionedKind_setEnd, positionedKind_setSlots]
          exact hpos
        have hstart4 : ((node.setSlots (applyUpd node.rawSlots upd)).setEnd
            te.epos).startP = node.startP := by
          rw [startP_setEnd, startP_setSlots]
        have hend4 : ((node.setSlots (applyUpd node.rawSlots upd)).setEnd
            te.epos).endOf = some te.epos :=
          endOf_setEnd _ (by rw [positionedKind_setSlots]; exact hpos)
        have hkw4 : ((node.setSlots (applyUpd node.rawSlots upd)).setEnd
            te.epos).kwRngOf = none := by
          rw [kwRngOf_setEnd, kwRngOf_setSlots]
          exact kwRngOf_nonkw hnkw
        have hsm4 : stripMarks ((node.setSlots (applyUpd node.rawSlots upd)).setEnd
            te.epos) = stripMarks node := by
          rw [stripMarks_setEnd]
          exact hsmM
        have hmem4 : ∀ c ∈ ((node.setSlots (applyUpd node.rawSlots upd)).setEnd
            te.epos).iterChildNodes, c ∈ applyUpd node.rawSlots upd := by
          intro c hc
          rw [iterChildNodes_setEnd] at hc
          exact mem_iter_setSlots hlenss hbal hcf hc
        have hordenum : ordPairs node = node.rawSlots.enum := by
          unfold ordPairs
          rw [if_neg (by simp [hcf])]
        have hssu : applyUpd node.rawSlots upd = upd.map Prod.snd := by
          apply List.ext_getElem?
          intro k
          by_cases hk : k < node.rawSlots.length
          · have hpk : (ordPairs node)[k]? = some (k, node.rawSlots[k]) := by
              rw [hordenum, List.getElem?_enum, List.getElem?_eq_getElem hk]
              rfl
            obtain ⟨s2, hu, _, _⟩ := hPt k k (node.rawSlots[k]) hpk
            rw [applyUpd_getElem_mem upd node.rawSlots k s2 hnd
              (List.getElem?_mem hu) hk, List.getElem?_map, hu]
            rfl
          · rw [List.getElem?_eq_none (le_of_not_lt (by rw [hlenss]; omega)),
              List.getElem?_eq_none (le_of_not_lt (by
                rw [List.length_map, hLen, horp_len]; omega))]
        have hgocn4 : _get_ordered_child_nodes
            ((node.setSlots (applyUpd node.rawSlots upd)).setEnd te.epos) =
            upd.map Prod.snd := by
          rw [gocn_setEnd, gocn_setSlots_noncall node _ hlenss hbal hcf, hssu]
        refine ⟨?_, ?_, hsm4, ?_, ?_, ?_, ?_, ?_⟩
        · rw [if_pos hpos]
          exact posLe_trans hstartle hte_cond.2.2
        · intro _
          rw [if_pos hpos]
        · intro d hd
          rcases subnode_cases hd with rfl | ⟨c, hc, hcd⟩
          · refine ⟨?_, ?_, ?_⟩
            · intro e3 he3
              rw [hend4] at he3
              injection he3 with he4
              subst he4
              exact ⟨⟨te, hteT, rfl⟩, hte_cond.2.2⟩
            · intro s0 e3 hk
              rw [hkw4] at hk
              cases hk
            · intro s0 e3 hs0 he3
              rw [startOf_positioned hpos4, hstart4] at hs0
              injection hs0 with hs1
              subst hs1
              rw [hend4] at he3
              injection he3 with he4
              subst he4
              exact hstartle
          · exact hchild c (hmem4 c hc) d hcd
        · intro N hN hNpos eN hNe D hD
          rcases subnode_cases hN with rfl | ⟨c, hc, hcN⟩
          · rw [hend4] at hNe
            injection hNe with hNe2
            subst hNe2
            obtain ⟨c, hc, hcD⟩ := hD
            have hcss := hmem4 c hc
            constructor
            · intro sD hsD
              rw [hstart4]
              exact hDstart c hcss D hcD sD hsD
            · intro eD heD
              exact hDend c hcss D hcD eD heD
          · exact hContain c (hmem4 c hc) N hcN hNpos eN hNe D hD
        · intro P hP
          rcases subnode_cases hP with rfl | ⟨c, hc, hcP⟩
          · rw [hgocn4]
            exact hPw
          · exact hSib c (hmem4 c hc) P hcP
        · intro p0 hp0 d hd hdpos
          rcases subnode_cases hd with rfl | ⟨c, hc, hcd⟩
          · rw [hstart4]
            exact hp0 node (SubNode.refl node) hpos
          · exact hPres c (hmem4 c hc) p0 hp0 d hcd hdpos
        · intro _
          exact ⟨te.epos, hend4⟩
    · -- unpositioned node (a Module): no window, no end
      rw [if_neg hpos] at heqW
      injection heqW with hW2
      injection hW2 with hw1 hw2
      rw [← hw1] at heqP
      rw [← hw1, ← hw2] at heqM
      have hposf : node.positionedKind = false := by
        revert hpos
        cases node.positionedKind <;> simp
      have hcf : node.isCallKind = false := by
        cases hic : node.isCallKind
        · rfl
        · exact absurd (pos_of_isCall hic) hpos
      rw [if_neg (by simp [hcf])] at heqM
      injection heqM with h3
      have hnode4 : node4 = node.setSlots (applyUpd node.rawSlots upd) := h3.symm
      subst hnode4
      obtain ⟨hL1, hLen, hPt, hPw, hL4⟩ :=
        markPairsRevF_full f toks (ordPairs node) (pl, pc) upd prelim2
          hwf hpairswf heqP
      have hlenss : (applyUpd node.rawSlots upd).length = node.rawSlots.length :=
        applyUpd_length upd node.rawSlots
      have hfst : ∀ k : Nat, (upd.map Prod.fst)[k]? =
          ((ordPairs node).map Prod.fst)[k]? := by
        intro k
        rw [List.getElem?_map, List.getElem?_map]
        by_cases hk : k < (ordPairs node).length
        · have hpk : (ordPairs node)[k]? = some ((ordPairs node)[k]) :=
            List.getElem?_eq_getElem hk
          obtain ⟨s2k, hu, _, _⟩ := hPt k ((ordPairs node)[k]).1
            ((ordPairs node)[k]).2 (by rw [hpk])
          rw [hpk, hu]
          rfl
        · rw [List.getElem?_eq_none (le_of_not_lt (by rw [hLen]; omega)),
            List.getElem?_eq_none (le_of_not_lt hk)]
      have hfsteq : upd.map Prod.fst = (ordPairs node).map Prod.fst :=
        List.ext_getElem? hfst
      have hnd : (upd.map Prod.fst).Nodup := by
        rw [hfsteq]; exact ordPairs_fst_nodup node
      have hslot : ∀ j : Nat, j < node.rawSlots.length →
          ∃ s s2, node.rawSlots[j]? = some s ∧
            (applyUpd node.rawSlots upd)[j]? = some s2 ∧
            MarkedTo toks (pl, pc) s s2 ∧
            (s.positionedKind = true → s2.startOf = some s.startP) := by
        intro j hj
        obtain ⟨s, hm, hsj⟩ := ordPairs_complete hj
        obtain ⟨k, hk⟩ := List.mem_iff_getElem?.mp hm
        obtain ⟨s2, hu, hM, hst⟩ := hPt k j s hk
        exact ⟨s, s2, hsj,
          applyUpd_getElem_mem upd node.rawSlots j s2 hnd (List.getElem?_mem hu) hj,
          hM, hst⟩
      have hslotfacts : ∀ c ∈ applyUpd node.rawSlots upd,
          ∃ s, MarkedTo toks (pl, pc) s c ∧ s ∈ node.rawSlots := by
        intro c hc
        obtain ⟨j, hj⟩ := List.mem_iff_getElem?.mp hc
        have hjl : j < node.rawSlots.length := by
          have := getElem?_some_lt hj
          omega
        obtain ⟨s, s2, h1, h2, hM, hst⟩ := hslot j hjl
        rw [hj] at h2
        injection h2 with h4
        subst h4
        exact ⟨s, hM, List.getElem?_mem h1⟩
      have hsm : ∀ j : Nat, (applyUpd node.rawSlots upd)[j]?.map stripMarks =
          node.rawSlots[j]?.map stripMarks := by
        intro j
        by_cases hj : j < node.rawSlots.length
        · obtain ⟨s, s2, h1, h2, hM, _⟩ := hslot j hj
          rw [h1, h2]
          show some (stripMarks s2) = some (stripMarks s)
          rw [hM.1]
        · rw [List.getElem?_eq_none (le_of_not_lt (by rw [hlenss]; omega)),
            List.getElem?_eq_none (le_of_not_lt hj)]
      have hsmM : stripMarks (node.setSlots (applyUpd node.rawSlots upd)) =
          stripMarks node :=
        stripMarks_setSlots node _ hlenss hbal hkwsh hsm
      have hpos4 : ((node.setSlots (applyUpd node.rawSlots upd))).positionedKind =
          false := by
        rw [positionedKind_setSlots]
        exact hposf
      have hclosed := nonpos_nonkw_closed hpos4 (nonkw_setSlots _ hnkw)
      have hkw4 : ((node.setSlots (applyUpd node.rawSlots upd))).kwRngOf = none := by
        rw [kwRngOf_setSlots]
        exact kwRngOf_nonkw hnkw
      have hmem4 : ∀ c ∈ ((node.setSlots
          (applyUpd node.rawSlots upd))).iterChildNodes,
          c ∈ applyUpd node.rawSlots upd := by
        intro c hc
        exact mem_iter_setSlots hlenss hbal hcf hc
      have hordenum : ordPairs node = node.rawSlots.enum := by
        unfold ordPairs
        rw [if_neg (by simp [hcf])]
      have horp_len2 : (ordPairs node).length = node.rawSlots.length := horp_len
      have hssu : applyUpd node.rawSlots upd = upd.map Prod.snd := by
        apply List.ext_getElem?
        intro k
        by_cases hk : k < node.rawSlots.length
        · have hpk : (ordPairs node)[k]? = some (k, node.rawSlots[k]) := by
            rw [hordenum, List.getElem?_enum, List.getElem?_eq_getElem hk]
            rfl
          obtain ⟨s2, hu, _, _⟩ := hPt k k (node.rawSlots[k]) hpk
          rw [applyUpd_getElem_mem upd node.rawSlots k s2 hnd
            (List.getElem?_mem hu) hk, List.getElem?_map, hu]
          rfl
        · rw [List.getElem?_eq_none (le_of_not_lt (by rw [hlenss]; omega)),
            List.getElem?_eq_none (le_of_not_lt (by
              rw [List.length_map, hLen, horp_len2]; omega))]
      have hgocn4 : _get_ordered_child_nodes
          (node.setSlots (applyUpd node.rawSlots upd)) = upd.map Prod.snd := by
        rw [gocn_setSlots_noncall node _ hlenss hbal hcf, hssu]
      refine ⟨?_, ?_, hsmM, ?_, ?_, ?_, ?_, ?_⟩
      · rw [if_neg hpos]
        exact hL1
      · intro hp
        exact absurd hp hpos
      · intro d hd
        rcases subnode_cases hd with rfl | ⟨c, hc, hcd⟩
        · refine ⟨?_, ?_, ?_⟩
          · intro e3 he3
            rw [hclosed.2] at he3
            cases he3
          · intro s0 e3 hk
            rw [hkw4] at hk
            cases hk
          · intro s0 e3 hs0 _
            rw [hclosed.1] at hs0
            cases hs0
        · obtain ⟨s, hM, _⟩ := hslotfacts c (hmem4 c hc)
          exact hM.2.1 d hcd
      · intro N hN hNpos eN hNe D hD
        rcases subnode_cases hN with rfl | ⟨c, hc, hcN⟩
        · rw [hpos4] at hNpos
          exact absurd hNpos (by simp)
        · obtain ⟨s, hM, _⟩ := hslotfacts c (hmem4 c hc)
          exact hM.2.2.1 N hcN hNpos eN hNe D hD
      · intro P hP
        rcases subnode_cases hP with rfl | ⟨c, hc, hcP⟩
        · rw [hgocn4]
          exact hPw
        · obtain ⟨s, hM, _⟩ := hslotfacts c (hmem4 c hc)
          exact hM.2.2.2.1 P hcP
      · intro p0 hp0 d hd hdpos
        rcases subnode_cases hd with rfl | ⟨c, hc, hcd⟩
        · rw [hpos4] at hdpos
          exact absurd hdpos (by simp)
        · obtain ⟨s, hM, hsmem⟩ := hslotfacts c (hmem4 c hc)
          exact hM.2.2.2.2.1 p0 (hp0.along (SubNode.of_slot hsmem)) d hcd hdpos
      · intro hp
        exact absurd hp hpos
theorem markPairsRevF_full : ∀ (f : Nat) (toks : List Tok)
    (pairs : List (Nat × PyNode)) (prelim : Pos)
    (upd : List (Nat × PyNode)) (ret : Pos),
    TokWf toks →
    (∀ (i : Nat) (s : PyNode), (i, s) ∈ pairs → WfTree s ∧ isKwKind s = false) →
    markPairsRevF f toks pairs prelim = .ok (upd, ret) →
    posLe ret prelim = true ∧
    upd.length = pairs.length ∧
    (∀ (k i : Nat) (s : PyNode), pairs[k]? = some (i, s) →
      ∃ s2, upd[k]? = some (i, s2) ∧ MarkedTo toks prelim s s2 ∧
        (s.positionedKind = true → s2.startOf = some s.startP)) ∧
    (upd.map Prod.snd).Pairwise sibRel ∧
    (∀ x ∈ upd.map Prod.snd, ∀ sx, x.startOf = some sx → posLe ret sx = true)
  | 0, toks, pairs, prelim, upd, ret => by
    intro _ _ h
    exact absurd h (by simp [markPairsRevF])
  | f + 1, toks, [], prelim, upd, ret => by
    intro _ _ h
    have h0 : (Except.ok (([] : List (Nat × PyNode)), prelim) :
        Except Err (List (Nat × PyNode) × Pos)) = .ok (upd, ret) := h
    injection h0 with h2
    injection h2 with hu hr
    subst hu
    subst hr
    refine ⟨posLe_refl _, rfl, ?_, List.Pairwise.nil, ?_⟩
    · intro k i s hk
      rw [List.getElem?_nil] at hk
      cases hk
    · intro x hx
      exact absurd hx (List.not_mem_nil x)
  | f + 1, toks, (i0, s) :: rest, prelim, upd, ret => by
    intro hwf hps h
    simp only [markPairsRevF] at h
    split at h
    · exact Except.noConfusion h
    rename_i upd0 prelim1 heqR
    split at h
    · exact Except.noConfusion h
    rename_i s2 prelim2 heqH
    injection h with h2
    injection h2 with hu hr
    subst hu
    subst hr
    obtain ⟨hL1, hLen, hPt, hPw, hL4⟩ :=
      markPairsRevF_full f toks rest prelim upd0 prelim1 hwf
        (fun i s3 hm => hps i s3 (List.mem_cons_of_mem _ hm)) heqR
    have hhead0 := hps i0 s (List.mem_cons_self _ _)
    obtain ⟨hN1, hN2, hM⟩ :=
      markRecF_full f s toks prelim1.1 prelim1.2 s2 prelim2 hwf
        hhead0.1 (notKw_of_isKwKind_false hhead0.2) heqH
    have hN1b : posLe prelim2 prelim1 = true := hN1
    have hMb : MarkedTo toks prelim1 s s2 := hM
    refine ⟨posLe_trans hN1b hL1, by simp [hLen], ?_, ?_, ?_⟩
    · intro k i s3 hk
      cases k with
      | zero =>
        rw [List.getElem?_cons_zero] at hk
        injection hk with hk2
        injection hk2 with hi hs
        subst hi
        subst hs
        refine ⟨s2, by simp, hMb.weaken (fun t ht => ht) hL1, ?_⟩
        intro hposS
        have hk3 := positionedKind_of_stripMarks_eq hMb.1
        rw [startOf_positioned (by rw [hk3, hposS])]
        rw [startP_of_stripMarks_eq hMb.1]
      | succ k2 =>
        simp only [List.getElem?_cons_succ] at hk ⊢
        exact hPt k2 i s3 hk
    · simp only [List.map_cons]
      refine List.pairwise_cons.mpr ⟨?_, hPw⟩
      intro B hB eA sB heA hsB
      have hr := (hMb.2.1 s2 (SubNode.refl s2)).1 eA heA
      exact posLe_trans hr.2 (hL4 B hB sB hsB)
    · intro x hx sx hsx
      simp only [List.map_cons, List.mem_cons] at hx
      rcases hx with rfl | hx
      · rcases startOf_eq_some_cases hsx with ⟨hp2, rfl⟩ | ⟨a, e2, v, hxkw⟩
        · have hk3 := positionedKind_of_stripMarks_eq hMb.1
          have hsp : s.positionedKind = true := by rw [← hk3]; exact hp2
          rw [hN2 hsp, startP_of_stripMarks_eq hMb.1]
          exact posLe_refl _
        · exfalso
          have hsmkw : stripMarks x = kwNode a none (stripMarks v) := by
            rw [hxkw]; rfl
          rw [hMb.1] at hsmkw
          obtain ⟨r2, v2a, hskw⟩ := isKw_of_stripMarks_kw hsmkw
          have hf := hhead0.2
          rw [hskw] at hf
          simp [isKwKind] at hf
      · exact posLe_trans hN1b (hL4 x hx sx hsx)
end

/-! ### C1 (amended) -/

/-- C1 (amended): after the range-marking engine (`_mark_text_ranges_rec`,
the recursive core that `mark_text_ranges` runs on the bug-corrected tree)
completes on a well-formed input — a token stream whose per-token start is
at or before its end with nondecreasing ends, and a tree with monotone
native starts, balanced dict literals, and keyword nodes only in call
keyword lists — then: (1) every node of the result with both a start and
an end has start ≤ end (keyword-argument ranges included); (2) every
NATIVELY positioned node's range contains the range of everything below
it: descendant starts (native starts and keyword-range starts alike) are
at or after its start, and descendant ends at or before its end — keyword
nodes themselves, whose resolver range covers only the keyword name and
not its value, are excluded from the container role; (3) at every node the
resolver-ordered children are pairwise non-overlapping (each earlier
child's end is at or before each later child's start); and (4) the root's
assigned end is the end of an actual stream token.  Finally, any
successful `mark_text_ranges` run factors through this engine applied to
the `fix_ast_problems` output. -/
theorem C1_amended (node : PyNode) (toks : List Tok) (pl pc : Nat)
    (n2 : PyNode) (ret : Pos)
    (hwf : TokWf toks) (htree : WfTree node)
    (hnkw : ∀ a rng v, node ≠ kwNode a rng v)
    (h : _mark_text_ranges_rec node toks pl pc = .ok (n2, ret)) :
    (∀ d, SubNode n2 d → ∀ s e, d.startOf = some s → d.endOf = some e →
        posLe s e = true) ∧
    (∀ N, SubNode n2 N → N.positionedKind = true → ∀ eN, N.endOf = some eN →
      ∀ D, ProperSub N D →
        (∀ sD, D.startOf = some sD → posLe N.startP sD = true) ∧
        (∀ eD, D.endOf = some eD → posLe eD eN = true)) ∧
    (∀ P, SubNode n2 P → (_get_ordered_child_nodes P).Pairwise sibRel) ∧
    (∀ e, n2.endOf = some e → ∃ t ∈ toks, e = t.epos) ∧
    (∀ (tree0 : PyNode) (source : String) (tree2 : PyNode),
      mark_text_ranges tree0 source (.ok toks) = .ok tree2 →
      ∃ tree1 lastLine ret2,
        fix_ast_problems tree0 (pySplitLines source) toks = .ok tree1 ∧
        (pySplitLines source).getLast? = some lastLine ∧
        _mark_text_ranges_rec tree1 toks (pySplitLines source).length
          lastLine.length = .ok (tree2, ret2)) := by
  obtain ⟨hN1, hN2, hM⟩ := markRecF_full (nsize node + 1) node toks pl pc n2 ret
    hwf htree hnkw h
  refine ⟨?_, hM.2.2.1, hM.2.2.2.1, ?_, ?_⟩
  · intro d hd s e hs he
    exact (hM.2.1 d hd).2.2 s e hs he
  · intro e he
    exact ((hM.2.1 n2 (SubNode.refl n2)).1 e he).1
  · intro tree0 source tree2 hmk
    unfold mark_text_ranges at hmk
    by_cases hsrc : (pyStrip source).length > 0
    · rw [if_pos hsrc] at hmk
      split at hmk
      · exact Except.noConfusion hmk
      rename_i all_tokens heqT
      injection heqT with heqT2
      subst heqT2
      split at hmk
      · exact Except.noConfusion hmk
      rename_i tree1 heqF
      split at hmk
      · exact Except.noConfusion hmk
      rename_i lastLine heqL
      split at hmk
      · exact Except.noConfusion hmk
      rename_i tree2b ret2 heqR
      injection hmk with hmk2
      subst hmk2
      exact ⟨tree1, lastLine, ret2, heqF, heqL, heqR⟩
    · rw [if_neg hsrc] at hmk
      exact Except.noConfusion hmk

/-- Witness for the amended C1 at the concrete program `x(y=z)`: the
hypotheses hold by evaluation and the engine's output is the marked tree,
so all four range disciplines hold for it. -/
theorem C1_amended_witness :
    TokWf toksXYZ ∧ WfTree treeXYZ ∧
    ((∀ d, SubNode markedXYZ d → ∀ s e, d.startOf = some s →
        d.endOf = some e → posLe s e = true) ∧
      (∀ N, SubNode markedXYZ N → N.positionedKind = true →
        ∀ eN, N.endOf = some eN → ∀ D, ProperSub N D →
          (∀ sD, D.startOf = some sD → posLe N.startP sD = true) ∧
          (∀ eD, D.endOf = some eD → posLe eD eN = true)) ∧
      (∀ P, SubNode markedXYZ P →
        (_get_ordered_child_nodes P).Pairwise sibRel) ∧
      (∀ e, markedXYZ.endOf = some e → ∃ t ∈ toksXYZ, e = t.epos) ∧
      (∀ (tree0 : PyNode) (source : String) (tree2 : PyNode),
        mark_text_ranges tree0 source (.ok toksXYZ) = .ok tree2 →
        ∃ tree1 lastLine ret2,
          fix_ast_problems tree0 (pySplitLines source) toksXYZ = .ok tree1 ∧
          (pySplitLines source).getLast? = some lastLine ∧
          _mark_text_ranges_rec tree1 toksXYZ (pySplitLines source).length
            lastLine.length = .ok (tree2, ret2))) :=
  ⟨TokWf_of_tokWfB (by rfl), @WfTree_of_wfB 30 treeXYZ (by rfl),
    C1_amended treeXYZ toksXYZ 1 6 markedXYZ (1, 0)
      (TokWf_of_tokWfB (by rfl)) (@WfTree_of_wfB 30 treeXYZ (by rfl))
      (fun a rng v hx => by cases hx) (by rfl)⟩

/-! ### C5 (amended): the closer strip truncates at naked commas -/

/-- Index of the first comma token (the specification's description of
where the non-tuple window is cut, at nesting level zero). -/
def firstCommaIdx : List Tok → Option Nat
  | [] => none
  | t :: rest => if t.tstr == "," then some 0 else (firstCommaIdx rest).map (· + 1)

theorem stripClosersGo_nb : ∀ (ts : List Tok) (i : Nat),
    (∀ t ∈ ts, pyInStr t.tstr "(\x7b[" = false ∧ pyInStr t.tstr ")\x7d]" = false) →
    stripClosersGo true ts i 0 = (firstCommaIdx ts).map (i + ·) ∧
    stripClosersGo false ts i 0 = none := by
  intro ts
  induction ts with
  | nil => intro i _; exact ⟨rfl, rfl⟩
  | cons t rest ih =>
    intro i hb
    have hbt := hb t (by simp)
    have hrest := fun u hu => hb u (List.mem_cons_of_mem t hu)
    constructor
    · simp only [stripClosersGo, hbt.1, hbt.2, Bool.false_eq_true, if_false,
        beq_self_eq_true, Bool.true_and, Bool.and_true, firstCommaIdx]
      by_cases hc : t.tstr == ","
      · rw [if_pos hc, if_pos hc]
        show some i = some (i + 0)
        rw [Nat.add_zero]
      · rw [if_neg hc, if_neg hc, if_neg (by omega : ¬ ((0 : Int) < 0))]
        rw [(ih (i + 1) hrest).1]
        cases firstCommaIdx rest with
        | none => rfl
        | some j =>
          show some (i + 1 + j) = some (i + (j + 1))
          rw [Nat.add_right_comm i 1 j, Nat.add_assoc]
    · simp only [stripClosersGo, hbt.1, hbt.2, Bool.false_eq_true, if_false,
        beq_self_eq_true, Bool.true_and, Bool.and_false]
      rw [if_neg (by omega : ¬ ((0 : Int) < 0))]
      exact (ih (i + 1) hrest).2

/-- C5 (amended): `_strip_trailing_extra_closers` cuts a non-tuple
expression window at the first naked level-zero comma — on a bracket-free
window the kept prefix is exactly the tokens before the first comma — and
for tuples (`remove_naked_comma = False`) it keeps commas and cuts
nothing; `_set_real_end` passes the tuple exception only to this pass, so
the subsequent trailing-junk strip still removes a bare trailing comma.
Concretely, on `f(1, 2,)` the second argument's marked range ends at
`(1,6)` (the text `2`), excluding everything after the comma, and on
`(1, 2,)` the tuple's marked range ends at `(1,5)` (the text `1, 2`),
excluding its own trailing comma. -/
theorem C5_amended :
    (∀ (ts : List Tok),
      (∀ t ∈ ts, pyInStr t.tstr "(\x7b[" = false ∧
        pyInStr t.tstr ")\x7d]" = false) →
      (_strip_trailing_extra_closers ts true =
        (match firstCommaIdx ts with
          | some j => ts.take j
          | none => ts)) ∧
      _strip_trailing_extra_closers ts false = ts) ∧
    (∀ (n : PyNode) (ts : List Tok), n.isStmtKind = false →
      stripPhase n ts =
        _strip_trailing_junk_from_expressions (_strip_unclosed_brackets
          (_strip_trailing_extra_closers ts (!n.isTupleKind)))) ∧
    (mark_text_ranges treeCallC "f(1, 2,)" (.ok toksCallC) = .ok markedCallC ∧
      endOf (num (1,5) (some (1,6)) "2") = some (1,6) ∧
      extract_text_range "f(1, 2,)" ⟨1, 5, 1, 6⟩ = "2" ∧
      posLt (1,6) (1,7) = true) ∧
    (mark_text_ranges treeTup "(1, 2,)" (.ok toksTup) = .ok markedTup ∧
      endOf (tupleE (1,1) (some (1,5)) [num (1,1) (some (1,2)) "1",
        num (1,4) (some (1,5)) "2"]) = some (1,5) ∧
      extract_text_range "(1, 2,)" ⟨1, 1, 1, 5⟩ = "1, 2") := by
  refine ⟨?_, ?_, ⟨mark_run_callc, rfl, rfl, rfl⟩, ⟨mark_run_tup, rfl, rfl⟩⟩
  · intro ts hb
    have hgo := stripClosersGo_nb ts 0 hb
    constructor
    · rcases hfc : firstCommaIdx ts with _ | j
      · have h2 : stripClosersGo true ts 0 0 = none := by
          rw [hgo.1, hfc]
          rfl
        unfold _strip_trailing_extra_closers
        rw [h2]
      · have h2 : stripClosersGo true ts 0 0 = some j := by
          rw [hgo.1, hfc]
          show some (0 + j) = some j
          rw [Nat.zero_add]
        unfold _strip_trailing_extra_closers
        rw [h2]
    · unfold _strip_trailing_extra_closers
      rw [hgo.2]
  · intro n ts hst
    unfold stripPhase
    rw [if_neg (by rw [hst]; exact Bool.false_ne_true)]

/-! ### C4 (amended): the corrector is idempotent on ASCII, string-free
trees -/

theorem compare_pos_iff (a b : Pos) :
    compare_node_positions a b > 0 ↔ posLt b a = true := by
  rcases a with ⟨a1, a2⟩
  rcases b with ⟨b1, b2⟩
  simp only [compare_node_positions, posLt, Bool.or_eq_true, Bool.and_eq_true,
    beq_iff_eq, decide_eq_true_eq]
  split_ifs with h1 h2 h3 h4 <;> simp_all <;> omega

theorem decodePrefixLen_ascii : ∀ (line : List Char) (n : Nat),
    (∀ c ∈ line, utf8Width c = 1) →
    decodePrefixLen line n = some (min n line.length) := by
  intro line
  induction line with
  | nil =>
    intro n _
    cases n <;> simp [decodePrefixLen]
  | cons c cs ih =>
    intro n h
    cases n with
    | zero => simp [decodePrefixLen]
    | succ m =>
      have hc : utf8Width c = 1 := h c (by simp)
      simp only [decodePrefixLen, hc]
      rw [if_pos (by omega)]
      rw [show m + 1 - 1 = m from rfl]
      rw [ih m (fun c2 hc2 => h c2 (by simp [hc2]))]
      show some (min m cs.length + 1) = some (min (m + 1) (c :: cs).length)
      refine congrArg some ?_
      simp only [List.length_cons]
      omega

theorem setStart_self (n : PyNode) : n.setStart n.startP = n := by
  cases n <;> rfl

theorem set_getElem_self {l : List PyNode} {i : Nat} {a : PyNode}
    (h : l[i]? = some a) : l.set i a = l := by
  apply List.ext_getElem?
  intro j
  by_cases hj : j = i
  · subst hj
    rw [List.getElem?_set_eq (getElem?_some_lt h), h]
  · exact List.getElem?_set_ne (fun h2 => hj h2.symm)

theorem applyUpd_id : ∀ (upd : List (Nat × PyNode)) (slots : List PyNode),
    (∀ i s, (i, s) ∈ upd → slots[i]? = some s) → applyUpd slots upd = slots := by
  intro upd
  induction upd with
  | nil => intro slots _; rfl
  | cons p rest ih =>
    intro slots h
    obtain ⟨i, s⟩ := p
    rw [applyUpd_cons, set_getElem_self (h i s (by simp))]
    exact ih slots (fun i2 s2 hm => h i2 s2 (by simp [hm]))

theorem zipWith_withKw_self : ∀ (kws : List PyNode),
    (∀ k ∈ kws, ∃ a rng v, k = kwNode a rng v) →
    kws.zipWith withKwValue (kws.map kwValueOf) = kws := by
  intro kws
  induction kws with
  | nil => intro _; rfl
  | cons k ks ih =>
    intro h
    obtain ⟨a, rng, v, rfl⟩ := h k (by simp)
    simp only [List.map_cons, List.zipWith_cons_cons]
    rw [ih (fun k2 hk2 => h k2 (by simp [hk2]))]
    rfl

/-- Putting a node's own slots back leaves it unchanged (given the dict
and call shape conditions). -/
theorem setSlots_self (n : PyNode)
    (hbal : ∀ p e keys vals, n = dictE p e keys vals → keys.length = vals.length)
    (hkw : ∀ p e f args kws star dstar, n = call p e f args kws star dstar →
      ∀ k ∈ kws, ∃ a rng v, k = kwNode a rng v) :
    n.setSlots n.rawSlots = n := by
  cases n with
  | module body => rfl
  | exprStmt p e v => rfl
  | name p e i => rfl
  | num p e l => rfl
  | strE p e l => rfl
  | tupleE p e elts => rfl
  | binOp p e l r => rfl
  | attributeE p e v at2 => rfl
  | subscriptE p e v sl => rfl
  | kwNode a rng v => rfl
  | dictE p e keys vals =>
    have hb : keys.length = vals.length := hbal p e keys vals rfl
    have hmin : min keys.length vals.length = keys.length := by omega
    have hset : (dictE p e keys vals).setSlots (interleave keys vals) =
        dictE p e
          ((List.range keys.length).map
            (fun i => (interleave keys vals).getD (2*i) (name (0,0) none "")))
          ((List.range keys.length).map
            (fun i => (interleave keys vals).getD (2*i+1) (name (0,0) none ""))) := by
      show dictE p e
          ((List.range (min keys.length vals.length)).map
            (fun i => (interleave keys vals).getD (2*i) (name (0,0) none "")))
          ((List.range (min keys.length vals.length)).map
            (fun i => (interleave keys vals).getD (2*i+1) (name (0,0) none ""))) = _
      rw [hmin]
    show (dictE p e keys vals).setSlots (interleave keys vals) = dictE p e keys vals
    rw [hset]
    have hileft : ∀ i : Nat, i < keys.length →
        (interleave keys vals).getD (2*i) (name (0,0) none "") = keys.getD i
          (name (0,0) none "") := by
      intro i hi
      rw [List.getD_eq_getElem?_getD, List.getD_eq_getElem?_getD,
        (interleave_get keys vals hb i hi).1]
    have hiright : ∀ i : Nat, i < keys.length →
        (interleave keys vals).getD (2*i+1) (name (0,0) none "") = vals.getD i
          (name (0,0) none "") := by
      intro i hi
      rw [List.getD_eq_getElem?_getD, List.getD_eq_getElem?_getD,
        (interleave_get keys vals hb i hi).2]
    have hkeys : (List.range keys.length).map
        (fun i => (interleave keys vals).getD (2*i) (name (0,0) none "")) = keys := by
      apply List.ext_getElem?
      intro j
      by_cases hj : j < keys.length
      · rw [range_map_getElem _ _ _ hj, hileft j hj,
          List.getD_eq_getElem?_getD, List.getElem?_eq_getElem hj]
        rfl
      · rw [List.getElem?_eq_none (le_of_not_lt (by simp; omega)),
          List.getElem?_eq_none (le_of_not_lt hj)]
    have hvals : (List.range keys.length).map
        (fun i => (interleave keys vals).getD (2*i+1) (name (0,0) none "")) =
        vals := by
      apply List.ext_getElem?
      intro j
      by_cases hj : j < keys.length
      · rw [range_map_getElem _ _ _ hj, hiright j hj,
          List.getD_eq_getElem?_getD, List.getElem?_eq_getElem (by omega)]
        rfl
      · rw [List.getElem?_eq_none (le_of_not_lt (by simp; omega)),
          List.getElem?_eq_none (le_of_not_lt (by omega))]
    rw [hkeys, hvals]
  | call p e f args kws star dstar =>
    have hsh := hkw p e f args kws star dstar rfl
    have hre : args ++ kws.map kwValueOf ++ star ++ dstar =
        args ++ (kws.map kwValueOf ++ (star ++ dstar)) := by
      rw [List.append_assoc, List.append_assoc]
    have e1 : (args ++ kws.map kwValueOf ++ star ++ dstar).take args.length =
        args := by
      rw [hre]
      exact List.take_left args _
    have e2 : ((args ++ kws.map kwValueOf ++ star ++ dstar).drop
        args.length).take kws.length = kws.map kwValueOf := by
      rw [hre, List.drop_left]
      have := List.take_left (kws.map kwValueOf) (star ++ dstar)
      rwa [List.length_map] at this
    have e3 : (args ++ kws.map kwValueOf ++ star ++ dstar).drop
        (args.length + kws.length) = star ++ dstar := by
      rw [← List.drop_drop, hre, List.drop_left]
      have := List.drop_left (kws.map kwValueOf) (star ++ dstar)
      rwa [List.length_map] at this
    have e4 : (args ++ kws.map kwValueOf ++ star ++ dstar).drop
        (args.length + kws.length + star.length) = dstar := by
      rw [← List.drop_drop, e3]
      exact List.drop_left star dstar
    have e5 : ((args ++ kws.map kwValueOf ++ star ++ dstar).drop
        (args.length + kws.length)).take star.length = star := by
      rw [e3]
      exact List.take_left star dstar
    show call p e f
        ((args ++ kws.map kwValueOf ++ star ++ dstar).take args.length)
        (kws.zipWith withKwValue
          (((args ++ kws.map kwValueOf ++ star ++ dstar).drop
            args.length).take kws.length))
        (((args ++ kws.map kwValueOf ++ star ++ dstar).drop
          (args.length + kws.length)).take star.length)
        ((args ++ kws.map kwValueOf ++ star ++ dstar).drop
          (args.length + kws.length + star.length)) =
      call p e f args kws star dstar
    rw [e1, e2, e5, e4, zipWith_withKw_self kws hsh]

/-- Input conditions for the corrector: no string-literal nodes, balanced
dict literals, genuine keyword nodes in call keyword lists, and every
visited slot natively positioned. -/
def PreInv (m : PyNode) : Prop :=
  ∀ d, SubNode m d →
    d.isStrKind = false ∧
    (∀ p e keys vals, d = dictE p e keys vals → keys.length = vals.length) ∧
    (∀ p e f args kws star dstar, d = call p e f args kws star dstar →
      ∀ k ∈ kws, ∃ a rng v, k = kwNode a rng v) ∧
    (∀ s ∈ d.rawSlots, s.positionedKind = true)

/-- The per-node part of the corrected form: the node is not a string
literal, its position lies inside its source line, its dict literals are
balanced, its keyword lists hold genuine keyword nodes, its slots are
natively positioned, and the rule-3/4/5 orderings already hold. -/
def FixLocal (lines : List (List Char)) (d : PyNode) : Prop :=
  d.isStrKind = false ∧
  (d.positionedKind = true → ∃ line, lines[d.startP.1 - 1]? = some line ∧
    d.startP.2 ≤ line.length) ∧
  (∀ p e keys vals, d = dictE p e keys vals → keys.length = vals.length) ∧
  (∀ p e f args kws star dstar, d = call p e f args kws star dstar →
    (∀ k ∈ kws, ∃ a rng v, k = kwNode a rng v) ∧ posLe p f.startP = true) ∧
  (∀ s ∈ d.rawSlots, s.positionedKind = true) ∧
  (∀ p e l r, d = binOp p e l r → posLe p l.startP = true) ∧
  (∀ p e v a, d = attributeE p e v a → posLe p v.startP = true) ∧
  (∀ p e v sl, d = subscriptE p e v sl → posLe p v.startP = true)

/-- The corrected form: every node of the tree is in `FixLocal` form, so
no rule of `fix_node` can fire again anywhere. -/
def FixInv (lines : List (List Char)) (m : PyNode) : Prop :=
  ∀ d, SubNode m d → FixLocal lines d

theorem PreInv.hereditary {m c : PyNode} (h : PreInv m) (hc : SubNode m c) : PreInv c :=
  fun d hd => h d (hc.trans hd)

theorem FixInv.inherited {lines : List (List Char)} {m c : PyNode} (h : FixInv lines m)
    (hc : SubNode m c) : FixInv lines c :=
  fun d hd => h d (hc.trans hd)

theorem decodeColOf_fixed {lines : List (List Char)} {n : PyNode}
    (hascii : ∀ l ∈ lines, ∀ c ∈ l, utf8Width c = 1)
    (hin : n.positionedKind = true → ∃ line, lines[n.startP.1 - 1]? = some line ∧
      n.startP.2 ≤ line.length) :
    decodeColOf lines n = .ok n := by
  unfold decodeColOf
  by_cases hp : n.positionedKind = true
  · rw [if_pos hp]
    obtain ⟨line, hl, hc⟩ := hin hp
    have hdec := decodePrefixLen_ascii line n.startP.2
      (hascii line (List.getElem?_mem hl))
    simp only [hl, hdec]
    rw [show min n.startP.2 line.length = n.startP.2 by omega]
    rw [show (n.startP.1, n.startP.2) = n.startP from rfl]
    rw [setStart_self]
  · rw [if_neg hp]

/-- On a node in corrected form, the rule chain is the identity. -/
theorem fixSelf_fixed {lines : List (List Char)} {q : List Tok} {n : PyNode}
    (hascii : ∀ l ∈ lines, ∀ c ∈ l, utf8Width c = 1)
    (hinv : FixInv lines n) :
    fixSelf lines q n = .ok (n, q) := by
  have hloc := hinv n (SubNode.refl n)
  have hdec : decodeColOf lines n = .ok n := decodeColOf_fixed hascii hloc.2.1
  cases n with
  | strE p e l => exact absurd hloc.1 (by simp [isStrKind])
  | exprStmt p e v =>
    have hv : v.isStrKind = false :=
      (hinv v (SubNode.step (by simp [iterChildNodes]) (SubNode.refl v))).1
    show (if v.isStrKind = true then _ else
      (decodeColOf lines (exprStmt p e v)).map (·, q)) = _
    rw [if_neg (by rw [hv]; exact Bool.false_ne_true), hdec]
    rfl
  | attributeE p e v a =>
    have hv : v.isStrKind = false :=
      (hinv v (SubNode.step (by simp [iterChildNodes]) (SubNode.refl v))).1
    have hle := hloc.2.2.2.2.2.2.1 p e v a rfl
    show (if v.isStrKind = true then _
      else if compare_node_positions p v.startP > 0 then _
      else (decodeColOf lines (attributeE p e v a)).map (·, q)) = _
    rw [if_neg (by rw [hv]; exact Bool.false_ne_true),
      if_neg (fun hgt => posLt_iff_not_le.mp ((compare_pos_iff _ _).mp hgt) hle),
      hdec]
    rfl
  | binOp p e l r =>
    have hle := hloc.2.2.2.2.2.1 p e l r rfl
    show (if compare_node_positions p l.startP > 0 then _
      else (decodeColOf lines (binOp p e l r)).map (·, q)) = _
    rw [if_neg (fun hgt => posLt_iff_not_le.mp ((compare_pos_iff _ _).mp hgt) hle),
      hdec]
    rfl
  | call p e f args kws star dstar =>
    have hle := (hloc.2.2.2.1 p e f args kws star dstar rfl).2
    show (if compare_node_positions p f.startP > 0 then _
      else (decodeColOf lines (call p e f args kws star dstar)).map (·, q)) = _
    rw [if_neg (fun hgt => posLt_iff_not_le.mp ((compare_pos_iff _ _).mp hgt) hle),
      hdec]
    rfl
  | subscriptE p e v sl =>
    have hle := hloc.2.2.2.2.2.2.2 p e v sl rfl
    show (if compare_node_positions p v.startP > 0 then _
      else (decodeColOf lines (subscriptE p e v sl)).map (·, q)) = _
    rw [if_neg (fun hgt => posLt_iff_not_le.mp ((compare_pos_iff _ _).mp hgt) hle),
      hdec]
    rfl
  | module body =>
    show (decodeColOf lines (module body)).map (·, q) = _
    rw [hdec]
    rfl
  | name p e i =>
    show (decodeColOf lines (name p e i)).map (·, q) = _
    rw [hdec]
    rfl
  | num p e l =>
    show (decodeColOf lines (num p e l)).map (·, q) = _
    rw [hdec]
    rfl
  | tupleE p e elts =>
    show (decodeColOf lines (tupleE p e elts)).map (·, q) = _
    rw [hdec]
    rfl
  | dictE p e keys vals =>
    show (decodeColOf lines (dictE p e keys vals)).map (·, q) = _
    rw [hdec]
    rfl
  | kwNode a rng v =>
    show (decodeColOf lines (kwNode a rng v)).map (·, q) = _
    rw [hdec]
    rfl

mutual
/-- A tree in corrected form is a fixed point of `fix_node`. -/
theorem fixNodeF_fixed : ∀ (f : Nat) (lines : List (List Char)) (q : List Tok)
    (n : PyNode),
    (∀ l ∈ lines, ∀ c ∈ l, utf8Width c = 1) → FixInv lines n → nsize n < f →
    fixNodeF f lines q n = .ok (n, q)
  | 0, _, _, n => by
    intro _ _ hf
    omega
  | f + 1, lines, q, n => by
    intro hascii hinv hf
    have hsz : plsize (ordPairs n) < f := by
      have h1 := plsize_ordPairs n
      have h2 := lsize_rawSlots_lt n
      omega
    have hpairs := fixPairsF_fixed f lines q (ordPairs n) hascii
      (fun i s hm => FixInv.inherited hinv (SubNode.of_slot (ordPairs_slot_mem hm))) hsz
    show (match fixPairsF f lines (ordPairs n) q with
      | .error e => (.error e : Except Err (PyNode × List Tok))
      | .ok (upd, q1) => fixSelf lines q1 (n.setSlots (applyUpd n.rawSlots upd))) =
      .ok (n, q)
    rw [hpairs]
    have hid : applyUpd n.rawSlots (ordPairs n) = n.rawSlots :=
      applyUpd_id (ordPairs n) n.rawSlots (fun i s hm => ordPairs_mem hm)
    show fixSelf lines q (n.setSlots (applyUpd n.rawSlots (ordPairs n))) = .ok (n, q)
    rw [hid]
    have hloc := hinv n (SubNode.refl n)
    rw [setSlots_self n (fun p e keys vals heq => hloc.2.2.1 p e keys vals heq)
      (fun p e f2 args kws star dstar heq =>
        (hloc.2.2.2.1 p e f2 args kws star dstar heq).1)]
    exact fixSelf_fixed hascii hinv
theorem fixPairsF_fixed : ∀ (f : Nat) (lines : List (List Char)) (q : List Tok)
    (pairs : List (Nat × PyNode)),
    (∀ l ∈ lines, ∀ c ∈ l, utf8Width c = 1) →
    (∀ (i : Nat) (s : PyNode), (i, s) ∈ pairs → FixInv lines s) →
    plsize pairs < f →
    fixPairsF f lines pairs q = .ok (pairs, q)
  | 0, _, _, pairs => by
    intro _ _ hf
    have := plsize pairs
    omega
  | f + 1, lines, q, [] => by
    intro _ _ _
    rfl
  | f + 1, lines, q, (i, s) :: rest => by
    intro hascii hinv hf
    have hs : nsize s < f := by
      have : plsize ((i, s) :: rest) = 1 + nsize s + plsize rest := rfl
      omega
    have hr : plsize rest < f := by
      have : plsize ((i, s) :: rest) = 1 + nsize s + plsize rest := rfl
      omega
    show (match fixNodeF f lines q s with
      | .error e => (.error e : Except Err (List (Nat × PyNode) × List Tok))
      | .ok (s1, q1) =>
        match fixPairsF f lines rest q1 with
        | .error e => .error e
        | .ok (upd, q2) => .ok ((i, s1) :: upd, q2)) = .ok ((i, s) :: rest, q)
    rw [fixNodeF_fixed f lines q s hascii (hinv i s (by simp)) hs]
    show (match fixPairsF f lines rest q with
      | .error e => (.error e : Except Err (List (Nat × PyNode) × List Tok))
      | .ok (upd, q2) => .ok ((i, s) :: upd, q2)) = .ok ((i, s) :: rest, q)
    rw [fixPairsF_fixed f lines q rest hascii
      (fun i2 s2 hm => hinv i2 s2 (by simp [hm])) hr]
end

theorem posLe_min_self (a b c : Nat) : posLe (a, min b c) (a, b) = true := by
  simp only [posLe, Bool.or_eq_true, decide_eq_true_eq, Bool.and_eq_true, beq_iff_eq]
  exact Or.inr ⟨trivial, Nat.min_le_left b c⟩

theorem posLe_of_not_gt {a b : Pos} (h : ¬ compare_node_positions a b > 0) :
    posLe a b = true := by
  by_contra h2
  exact h ((compare_pos_iff a b).mpr (posLt_iff_not_le.mpr h2))

/-- A successful byte-prefix decode over ASCII lines truncates the column
to the line length and changes nothing else. -/
theorem decodeColOf_ok {lines : List (List Char)} {n n1 : PyNode}
    (hascii : ∀ l ∈ lines, ∀ c ∈ l, utf8Width c = 1)
    (h : decodeColOf lines n = .ok n1)
    (hp : n.positionedKind = true) :
    ∃ line, lines[n.startP.1 - 1]? = some line ∧
      n1 = n.setStart (n.startP.1, min n.startP.2 line.length) := by
  unfold decodeColOf at h
  rw [if_pos hp] at h
  cases hl : lines[n.startP.1 - 1]? with
  | none => rw [hl] at h; cases h
  | some line =>
    rw [hl] at h
    have h2 : (match decodePrefixLen line n.startP.2 with
      | none => (Except.error Err.decodeError : Except Err PyNode)
      | some c => Except.ok (n.setStart (n.startP.1, c))) = .ok n1 := h
    rw [decodePrefixLen_ascii line _ (hascii line (List.getElem?_mem hl))] at h2
    have h3 : (Except.ok (n.setStart (n.startP.1, min n.startP.2 line.length)) :
      Except Err PyNode) = .ok n1 := h2
    injection h3 with h4
    exact ⟨line, rfl, h4.symm⟩

theorem mem_zipWith_withKw {kws kvs : List PyNode} {c : PyNode}
    (hsh : ∀ k ∈ kws, ∃ a rng v, k = kwNode a rng v)
    (hc : c ∈ kws.zipWith withKwValue kvs) :
    ∃ a rng v, c = kwNode a rng v ∧ v ∈ kvs := by
  obtain ⟨i, hi⟩ := List.mem_iff_getElem?.mp hc
  rw [List.getElem?_zipWith] at hi
  cases hk : kws[i]? with
  | none => rw [hk] at hi; cases hi
  | some k =>
    cases hv : kvs[i]? with
    | none => rw [hk, hv] at hi; cases hi
    | some v =>
      rw [hk, hv] at hi
      obtain ⟨a, rng, w, hkk⟩ := hsh k (List.getElem?_mem hk)
      subst hkk
      injection hi with hi2
      exact ⟨a, rng, v, hi2.symm, List.getElem?_mem hv⟩

/-- A keyword wrapper around a corrected positioned value is itself in
corrected form. -/
theorem FixInv_kwNode {lines : List (List Char)} {a : String} {rng : Option (Pos × Pos)}
    {v : PyNode} (hv : FixInv lines v) (hp : v.positionedKind = true) :
    FixInv lines (kwNode a rng v) := by
  intro d hd
  rcases subnode_cases hd with rfl | ⟨c, hc, hsub⟩
  · refine ⟨rfl, fun h => Bool.noConfusion h, fun _ _ _ _ h => PyNode.noConfusion h,
      fun _ _ _ _ _ _ _ h => PyNode.noConfusion h, ?_, fun _ _ _ _ h => PyNode.noConfusion h,
      fun _ _ _ _ h => PyNode.noConfusion h, fun _ _ _ _ h => PyNode.noConfusion h⟩
    intro s hs
    have hsv : s = v := List.mem_singleton.mp hs
    rw [hsv]
    exact hp
  · have hcv : c = v := List.mem_singleton.mp hc
    rw [hcv] at hsub
    exact hv d hsub

theorem setSlots_dict_eq (p : Pos) (e : Option Pos) (keys vals ss : List PyNode)
    (hlen : ss.length = (dictE p e keys vals).rawSlots.length)
    (hbal : keys.length = vals.length) :
    ∃ K V, setSlots (dictE p e keys vals) ss = dictE p e K V ∧
      K.length = V.length ∧ interleave K V = ss := by
  refine ⟨_, _, rfl, by simp, ?_⟩
  have hr := rawSlots_setSlots (dictE p e keys vals) ss hlen
    (fun p2 e2 k2 v2 heq => by
      injection heq with h1 h2 h3 h4
      subst h3; subst h4
      exact hbal)
    (fun _ _ _ _ _ _ _ heq => PyNode.noConfusion heq)
  exact hr

set_option maxHeartbeats 2000000 in
mutual
-- A successful first run of `fix_node` on an input satisfying `PreInv`
-- over ASCII source lines produces a tree in corrected (`FixInv`) form,
-- preserving the positioned-kind flag of the root.
theorem fixNodeF_estab : ∀ (f : Nat) (lines : List (List Char)) (q : List Tok)
    (n n1 : PyNode) (qout : List Tok),
    (∀ l ∈ lines, ∀ c ∈ l, utf8Width c = 1) → PreInv n →
    fixNodeF f lines q n = .ok (n1, qout) →
    FixInv lines n1 ∧ n1.positionedKind = n.positionedKind
  | 0, lines, q, n, n1, qout => by
    intro _ _ heq
    cases heq
  | f + 1, lines, q, n, n1, qout => by
    intro hascii hpre heq
    have heq2 : (match fixPairsF f lines (ordPairs n) q with
      | .error e => (.error e : Except Err (PyNode × List Tok))
      | .ok (upd, q1) =>
        fixSelf lines q1 (n.setSlots (applyUpd n.rawSlots upd))) =
        .ok (n1, qout) := heq
    cases hps : fixPairsF f lines (ordPairs n) q with
    | error e =>
      rw [hps] at heq2
      have heq3 : (Except.error e : Except Err (PyNode × List Tok)) =
        .ok (n1, qout) := heq2
      cases heq3
    | ok r =>
      obtain ⟨upd, q1⟩ := r
      rw [hps] at heq2
      have heq3 : fixSelf lines q1 (n.setSlots (applyUpd n.rawSlots upd)) =
        .ok (n1, qout) := heq2
      obtain ⟨hfst, hpt⟩ := fixPairsF_estab f lines q (ordPairs n) upd q1 hascii
        (fun i s hm => PreInv.hereditary hpre (SubNode.of_slot (ordPairs_slot_mem hm))) hps
      have hnodup : (upd.map Prod.fst).Nodup := by
        rw [hfst]
        exact ordPairs_fst_nodup n
      have hlen : (applyUpd n.rawSlots upd).length = n.rawSlots.length :=
        applyUpd_length upd n.rawSlots
      have hM : ∀ s1 ∈ applyUpd n.rawSlots upd,
          FixInv lines s1 ∧ s1.positionedKind = true := by
        intro s1 hs1
        obtain ⟨j, hj⟩ := List.mem_iff_getElem?.mp hs1
        have hjlt : j < n.rawSlots.length := by
          have h2 := getElem?_some_lt hj
          rwa [applyUpd_length] at h2
        obtain ⟨s0, hmem, hjs0⟩ := ordPairs_complete hjlt
        obtain ⟨s1x, hup, hfix, hkind⟩ := hpt j s0 hmem
        have hj2 : (applyUpd n.rawSlots upd)[j]? = some s1x :=
          applyUpd_getElem_mem upd n.rawSlots j s1x hnodup hup hjlt
        rw [hj] at hj2
        injection hj2 with hj3
        subst hj3
        refine ⟨hfix, ?_⟩
        rw [hkind]
        exact (hpre n (SubNode.refl n)).2.2.2 s0 (List.getElem?_mem hjs0)
      clear heq heq2 hps hpt hfst
      cases n with
      | module body =>
        have heq4 : (Except.ok
            (PyNode.module (applyUpd (PyNode.module body).rawSlots upd), q1) :
            Except Err (PyNode × List Tok)) = .ok (n1, qout) := heq3
        injection heq4 with hp2
        injection hp2 with hn1 hq
        subst hn1
        refine ⟨?_, rfl⟩
        intro d hd
        rcases subnode_cases hd with rfl | ⟨c, hc, hsub⟩
        · refine ⟨rfl, fun h => Bool.noConfusion h,
            fun _ _ _ _ h => PyNode.noConfusion h,
            fun _ _ _ _ _ _ _ h => PyNode.noConfusion h, ?_,
            fun _ _ _ _ h => PyNode.noConfusion h,
            fun _ _ _ _ h => PyNode.noConfusion h,
            fun _ _ _ _ h => PyNode.noConfusion h⟩
          intro s2 hs2
          exact (hM s2 hs2).2
        · exact (hM c hc).1 d hsub
      | name p e i =>
        have heq4 : ((decodeColOf lines (PyNode.name p e i)).map (·, q1) :
            Except Err (PyNode × List Tok)) = .ok (n1, qout) := heq3
        cases hdc : decodeColOf lines (PyNode.name p e i) with
        | error e2 =>
          rw [hdc] at heq4
          have heq5 : (Except.error e2 : Except Err (PyNode × List Tok)) =
            .ok (n1, qout) := heq4
          cases heq5
        | ok nd =>
          rw [hdc] at heq4
          have heq5 : (Except.ok (nd, q1) : Except Err (PyNode × List Tok)) =
            .ok (n1, qout) := heq4
          injection heq5 with hp2
          injection hp2 with hn1 hq
          obtain ⟨line, hline, hnd⟩ := decodeColOf_ok hascii hdc rfl
          have hnd2 : nd = PyNode.name (p.1, min p.2 line.length) e i := hnd
          subst hn1
          rw [hnd2]
          refine ⟨?_, rfl⟩
          intro d hd
          rcases subnode_cases hd with rfl | ⟨c, hc, hsub⟩
          · exact ⟨rfl, fun _ => ⟨line, hline, Nat.min_le_right _ _⟩,
              fun _ _ _ _ h => PyNode.noConfusion h,
              fun _ _ _ _ _ _ _ h => PyNode.noConfusion h,
              fun s2 hs2 => absurd hs2 (List.not_mem_nil s2),
              fun _ _ _ _ h => PyNode.noConfusion h,
              fun _ _ _ _ h => PyNode.noConfusion h,
              fun _ _ _ _ h => PyNode.noConfusion h⟩
          · exact absurd hc (List.not_mem_nil c)
      | num p e l =>
        have heq4 : ((decodeColOf lines (PyNode.num p e l)).map (·, q1) :
            Except Err (PyNode × List Tok)) = .ok (n1, qout) := heq3
        cases hdc : decodeColOf lines (PyNode.num p e l) with
        | error e2 =>
          rw [hdc] at heq4
          have heq5 : (Except.error e2 : Except Err (PyNode × List Tok)) =
            .ok (n1, qout) := heq4
          cases heq5
        | ok nd =>
          rw [hdc] at heq4
          have heq5 : (Except.ok (nd, q1) : Except Err (PyNode × List Tok)) =
            .ok (n1, qout) := heq4
          injection heq5 with hp2
          injection hp2 with hn1 hq
          obtain ⟨line, hline, hnd⟩ := decodeColOf_ok hascii hdc rfl
          have hnd2 : nd = PyNode.num (p.1, min p.2 line.length) e l := hnd
          subst hn1
          rw [hnd2]
          refine ⟨?_, rfl⟩
          intro d hd
          rcases subnode_cases hd with rfl | ⟨c, hc, hsub⟩
          · exact ⟨rfl, fun _ => ⟨line, hline, Nat.min_le_right _ _⟩,
              fun _ _ _ _ h => PyNode.noConfusion h,
              fun _ _ _ _ _ _ _ h => PyNode.noConfusion h,
              fun s2 hs2 => absurd hs2 (List.not_mem_nil s2),
              fun _ _ _ _ h => PyNode.noConfusion h,
              fun _ _ _ _ h => PyNode.noConfusion h,
              fun _ _ _ _ h => PyNode.noConfusion h⟩
          · exact absurd hc (List.not_mem_nil c)
      | strE p e l =>
        exact absurd (hpre (PyNode.strE p e l) (SubNode.refl _)).1 (by simp [isStrKind])
      | exprStmt p e v =>
        obtain ⟨v1, hss⟩ := List.length_eq_one.mp
          (show (applyUpd (PyNode.exprStmt p e v).rawSlots upd).length = 1 from hlen)
        rw [hss] at heq3
        have hv1 := hM v1 (by rw [hss]; exact List.mem_singleton_self v1)
        have hstr : v1.isStrKind = false := (hv1.1 v1 (SubNode.refl v1)).1
        have heq4 : (if v1.isStrKind = true then
            Except.ok (PyNode.exprStmt v1.startP e v1, q1)
          else (decodeColOf lines (PyNode.exprStmt p e v1)).map (·, q1)) =
            .ok (n1, qout) := heq3
        rw [if_neg (by rw [hstr]; exact Bool.false_ne_true)] at heq4
        cases hdc : decodeColOf lines (PyNode.exprStmt p e v1) with
        | error e2 =>
          rw [hdc] at heq4
          have heq5 : (Except.error e2 : Except Err (PyNode × List Tok)) =
            .ok (n1, qout) := heq4
          cases heq5
        | ok nd =>
          rw [hdc] at heq4
          have heq5 : (Except.ok (nd, q1) : Except Err (PyNode × List Tok)) =
            .ok (n1, qout) := heq4
          injection heq5 with hp2
          injection hp2 with hn1 hq
          obtain ⟨line, hline, hnd⟩ := decodeColOf_ok hascii hdc rfl
          have hnd2 : nd = PyNode.exprStmt (p.1, min p.2 line.length) e v1 := hnd
          subst hn1
          rw [hnd2]
          refine ⟨?_, rfl⟩
          intro d hd
          rcases subnode_cases hd with rfl | ⟨c, hc, hsub⟩
          · refine ⟨rfl, fun _ => ⟨line, hline, Nat.min_le_right _ _⟩,
              fun _ _ _ _ h => PyNode.noConfusion h,
              fun _ _ _ _ _ _ _ h => PyNode.noConfusion h, ?_,
              fun _ _ _ _ h => PyNode.noConfusion h,
              fun _ _ _ _ h => PyNode.noConfusion h,
              fun _ _ _ _ h => PyNode.noConfusion h⟩
            intro s2 hs2
            have hs3 : s2 = v1 := List.mem_singleton.mp hs2
            rw [hs3]
            exact hv1.2
          · have hc3 : c = v1 := List.mem_singleton.mp hc
            rw [hc3] at hsub
            exact hv1.1 d hsub
      | tupleE p e elts =>
        have heq4 : ((decodeColOf lines (PyNode.tupleE p e
            (applyUpd (PyNode.tupleE p e elts).rawSlots upd))).map (·, q1) :
            Except Err (PyNode × List Tok)) = .ok (n1, qout) := heq3
        cases hdc : decodeColOf lines (PyNode.tupleE p e
            (applyUpd (PyNode.tupleE p e elts).rawSlots upd)) with
        | error e2 =>
          rw [hdc] at heq4
          have heq5 : (Except.error e2 : Except Err (PyNode × List Tok)) =
            .ok (n1, qout) := heq4
          cases heq5
        | ok nd =>
          rw [hdc] at heq4
          have heq5 : (Except.ok (nd, q1) : Except Err (PyNode × List Tok)) =
            .ok (n1, qout) := heq4
          injection heq5 with hp2
          injection hp2 with hn1 hq
          obtain ⟨line, hline, hnd⟩ := decodeColOf_ok hascii hdc rfl
          have hnd2 : nd = PyNode.tupleE (p.1, min p.2 line.length) e
            (applyUpd (PyNode.tupleE p e elts).rawSlots upd) := hnd
          subst hn1
          rw [hnd2]
          refine ⟨?_, rfl⟩
          intro d hd
          rcases subnode_cases hd with rfl | ⟨c, hc, hsub⟩
          · refine ⟨rfl, fun _ => ⟨line, hline, Nat.min_le_right _ _⟩,
              fun _ _ _ _ h => PyNode.noConfusion h,
              fun _ _ _ _ _ _ _ h => PyNode.noConfusion h, ?_,
              fun _ _ _ _ h => PyNode.noConfusion h,
              fun _ _ _ _ h => PyNode.noConfusion h,
              fun _ _ _ _ h => PyNode.noConfusion h⟩
            intro s2 hs2
            exact (hM s2 hs2).2
          · exact (hM c hc).1 d hsub
      | dictE p e keys vals =>
        have hbal : keys.length = vals.length :=
          (hpre _ (SubNode.refl _)).2.1 p e keys vals rfl
        obtain ⟨K, V, hset, hKV, hIKV⟩ := setSlots_dict_eq p e keys vals _ hlen hbal
        rw [hset] at heq3
        have heq4 : ((decodeColOf lines (PyNode.dictE p e K V)).map (·, q1) :
            Except Err (PyNode × List Tok)) = .ok (n1, qout) := heq3
        cases hdc : decodeColOf lines (PyNode.dictE p e K V) with
        | error e2 =>
          rw [hdc] at heq4
          have heq5 : (Except.error e2 : Except Err (PyNode × List Tok)) =
            .ok (n1, qout) := heq4
          cases heq5
        | ok nd =>
          rw [hdc] at heq4
          have heq5 : (Except.ok (nd, q1) : Except Err (PyNode × List Tok)) =
            .ok (n1, qout) := heq4
          injection heq5 with hp2
          injection hp2 with hn1 hq
          obtain ⟨line, hline, hnd⟩ := decodeColOf_ok hascii hdc rfl
          have hnd2 : nd = PyNode.dictE (p.1, min p.2 line.length) e K V := hnd
          subst hn1
          rw [hnd2]
          refine ⟨?_, rfl⟩
          intro d hd
          rcases subnode_cases hd with rfl | ⟨c, hc, hsub⟩
          · refine ⟨rfl, fun _ => ⟨line, hline, Nat.min_le_right _ _⟩, ?_,
              fun _ _ _ _ _ _ _ h => PyNode.noConfusion h, ?_,
              fun _ _ _ _ h => PyNode.noConfusion h,
              fun _ _ _ _ h => PyNode.noConfusion h,
              fun _ _ _ _ h => PyNode.noConfusion h⟩
            · intro p2 e2 k2 v2 heqc
              injection heqc with h1 h2 h3 h4
              subst h3
              subst h4
              exact hKV
            · intro s2 hs2
              have hs3 : s2 ∈ interleave K V := hs2
              rw [hIKV] at hs3
              exact (hM s2 hs3).2
          · have hc3 : c ∈ interleave K V :=
              mem_interleave_of_mem_append K V hKV (show c ∈ K ++ V from hc)
            rw [hIKV] at hc3
            exact (hM c hc3).1 d hsub
      | binOp p e l r =>
        obtain ⟨l1, r1, hss⟩ := list_len2
          (show (applyUpd (PyNode.binOp p e l r).rawSlots upd).length = 2 from hlen)
        rw [hss] at heq3
        have hl1 := hM l1 (by rw [hss]; exact List.mem_cons_self _ _)
        have hr1 := hM r1
          (by rw [hss]; exact List.mem_cons_of_mem _ (List.mem_singleton_self r1))
        have heq4 : (if compare_node_positions p l1.startP > 0 then
            Except.ok (PyNode.binOp l1.startP e l1 r1, q1)
          else (decodeColOf lines (PyNode.binOp p e l1 r1)).map (·, q1)) =
            .ok (n1, qout) := heq3
        by_cases hgt : compare_node_positions p l1.startP > 0
        · rw [if_pos hgt] at heq4
          injection heq4 with hp2
          injection hp2 with hn1 hq
          subst hn1
          refine ⟨?_, rfl⟩
          intro d hd
          rcases subnode_cases hd with rfl | ⟨c, hc, hsub⟩
          · refine ⟨rfl, ?_, fun _ _ _ _ h => PyNode.noConfusion h,
              fun _ _ _ _ _ _ _ h => PyNode.noConfusion h, ?_, ?_,
              fun _ _ _ _ h => PyNode.noConfusion h,
              fun _ _ _ _ h => PyNode.noConfusion h⟩
            · intro _
              exact (hl1.1 l1 (SubNode.refl l1)).2.1 hl1.2
            · intro s2 hs2
              rcases List.mem_cons.mp hs2 with hs3 | hs3
              · rw [hs3]; exact hl1.2
              · rw [List.mem_singleton.mp hs3]; exact hr1.2
            · intro p2 e2 l2 r2 heqc
              injection heqc with h1 h2 h3 h4
              subst h1
              subst h3
              exact posLe_refl _
          · rcases List.mem_cons.mp hc with rfl | hc2
            · exact hl1.1 d hsub
            · have hc3 : c = r1 := List.mem_singleton.mp hc2
              rw [hc3] at hsub
              exact hr1.1 d hsub
        · rw [if_neg hgt] at heq4
          have hple : posLe p l1.startP = true := posLe_of_not_gt hgt
          cases hdc : decodeColOf lines (PyNode.binOp p e l1 r1) with
          | error e2 =>
            rw [hdc] at heq4
            have heq5 : (Except.error e2 : Except Err (PyNode × List Tok)) =
              .ok (n1, qout) := heq4
            cases heq5
          | ok nd =>
            rw [hdc] at heq4
            have heq5 : (Except.ok (nd, q1) : Except Err (PyNode × List Tok)) =
              .ok (n1, qout) := heq4
            injection heq5 with hp2
            injection hp2 with hn1 hq
            obtain ⟨line, hline, hnd⟩ := decodeColOf_ok hascii hdc rfl
            have hnd2 : nd = PyNode.binOp (p.1, min p.2 line.length) e l1 r1 := hnd
            subst hn1
            rw [hnd2]
            refine ⟨?_, rfl⟩
            intro d hd
            rcases subnode_cases hd with rfl | ⟨c, hc, hsub⟩
            · refine ⟨rfl, fun _ => ⟨line, hline, Nat.min_le_right _ _⟩,
                fun _ _ _ _ h => PyNode.noConfusion h,
                fun _ _ _ _ _ _ _ h => PyNode.noConfusion h, ?_, ?_,
                fun _ _ _ _ h => PyNode.noConfusion h,
                fun _ _ _ _ h => PyNode.noConfusion h⟩
              · intro s2 hs2
                rcases List.mem_cons.mp hs2 with hs3 | hs3
                · rw [hs3]; exact hl1.2
                · rw [List.mem_singleton.mp hs3]; exact hr1.2
              · intro p2 e2 l2 r2 heqc
                injection heqc with h1 h2 h3 h4
                subst h1
                subst h3
                exact posLe_trans (posLe_min_self p.1 p.2 line.length) hple
            · rcases List.mem_cons.mp hc with rfl | hc2
              · exact hl1.1 d hsub
              · have hc3 : c = r1 := List.mem_singleton.mp hc2
                rw [hc3] at hsub
                exact hr1.1 d hsub
      | attributeE p e v a =>
        obtain ⟨v1, hss⟩ := List.length_eq_one.mp
          (show (applyUpd (PyNode.attributeE p e v a).rawSlots upd).length = 1 from hlen)
        rw [hss] at heq3
        have hv1 := hM v1 (by rw [hss]; exact List.mem_singleton_self v1)
        have hstr : v1.isStrKind = false := (hv1.1 v1 (SubNode.refl v1)).1
        have heq4 : (if v1.isStrKind = true then
            Except.ok (PyNode.attributeE v1.startP e v1 a, q1)
          else if compare_node_positions p v1.startP > 0 then
            Except.ok (PyNode.attributeE v1.startP e v1 a, q1)
          else (decodeColOf lines (PyNode.attributeE p e v1 a)).map (·, q1)) =
            .ok (n1, qout) := heq3
        rw [if_neg (by rw [hstr]; exact Bool.false_ne_true)] at heq4
        by_cases hgt : compare_node_positions p v1.startP > 0
        · rw [if_pos hgt] at heq4
          injection heq4 with hp2
          injection hp2 with hn1 hq
          subst hn1
          refine ⟨?_, rfl⟩
          intro d hd
          rcases subnode_cases hd with rfl | ⟨c, hc, hsub⟩
          · refine ⟨rfl, ?_, fun _ _ _ _ h => PyNode.noConfusion h,
              fun _ _ _ _ _ _ _ h => PyNode.noConfusion h, ?_,
              fun _ _ _ _ h => PyNode.noConfusion h, ?_,
              fun _ _ _ _ h => PyNode.noConfusion h⟩
            · intro _
              exact (hv1.1 v1 (SubNode.refl v1)).2.1 hv1.2
            · intro s2 hs2
              rw [List.mem_singleton.mp hs2]
              exact hv1.2
            · intro p2 e2 v2 a2 heqc
              injection heqc with h1 h2 h3 h4
              subst h1
              subst h3
              exact posLe_refl _
          · have hc3 : c = v1 := List.mem_singleton.mp hc
            rw [hc3] at hsub
            exact hv1.1 d hsub
        · rw [if_neg hgt] at heq4
          have hple : posLe p v1.startP = true := posLe_of_not_gt hgt
          cases hdc : decodeColOf lines (PyNode.attributeE p e v1 a) with
          | error e2 =>
            rw [hdc] at heq4
            have heq5 : (Except.error e2 : Except Err (PyNode × List Tok)) =
              .ok (n1, qout) := heq4
            cases heq5
          | ok nd =>
            rw [hdc] at heq4
            have heq5 : (Except.ok (nd, q1) : Except Err (PyNode × List Tok)) =
              .ok (n1, qout) := heq4
            injection heq5 with hp2
            injection hp2 with hn1 hq
            obtain ⟨line, hline, hnd⟩ := decodeColOf_ok hascii hdc rfl
            have hnd2 : nd = PyNode.attributeE (p.1, min p.2 line.length) e v1 a := hnd
            subst hn1
            rw [hnd2]
            refine ⟨?_, rfl⟩
            intro d hd
            rcases subnode_cases hd with rfl | ⟨c, hc, hsub⟩
            · refine ⟨rfl, fun _ => ⟨line, hline, Nat.min_le_right _ _⟩,
                fun _ _ _ _ h => PyNode.noConfusion h,
                fun _ _ _ _ _ _ _ h => PyNode.noConfusion h, ?_,
                fun _ _ _ _ h => PyNode.noConfusion h, ?_,
                fun _ _ _ _ h => PyNode.noConfusion h⟩
              · intro s2 hs2
                rw [List.mem_singleton.mp hs2]
                exact hv1.2
              · intro p2 e2 v2 a2 heqc
                injection heqc with h1 h2 h3 h4
                subst h1
                subst h3
                exact posLe_trans (posLe_min_self p.1 p.2 line.length) hple
            · have hc3 : c = v1 := List.mem_singleton.mp hc
              rw [hc3] at hsub
              exact hv1.1 d hsub
      | subscriptE p e v sl =>
        obtain ⟨v1, w1, hss⟩ := list_len2
          (show (applyUpd (PyNode.subscriptE p e v sl).rawSlots upd).length = 2 from hlen)
        rw [hss] at heq3
        have hv1 := hM v1 (by rw [hss]; exact List.mem_cons_self _ _)
        have hw1 := hM w1
          (by rw [hss]; exact List.mem_cons_of_mem _ (List.mem_singleton_self w1))
        have heq4 : (if compare_node_positions p v1.startP > 0 then
            Except.ok (PyNode.subscriptE v1.startP e v1 w1, q1)
          else (decodeColOf lines (PyNode.subscriptE p e v1 w1)).map (·, q1)) =
            .ok (n1, qout) := heq3
        by_cases hgt : compare_node_positions p v1.startP > 0
        · rw [if_pos hgt] at heq4
          injection heq4 with hp2
          injection hp2 with hn1 hq
          subst hn1
          refine ⟨?_, rfl⟩
          intro d hd
          rcases subnode_cases hd with rfl | ⟨c, hc, hsub⟩
          · refine ⟨rfl, ?_, fun _ _ _ _ h => PyNode.noConfusion h,
              fun _ _ _ _ _ _ _ h => PyNode.noConfusion h, ?_,
              fun _ _ _ _ h => PyNode.noConfusion h,
              fun _ _ _ _ h => PyNode.noConfusion h, ?_⟩
            · intro _
              exact (hv1.1 v1 (SubNode.refl v1)).2.1 hv1.2
            · intro s2 hs2
              rcases List.mem_cons.mp hs2 with hs3 | hs3
              · rw [hs3]; exact hv1.2
              · rw [List.mem_singleton.mp hs3]; exact hw1.2
            · intro p2 e2 v2 sl2 heqc
              injection heqc with h1 h2 h3 h4
              subst h1
              subst h3
              exact posLe_refl _
          · rcases List.mem_cons.mp hc with rfl | hc2
            · exact hv1.1 d hsub
            · have hc3 : c = w1 := List.mem_singleton.mp hc2
              rw [hc3] at hsub
              exact hw1.1 d hsub
        · rw [if_neg hgt] at heq4
          have hple : posLe p v1.startP = true := posLe_of_not_gt hgt
          cases hdc : decodeColOf lines (PyNode.subscriptE p e v1 w1) with
          | error e2 =>
            rw [hdc] at heq4
            have heq5 : (Except.error e2 : Except Err (PyNode × List Tok)) =
              .ok (n1, qout) := heq4
            cases heq5
          | ok nd =>
            rw [hdc] at heq4
            have heq5 : (Except.ok (nd, q1) : Except Err (PyNode × List Tok)) =
              .ok (n1, qout) := heq4
            injection heq5 with hp2
            injection hp2 with hn1 hq
            obtain ⟨line, hline, hnd⟩ := decodeColOf_ok hascii hdc rfl
            have hnd2 : nd = PyNode.subscriptE (p.1, min p.2 line.length) e v1 w1 := hnd
            subst hn1
            rw [hnd2]
            refine ⟨?_, rfl⟩
            intro d hd
            rcases subnode_cases hd with rfl | ⟨c, hc, hsub⟩
            · refine ⟨rfl, fun _ => ⟨line, hline, Nat.min_le_right _ _⟩,
                fun _ _ _ _ h => PyNode.noConfusion h,
                fun _ _ _ _ _ _ _ h => PyNode.noConfusion h, ?_,
                fun _ _ _ _ h => PyNode.noConfusion h,
                fun _ _ _ _ h => PyNode.noConfusion h, ?_⟩
              · intro s2 hs2
                rcases List.mem_cons.mp hs2 with hs3 | hs3
                · rw [hs3]; exact hv1.2
                · rw [List.mem_singleton.mp hs3]; exact hw1.2
              · intro p2 e2 v2 sl2 heqc
                injection heqc with h1 h2 h3 h4
                subst h1
                subst h3
                exact posLe_trans (posLe_min_self p.1 p.2 line.length) hple
            · rcases List.mem_cons.mp hc with rfl | hc2
              · exact hv1.1 d hsub
              · have hc3 : c = w1 := List.mem_singleton.mp hc2
                rw [hc3] at hsub
                exact hw1.1 d hsub
      | kwNode a rng v =>
        obtain ⟨v1, hss⟩ := List.length_eq_one.mp
          (show (applyUpd (PyNode.kwNode a rng v).rawSlots upd).length = 1 from hlen)
        rw [hss] at heq3
        have hv1 := hM v1 (by rw [hss]; exact List.mem_singleton_self v1)
        have heq4 : (Except.ok (PyNode.kwNode a rng v1, q1) :
            Except Err (PyNode × List Tok)) = .ok (n1, qout) := heq3
        injection heq4 with hp2
        injection hp2 with hn1 hq
        subst hn1
        exact ⟨FixInv_kwNode hv1.1 hv1.2, rfl⟩
      | call p e fn args kws star dstar =>
        have hkwsh : ∀ k ∈ kws, ∃ a rng v, k = kwNode a rng v :=
          (hpre _ (SubNode.refl _)).2.2.1 p e fn args kws star dstar rfl
        have hkw2 : ∀ p2 e2 f2 a2 k2 s2 d2,
            PyNode.call p e fn args kws star dstar =
              PyNode.call p2 e2 f2 a2 k2 s2 d2 →
            ∀ k ∈ k2, ∃ a2 rng2 v2, k = kwNode a2 rng2 v2 := by
          intro p2 e2 f2 a2 k2 s2 d2 heqc
          injection heqc with h1 h2 h3 h4 h5 h6 h7
          subst h5
          exact hkwsh
        have hlen2 : (applyUpd (PyNode.call p e fn args kws star dstar).rawSlots
            upd).length =
            1 + (args.length + (kws.length + (star.length + dstar.length))) := by
          rw [hlen]
          simp only [rawSlots, List.length_cons, List.length_append, List.length_map]
          omega
        obtain ⟨x, rest, hssx, hrl, hset, hreq⟩ :=
          setSlots_call_eq p e fn args kws star dstar _ hlen2
        have hrest_ss : ∀ c ∈ rest,
            c ∈ applyUpd (PyNode.call p e fn args kws star dstar).rawSlots upd := by
          intro c hc2
          rw [hssx]
          exact List.mem_cons_of_mem _ hc2
        have hx := hM x (by rw [hssx]; exact List.mem_cons_self _ _)
        rw [hset] at heq3
        have hraw : ∀ P : Pos, (PyNode.call P e x (rest.take args.length)
            (kws.zipWith withKwValue ((rest.drop args.length).take kws.length))
            ((rest.drop (args.length + kws.length)).take star.length)
            (rest.drop (args.length + kws.length + star.length))).rawSlots =
            applyUpd (PyNode.call p e fn args kws star dstar).rawSlots upd := by
          intro P
          have h0 := rawSlots_setSlots (PyNode.call p e fn args kws star dstar) _
            hlen (fun _ _ _ _ h => PyNode.noConfusion h) hkw2
          rw [hset] at h0
          exact h0
        have hKsh : ∀ k ∈ kws.zipWith withKwValue
            ((rest.drop args.length).take kws.length),
            ∃ a2 rng2 v2, k = kwNode a2 rng2 v2 := by
          intro k hk
          obtain ⟨a2, rng2, v2, hceq, hv2⟩ := mem_zipWith_withKw hkwsh hk
          exact ⟨a2, rng2, v2, hceq⟩
        have hchild : ∀ c, c ∈ rest.take args.length ++
            kws.zipWith withKwValue ((rest.drop args.length).take kws.length) ++
            (rest.drop (args.length + kws.length)).take star.length ++
            rest.drop (args.length + kws.length + star.length) →
            FixInv lines c := by
          intro c hc2
          rcases List.mem_append.mp hc2 with h1 | h1
          · rcases List.mem_append.mp h1 with h2 | h2
            · rcases List.mem_append.mp h2 with h3 | h3
              · exact (hM c (hrest_ss c (List.mem_of_mem_take h3))).1
              · obtain ⟨a2, rng2, v2, hceq, hv2⟩ := mem_zipWith_withKw hkwsh h3
                have hv2M := hM v2
                  (hrest_ss v2 (List.mem_of_mem_drop (List.mem_of_mem_take hv2)))
                rw [hceq]
                exact FixInv_kwNode hv2M.1 hv2M.2
            · exact (hM c
                (hrest_ss c (List.mem_of_mem_drop (List.mem_of_mem_take h2)))).1
          · exact (hM c (hrest_ss c (List.mem_of_mem_drop h1))).1
        have heq4 : (if compare_node_positions p x.startP > 0 then
            Except.ok (PyNode.call x.startP e x (rest.take args.length)
              (kws.zipWith withKwValue ((rest.drop args.length).take kws.length))
              ((rest.drop (args.length + kws.length)).take star.length)
              (rest.drop (args.length + kws.length + star.length)), q1)
          else (decodeColOf lines (PyNode.call p e x (rest.take args.length)
              (kws.zipWith withKwValue ((rest.drop args.length).take kws.length))
              ((rest.drop (args.length + kws.length)).take star.length)
              (rest.drop (args.length + kws.length + star.length)))).map (·, q1)) =
            .ok (n1, qout) := heq3
        by_cases hgt : compare_node_positions p x.startP > 0
        · rw [if_pos hgt] at heq4
          injection heq4 with hp2
          injection hp2 with hn1 hq
          subst hn1
          refine ⟨?_, rfl⟩
          intro d hd
          rcases subnode_cases hd with rfl | ⟨c, hc, hsub⟩
          · refine ⟨rfl, ?_, fun _ _ _ _ h => PyNode.noConfusion h, ?_, ?_,
              fun _ _ _ _ h => PyNode.noConfusion h,
              fun _ _ _ _ h => PyNode.noConfusion h,
              fun _ _ _ _ h => PyNode.noConfusion h⟩
            · intro _
              exact (hx.1 x (SubNode.refl x)).2.1 hx.2
            · intro p2 e2 f2 a2 k2 s2 d2 heqc
              injection heqc with h1 h2 h3 h4 h5 h6 h7
              subst h1
              subst h3
              subst h5
              exact ⟨hKsh, posLe_refl _⟩
            · intro s2 hs2
              rw [hraw x.startP] at hs2
              exact (hM s2 hs2).2
          · rcases List.mem_cons.mp hc with rfl | hc2
            · exact hx.1 d hsub
            · exact hchild c hc2 d hsub
        · rw [if_neg hgt] at heq4
          have hple : posLe p x.startP = true := posLe_of_not_gt hgt
          cases hdc : decodeColOf lines (PyNode.call p e x (rest.take args.length)
              (kws.zipWith withKwValue ((rest.drop args.length).take kws.length))
              ((rest.drop (args.length + kws.length)).take star.length)
              (rest.drop (args.length + kws.length + star.length))) with
          | error e2 =>
            rw [hdc] at heq4
            have heq5 : (Except.error e2 : Except Err (PyNode × List Tok)) =
              .ok (n1, qout) := heq4
            cases heq5
          | ok nd =>
            rw [hdc] at heq4
            have heq5 : (Except.ok (nd, q1) : Except Err (PyNode × List Tok)) =
              .ok (n1, qout) := heq4
            injection heq5 with hp2
            injection hp2 with hn1 hq
            obtain ⟨line, hline, hnd⟩ := decodeColOf_ok hascii hdc rfl
            have hnd2 : nd = PyNode.call (p.1, min p.2 line.length) e x
              (rest.take args.length)
              (kws.zipWith withKwValue ((rest.drop args.length).take kws.length))
              ((rest.drop (args.length + kws.length)).take star.length)
              (rest.drop (args.length + kws.length + star.length)) := hnd
            subst hn1
            rw [hnd2]
            refine ⟨?_, rfl⟩
            intro d hd
            rcases subnode_cases hd with rfl | ⟨c, hc, hsub⟩
            · refine ⟨rfl, fun _ => ⟨line, hline, Nat.min_le_right _ _⟩,
                fun _ _ _ _ h => PyNode.noConfusion h, ?_, ?_,
                fun _ _ _ _ h => PyNode.noConfusion h,
                fun _ _ _ _ h => PyNode.noConfusion h,
                fun _ _ _ _ h => PyNode.noConfusion h⟩
              · intro p2 e2 f2 a2 k2 s2 d2 heqc
                injection heqc with h1 h2 h3 h4 h5 h6 h7
                subst h1
                subst h3
                subst h5
                exact ⟨hKsh, posLe_trans (posLe_min_self p.1 p.2 line.length) hple⟩
              · intro s2 hs2
                rw [hraw (p.1, min p.2 line.length)] at hs2
                exact (hM s2 hs2).2
            · rcases List.mem_cons.mp hc with rfl | hc2
              · exact hx.1 d hsub
              · exact hchild c hc2 d hsub
theorem fixPairsF_estab : ∀ (f : Nat) (lines : List (List Char)) (q : List Tok)
    (pairs upd : List (Nat × PyNode)) (qout : List Tok),
    (∀ l ∈ lines, ∀ c ∈ l, utf8Width c = 1) →
    (∀ (i : Nat) (s : PyNode), (i, s) ∈ pairs → PreInv s) →
    fixPairsF f lines pairs q = .ok (upd, qout) →
    upd.map Prod.fst = pairs.map Prod.fst ∧
    ∀ (i : Nat) (s : PyNode), (i, s) ∈ pairs →
      ∃ s1, (i, s1) ∈ upd ∧ FixInv lines s1 ∧
        s1.positionedKind = s.positionedKind
  | 0, lines, q, pairs, upd, qout => by
    intro _ _ heq
    cases heq
  | f + 1, lines, q, [], upd, qout => by
    intro _ _ heq
    have heq2 : (Except.ok (([] : List (Nat × PyNode)), q) :
        Except Err (List (Nat × PyNode) × List Tok)) = .ok (upd, qout) := heq
    injection heq2 with hp2
    injection hp2 with hu hq
    subst hu
    exact ⟨rfl, fun i s hm => absurd hm (List.not_mem_nil _)⟩
  | f + 1, lines, q, (i, s) :: rest, upd, qout => by
    intro hascii hpre heq
    have heq2 : (match fixNodeF f lines q s with
      | .error e => (.error e : Except Err (List (Nat × PyNode) × List Tok))
      | .ok (s1, q1) =>
        match fixPairsF f lines rest q1 with
        | .error e => .error e
        | .ok (upd2, q2) => .ok ((i, s1) :: upd2, q2)) = .ok (upd, qout) := heq
    cases hfx : fixNodeF f lines q s with
    | error e =>
      rw [hfx] at heq2
      have heq3 : (Except.error e : Except Err (List (Nat × PyNode) × List Tok)) =
        .ok (upd, qout) := heq2
      cases heq3
    | ok r =>
      obtain ⟨s1, q1⟩ := r
      rw [hfx] at heq2
      have heq2b : (match fixPairsF f lines rest q1 with
        | .error e => (.error e : Except Err (List (Nat × PyNode) × List Tok))
        | .ok (upd2, q2) => .ok ((i, s1) :: upd2, q2)) = .ok (upd, qout) := heq2
      cases hrest : fixPairsF f lines rest q1 with
      | error e =>
        rw [hrest] at heq2b
        have heq3 : (Except.error e : Except Err (List (Nat × PyNode) × List Tok)) =
          .ok (upd, qout) := heq2b
        cases heq3
      | ok r2 =>
        obtain ⟨upd2, q2⟩ := r2
        rw [hrest] at heq2b
        have heq3 : (Except.ok ((i, s1) :: upd2, q2) :
            Except Err (List (Nat × PyNode) × List Tok)) = .ok (upd, qout) := heq2b
        injection heq3 with hp2
        injection hp2 with hu hq
        subst hu
        obtain ⟨hf1, hf2⟩ := fixNodeF_estab f lines q s s1 q1 hascii
          (hpre i s (List.mem_cons_self _ _)) hfx
        obtain ⟨hfst, hpt⟩ := fixPairsF_estab f lines q1 rest upd2 q2 hascii
          (fun i2 s2 hm => hpre i2 s2 (List.mem_cons_of_mem _ hm)) hrest
        refine ⟨?_, ?_⟩
        · simp only [List.map_cons, hfst]
        · intro i2 s2 hm
          rcases List.mem_cons.mp hm with heqc | hm2
          · injection heqc with h1 h2
            subst h1
            subst h2
            exact ⟨s1, List.mem_cons_self _ _, hf1, hf2⟩
          · obtain ⟨s3, hs3, hfx3, hk3⟩ := hpt i2 s2 hm2
            exact ⟨s3, List.mem_cons_of_mem _ hs3, hfx3, hk3⟩
end

/-- Executable check of the local part of `PreInv` at one node. -/
def preLocalB (d : PyNode) : Bool :=
  (!d.isStrKind) &&
  (match d with
    | dictE _ _ keys vals => keys.length == vals.length
    | _ => true) &&
  (match d with
    | call _ _ _ _ kws _ _ =>
      kws.all fun k => match k with
        | kwNode _ _ _ => true
        | _ => false
    | _ => true) &&
  d.rawSlots.all (fun s => s.positionedKind)

/-- Fuelled executable check of `PreInv` over the whole tree. -/
def preB : Nat → PyNode → Bool
  | 0, _ => false
  | f + 1, d => preLocalB d && d.iterChildNodes.all (preB f)

theorem preLocalB_sound {d : PyNode} (h : preLocalB d = true) :
    d.isStrKind = false ∧
    (∀ p e keys vals, d = dictE p e keys vals → keys.length = vals.length) ∧
    (∀ p e f args kws star dstar, d = call p e f args kws star dstar →
      ∀ k ∈ kws, ∃ a rng v, k = kwNode a rng v) ∧
    (∀ s ∈ d.rawSlots, s.positionedKind = true) := by
  unfold preLocalB at h
  rw [Bool.and_eq_true, Bool.and_eq_true, Bool.and_eq_true] at h
  obtain ⟨⟨⟨h1, hdict⟩, hcall⟩, hslots⟩ := h
  refine ⟨?_, ?_, ?_, ?_⟩
  · cases hstr : d.isStrKind
    · rfl
    · rw [hstr] at h1
      cases h1
  · intro p e keys vals heq
    subst heq
    have h3 : (keys.length == vals.length) = true := hdict
    exact beq_iff_eq.mp h3
  · intro p e f2 args kws star dstar heq
    subst heq
    have h3 : (kws.all fun k => match k with
      | kwNode _ _ _ => true
      | _ => false) = true := hcall
    rw [List.all_eq_true] at h3
    intro k hk
    have h4 := h3 k hk
    cases k with
    | kwNode a2 rng2 v2 => exact ⟨a2, rng2, v2, rfl⟩
    | module body => exact Bool.noConfusion h4
    | exprStmt p2 e2 v2 => exact Bool.noConfusion h4
    | name p2 e2 i2 => exact Bool.noConfusion h4
    | num p2 e2 l2 => exact Bool.noConfusion h4
    | strE p2 e2 l2 => exact Bool.noConfusion h4
    | tupleE p2 e2 elts2 => exact Bool.noConfusion h4
    | dictE p2 e2 k2 v2 => exact Bool.noConfusion h4
    | binOp p2 e2 l2 r2 => exact Bool.noConfusion h4
    | attributeE p2 e2 v2 a2 => exact Bool.noConfusion h4
    | subscriptE p2 e2 v2 s2 => exact Bool.noConfusion h4
    | call p2 e2 f3 a3 k3 s3 d3 => exact Bool.noConfusion h4
  · intro s2 hs2
    rw [List.all_eq_true] at hslots
    exact hslots s2 hs2

theorem preB_sound : ∀ (f : Nat) (d : PyNode), preB f d = true → PreInv d
  | 0, d => by
    intro h
    cases h
  | f + 1, d => by
    intro h
    have h2 : (preLocalB d && d.iterChildNodes.all (preB f)) = true := h
    rw [Bool.and_eq_true] at h2
    intro d2 hd2
    rcases subnode_cases hd2 with rfl | ⟨c, hc, hsub⟩
    · exact preLocalB_sound h2.1
    · have hc2 : preB f c = true := by
        have h3 := h2.2
        rw [List.all_eq_true] at h3
        exact h3 c hc
      exact preB_sound f c hc2 d2 hsub

/-- The parse tree of `a + b`, with the parser's wrong `BinOp` column 2
(the operator position) instead of the start of the left operand. -/
def treeC4 : PyNode :=
  module [exprStmt (1, 0) none
    (binOp (1, 2) none (name (1, 0) none "a") (name (1, 4) none "b"))]

/-- `treeC4` after one corrector run: rule 3 has moved the `BinOp` start
to its left operand's start. -/
def treeC4fixed : PyNode :=
  module [exprStmt (1, 0) none
    (binOp (1, 0) none (name (1, 0) none "a") (name (1, 4) none "b"))]

/-- C4 (amended): on sources whose lines are all single-byte (ASCII)
characters and trees without string-literal nodes (balanced dict
literals, genuine keyword nodes, positioned children), running
`fix_ast_problems` a second time with the same source lines and token
list returns the first run's output tree unchanged.  (The original claim
fails for multi-byte sources, where rule 6's byte-prefix decode shrinks
an already-corrected column again: `C4_counterexample`.) -/
theorem C4_amended (tree tree1 : PyNode) (source_lines : List String)
    (tokens : List Tok)
    (hascii : ∀ l ∈ source_lines.map String.data, ∀ c ∈ l, utf8Width c = 1)
    (hpre : PreInv tree)
    (h1 : fix_ast_problems tree source_lines tokens = .ok tree1) :
    fix_ast_problems tree1 source_lines tokens = .ok tree1 := by
  have h2 : (fixNode (source_lines.map String.data)
      (tokens.filter (fun t => t.ttype == tokSTRING)) tree).map (·.1) =
      .ok tree1 := h1
  cases hfx : fixNode (source_lines.map String.data)
      (tokens.filter (fun t => t.ttype == tokSTRING)) tree with
  | error e =>
    rw [hfx] at h2
    have h3 : (Except.error e : Except Err PyNode) = .ok tree1 := h2
    cases h3
  | ok r =>
    obtain ⟨t1, q1⟩ := r
    rw [hfx] at h2
    have h3 : (Except.ok t1 : Except Err PyNode) = .ok tree1 := h2
    injection h3 with h4
    subst h4
    obtain ⟨hfixinv, hk⟩ := fixNodeF_estab (nsize tree + 1)
      (source_lines.map String.data)
      (tokens.filter (fun t => t.ttype == tokSTRING)) tree t1 q1 hascii hpre hfx
    show (fixNode (source_lines.map String.data)
        (tokens.filter (fun t => t.ttype == tokSTRING)) t1).map (·.1) = .ok t1
    rw [show fixNode (source_lines.map String.data)
        (tokens.filter (fun t => t.ttype == tokSTRING)) t1 =
        fixNodeF (nsize t1 + 1) (source_lines.map String.data)
          (tokens.filter (fun t => t.ttype == tokSTRING)) t1 from rfl]
    rw [fixNodeF_fixed (nsize t1 + 1) (source_lines.map String.data)
      (tokens.filter (fun t => t.ttype == tokSTRING)) t1 hascii hfixinv
      (Nat.lt_succ_self _)]
    rfl

/-- Witness for C4: on the ASCII source `a + b` with the parser-style
tree `treeC4`, the first corrector run returns `treeC4fixed` and the
second run (via `C4_amended`) returns it unchanged. -/
theorem C4_amended_witness :
    fix_ast_problems treeC4 ["a + b"] [] = .ok treeC4fixed ∧
    fix_ast_problems treeC4fixed ["a + b"] [] = .ok treeC4fixed :=
  ⟨by rfl, C4_amended treeC4 treeC4fixed ["a + b"] []
    (by decide) (preB_sound 5 treeC4 (by rfl)) (by rfl)⟩

end AstUtils
